import Mathlib

/-!
Verification development for the NetworkAnalysis repository
(`classes/Node.py`, `classes/Graph.py`, `classes/GraphManager.py`).

The Python program is embedded shallowly:

* A `NodeRec` mirrors the attributes of `Node` (`Node.__init__`); node
  objects are identified by natural-number ids, and the object graph is a
  `Heap : Nat → NodeRec`.  Mutation of a node attribute becomes a pointwise
  functional update of the heap.
* A `Graph` record mirrors the attributes set in `Graph.__init__`.
* Python `set`s are modelled as insertion-ordered duplicate-free lists
  (`setAdd` refuses duplicates), and Python `dict`s as insertion-ordered
  association lists; `len`, membership and iteration agree with the source.
* `math.inf` distances are modelled by `⊤ : WithTop Nat`; Python floats
  produced by unlimited-precision division are modelled by `ℚ`.
* Loops whose termination is a property of the data (the `dijsktra` while
  loop, the recursive searches, the community-detection while loop) receive
  an explicit fuel parameter; fuel exhaustion returns the designated
  "failed" value of the corresponding Python function, and the theorems
  below either hold for every fuel or are proved together with a fuel
  sufficiency argument.
-/

namespace NetworkAnalysis

/-- Python `set.add` on a set modelled as an insertion-ordered
duplicate-free list. -/
def setAdd {α : Type} [DecidableEq α] (s : List α) (x : α) : List α :=
  if x ∈ s then s else s ++ [x]

/-!
Rational arithmetic.  Python's unlimited-precision division is modelled by
`ℚ`; the arithmetic is spelled with the kernel-transparent constructors
`mkRat`/`Rat.divInt` (the library's `Rat.add`/`Rat.mul`/`Rat.sub` are
irreducible, which would block evaluation of the theorems below on
concrete inputs).  `qadd`/`qsub`/`qmul`/`qdiv` agree with rational
`+`/`-`/`*`/`/` (with `x / 0 = 0`, Python raises there; every division
site below is either guarded by the source or noted).
-/

/-- Rational addition. -/
def qadd (a b : ℚ) : ℚ := mkRat (a.num * b.den + b.num * a.den) (a.den * b.den)

/-- Rational subtraction. -/
def qsub (a b : ℚ) : ℚ := mkRat (a.num * b.den - b.num * a.den) (a.den * b.den)

/-- Rational multiplication. -/
def qmul (a b : ℚ) : ℚ := mkRat (a.num * b.num) (a.den * b.den)

/-- Rational division (`0` on a zero divisor). -/
def qdiv (a b : ℚ) : ℚ := Rat.divInt (a.num * b.den) (a.den * b.num)

/-- A natural number as a rational. -/
def qn (n : Nat) : ℚ := mkRat n 1

/-- An integer as a rational. -/
def qi (z : Int) : ℚ := mkRat z 1

/-- Python `sum` over a rational list. -/
def qsum (l : List ℚ) : ℚ := l.foldl qadd 0

/-- `Node.__init__` (`classes/Node.py`): one record per node object.
`neighbors` is the adjacency list (ids), `paths` is the dictionary from a
finish node to either the set of shortest paths or the explicit `None`
unreachable marker, `distance`/`parent`/`color` are the transient
pathfinding fields. -/
structure NodeRec where
  name : String
  neighbors : List Nat
  degree : Nat
  clustering_coefficient : ℚ
  betweeness : ℚ
  bridge_paths : List (List Nat)
  closeness : ℚ
  color : Option String
  parent : Option Nat
  distance : WithTop Nat
  paths : List (Nat × Option (List (List Nat)))
deriving DecidableEq

/-- The object store: node id to node record. -/
abbrev Heap := Nat → NodeRec

/-- A fresh `Node(name=...)` as built by `Node.__init__`. -/
def Node_init (name : String) : NodeRec :=
  { name := name
    neighbors := []
    degree := 0
    clustering_coefficient := 0
    betweeness := 0
    bridge_paths := []
    closeness := 0
    color := none
    parent := none
    distance := ⊤
    paths := [] }

/-- Update one node record in the heap. -/
def hset (h : Heap) (i : Nat) (f : NodeRec → NodeRec) : Heap :=
  fun j => if j = i then f (h j) else h j

theorem hset_same (h : Heap) (i : Nat) (f : NodeRec → NodeRec) :
    hset h i f i = f (h i) := by simp [hset]

theorem hset_other (h : Heap) (i : Nat) (f : NodeRec → NodeRec) {j : Nat}
    (hj : j ≠ i) : hset h i f j = h j := by simp [hset, hj]

/-- `Graph.__init__` field collection (`classes/Graph.py`, lines 27-87).
`subgraphs` and `snips` are produced by `analyze_communities` and are
returned by that function here instead of being stored, since a Lean
structure cannot contain itself. -/
structure Graph where
  name : String
  nodes : List Nat
  analyzed : Bool
  am : List (List Nat)
  max_degree : Nat
  min_degree : WithTop Nat
  total_degree : Nat
  average_degree : ℚ
  number_of_edges : Nat
  density : Option ℚ
  max_betweeness : Option ℚ
  average_betweeness : Option ℚ
  min_betweeness : Option ℚ
  total_paths : Option Nat
  edge_bridges : List ((Nat × Nat) × List (List Nat))
  edge_betweeness : List ((Nat × Nat) × ℚ)
  max_edge_betweeness : ℚ
  avg_edge_betweeness : ℚ
  max_closeness : Option ℚ
  average_closeness : Option ℚ
  min_closeness : Option ℚ
  max_cluster_coefficient : Option ℚ
  average_cluster_coefficient : Option ℚ
  min_cluster_coefficient : Option ℚ
  connected : Option Bool
  connectivity : Option (WithTop Nat)
  partitions : List (List Nat)
  bipartite : Option Bool
  diameter : Option Nat
  average_path_length : WithTop ℚ
  hamilton_circuit : Option (List (Option Nat))
  hamilton_path : Option (List (Option Nat))
  euler_circuit : Option (List Nat)
  euler_path : Option (List Nat)
  odd_cycle : Option (List Nat)
deriving DecidableEq

/-- `Graph(name)`: the initial field values of `Graph.__init__`. -/
def Graph_init (name : String) : Graph :=
  { name := name
    nodes := []
    analyzed := false
    am := []
    max_degree := 0
    min_degree := ⊤
    total_degree := 0
    average_degree := 0
    number_of_edges := 0
    density := some 0
    max_betweeness := none
    average_betweeness := none
    min_betweeness := none
    total_paths := none
    edge_bridges := []
    edge_betweeness := []
    max_edge_betweeness := 0
    avg_edge_betweeness := 0
    max_closeness := none
    average_closeness := none
    min_closeness := none
    max_cluster_coefficient := none
    average_cluster_coefficient := none
    min_cluster_coefficient := none
    connected := none
    connectivity := none
    partitions := []
    bipartite := none
    diameter := none
    average_path_length := ⊤
    hamilton_circuit := none
    hamilton_path := none
    euler_circuit := none
    euler_path := none
    odd_cycle := none }

/-- `Graph.get_node_by_name`: first node whose name matches, else `None`. -/
def get_node_by_name (g : Graph) (h : Heap) (name : String) : Option Nat :=
  g.nodes.find? (fun i => (h i).name == name)

/-- `Graph.set_adjacency_matrix`. -/
def set_adjacency_matrix (g : Graph) (h : Heap) : Graph :=
  { g with am :=
      g.nodes.map (fun i => g.nodes.map (fun j =>
        if j ∈ (h i).neighbors then 1 else 0)) }

/-- `Graph.set_node_degrees`: sets every node's `degree` and the graph's
total/max/min/average degree. -/
def set_node_degrees (g : Graph) (h : Heap) : Graph × Heap :=
  let r := g.nodes.foldl
    (fun (acc : Nat × Nat × WithTop Nat × Heap) i =>
      let tot := acc.1
      let mx := acc.2.1
      let mn := acc.2.2.1
      let hh := acc.2.2.2
      let d := (hh i).neighbors.length
      let hh := hset hh i (fun n => { n with degree := d })
      (tot + d, if mx < d then d else mx,
       if (d : WithTop Nat) < mn then (d : WithTop Nat) else mn, hh))
    (0, 0, ⊤, h)
  let g := { g with total_degree := r.1, max_degree := r.2.1, min_degree := r.2.2.1 }
  let g := { g with average_degree :=
      if g.nodes.length ≠ 0 then qdiv (qn g.total_degree) (qn g.nodes.length) else 0 }
  (g, r.2.2.2)

/-- `Graph.set_number_of_connections_and_density`. -/
def set_number_of_connections_and_density (g : Graph) : Graph :=
  let e := g.total_degree / 2
  let lmax := (g.nodes.length * (g.nodes.length - 1)) / 2
  { g with number_of_edges := e
           density := if lmax ≠ 0 then some (qdiv (qn e) (qn lmax)) else none }

/-- `Graph.reset_pathfinding`: reset `parent`/`distance` of every node of
the graph. -/
def reset_pathfinding (g : Graph) (h : Heap) : Heap :=
  g.nodes.foldl (fun hh i => hset hh i
    (fun n => { n with parent := none, distance := ⊤ })) h

/-- `Graph.reset_color`.  (Defined in the source but never invoked by any
caller in the repository.) -/
def reset_color (g : Graph) (h : Heap) : Heap :=
  g.nodes.foldl (fun hh i => hset hh i (fun n => { n with color := none })) h

/-- Stable insertion used by `sort_nodes_by_name`. -/
def insertBy {α : Type} (le : α → α → Bool) (x : α) : List α → List α
  | [] => [x]
  | y :: ys => if le y x then y :: insertBy le x ys else x :: y :: ys

/-- Insertion sort with a boolean `≤` test. -/
def sortBy {α : Type} (le : α → α → Bool) : List α → List α
  | [] => []
  | x :: xs => insertBy le x (sortBy le xs)

/-- Python `str.isdigit` (empty string is not a digit string). -/
def isdigit (s : String) : Bool :=
  s.data.length != 0 && s.data.all Char.isDigit

/-- Python `int(...)` on a digit string (the callers guard with
`isdigit`). -/
def digitsToNat (l : List Char) : Nat :=
  l.foldl (fun acc c => acc * 10 + (c.toNat - '0'.toNat)) 0

/-- `Graph.sort_nodes_by_name`: numeric sort when every node name is a
digit string, else lexicographic by name. -/
def sort_nodes_by_name (g : Graph) (h : Heap) : Graph :=
  if g.nodes.all (fun i => isdigit (h i).name) then
    { g with nodes := sortBy (fun i j => digitsToNat (h i).name.data ≤ digitsToNat (h j).name.data) g.nodes }
  else
    { g with nodes := sortBy (fun i j => (h i).name ≤ (h j).name) g.nodes }

/-! ### `Graph.dijsktra` (breadth-first search, lines 528-586)

The Python while loop pops a FIFO queue; a node is appended at most once
(its `distance` becomes finite on first discovery and the counter only
grows), so `len(nodes) + 1` iterations always suffice; the wrapper below
passes exactly that fuel and fuel exhaustion returns the `None` result.
The `closed_list` of the source is omitted: it is created empty and no
statement ever adds to it, so both `if neighbour in closed_list` and the
removal are dead code. -/

/-- Result of `dijsktra`: a found node, the frontier list of the radius
mode, or Python's implicit `None`. -/
inductive DijRes where
  | node (i : Nat)
  | frontier (l : List Nat)
  | nores
deriving DecidableEq

/-- The `for neighbour in current_node.neighbors` body of `dijsktra`.
`Sum.inl` is the early `return neighbour` of the bipartite conflict check
(with the heap as mutated so far); `Sum.inr` is normal completion. -/
def dijNbrs (bip : Bool) (cur : Nat) (c : Nat) :
    List Nat → Heap → List Nat → Sum (Nat × Heap) (Heap × List Nat)
  | [], h, opn => .inr (h, opn)
  | nb :: rest, h, opn =>
    if bip ∧ (h nb).color ≠ none ∧ (h nb).color = (h cur).color then
      .inl (nb, h)
    else
      let newc : String := if (h cur).color = some "cyan" then "magenta" else "cyan"
      let h1 := if bip ∧ (h nb).color = none then
          hset h nb (fun n => { n with color := some newc })
        else h
      if (c : WithTop Nat) < (h1 nb).distance then
        let h2 := hset h1 nb (fun n =>
          { n with distance := (c : WithTop Nat), parent := some cur })
        dijNbrs bip cur c rest h2 (if nb ∈ opn then opn else opn ++ [nb])
      else
        dijNbrs bip cur c rest h1 opn

/-- The while loop of `dijsktra`: state is the open list, heap and
`current_distance` counter. -/
def dijLoop (bip : Bool) (finish : Option Nat) (maxd : WithTop Nat) :
    Nat → List Nat → Heap → Nat → DijRes × Heap
  | 0, _, h, _ => (.nores, h)
  | fuel + 1, opn, h, c =>
    match opn with
    | [] => (.nores, h)
    | cur :: rest =>
      if (c : WithTop Nat) < maxd then
        let c' := c + 1
        if some cur = finish then (.node cur, h)
        else if (c' : WithTop Nat) = maxd then
          (.frontier ((h cur).neighbors.filter (fun nb => (h nb).distance = ⊤)), h)
        else
          match dijNbrs bip cur c' (h cur).neighbors h rest with
          | .inl (nb, h2) => (.node nb, h2)
          | .inr (h2, opn2) => dijLoop bip finish maxd fuel opn2 h2 c'
      else (.nores, h)

/-- `Graph.dijsktra(start, finish, max_distance, bipartite)`. -/
def dijsktra (g : Graph) (h : Heap) (start : Nat) (finish : Option Nat)
    (maxd : WithTop Nat) (bip : Bool) : DijRes × Heap :=
  let h := reset_pathfinding g h
  let h := if bip ∧ (h start).color = none then
      hset h start (fun n => { n with color := some "magenta" }) else h
  let h := hset h start (fun n => { n with distance := ((0 : Nat) : WithTop Nat) })
  dijLoop bip finish maxd (g.nodes.length + 1) [start] h 0

/-- The parent walk of `Graph.get_path_from_final_node`: `path = [node]`,
then repeatedly append `node.parent`.  Parent chains produced by `dijsktra`
strictly decrease in `distance`, so `len(nodes) + 1` steps always suffice
for the fuel. -/
def walk_parents (h : Heap) : Nat → Nat → List Nat → List Nat
  | 0, _, acc => acc
  | fuel + 1, node, acc =>
    match (h node).parent with
    | none => acc
    | some p => walk_parents h fuel p (acc ++ [p])

/-- `Graph.get_path_from_final_node`. -/
def get_path_from_final_node (g : Graph) (h : Heap) : Option Nat → Option (List Nat)
  | none => none
  | some node => some ((walk_parents h (g.nodes.length + 1) node [node]).reverse)

/-! ### `Graph.depth_first_search` (lines 420-526)

The single Python function branches statically on `search_type`; it is
embedded as one specialised function per mode ("a", "ep"/"ec", "hp"/"hc",
"b"), each containing exactly the branches its mode tag enables.  The
recursion depth of mode "a" is bounded by `max_depth - len(path)` and that
of the other modes by the node/edge count; each function takes fuel and
returns its mode's failure value when the fuel runs out. -/

/-- The neighbor loop of mode "a"; `rec` is the recursive call at the
remaining fuel. -/
def dfsALoop (rec : Nat → List Nat → List (List Nat) → List (List Nat))
    (path : List Nat) (paths : List (List Nat)) : List Nat → List (List Nat)
  | [] => paths
  | nb :: rest => dfsALoop rec path (rec nb (path ++ [nb]) paths) rest

/-- Mode "a" (all shortest paths to `finish`, bounded by `max_depth`).
The recursion depth is bounded by `max_depth - len(path)`, so the callers
pass `max_depth` as the fuel and the fuel-out branch is unreachable. -/
def dfsA (h : Heap) (finish : Nat) (max_depth : Nat) :
    Nat → Nat → List Nat → List (List Nat) → List (List Nat)
  | 0 => fun current path paths =>
    if max_depth ≤ path.length then paths
    else if finish ∈ (h current).neighbors then setAdd paths (path ++ [finish])
    else paths
  | f + 1 => fun current path paths =>
    if max_depth ≤ path.length then paths
    else if finish ∈ (h current).neighbors then setAdd paths (path ++ [finish])
    else dfsALoop (dfsA h finish max_depth f) path paths ((h current).neighbors)

/-- An edge stored by the Euler search (`edges.append({current, neighbour})`):
Python compares these 2-element sets without order. -/
def edgeEq (e f : Nat × Nat) : Bool :=
  (e.1 == f.1 && e.2 == f.2) || (e.1 == f.2 && e.2 == f.1)

/-- Python `{current, neighbour} in edges`. -/
def edgeMem (e : Nat × Nat) (l : List (Nat × Nat)) : Bool :=
  l.any (edgeEq e)

/-- Python `neighbor in edge` for an edge set. -/
def nodeInEdge (x : Nat) (e : Nat × Nat) : Bool :=
  x == e.1 || x == e.2

/-- The neighbor loop of the Euler modes; `rec` is the recursive call at
the remaining fuel. -/
def dfsEulerLoop (h : Heap) (E : Nat)
    (rec : Nat → List Nat → List (Nat × Nat) → Option (List Nat))
    (current : Nat) (path : List Nat) (edges : List (Nat × Nat)) :
    List Nat → Option (List Nat)
  | [] => none
  | nb :: rest =>
    if edgeMem (current, nb) edges then
      dfsEulerLoop h E rec current path edges rest
    else if ((edges.length : Int) - (E : Int) > 1) ∧
        (((h nb).degree : Int) - (edges.countP (fun e => nodeInEdge nb e)) = 1) then
      dfsEulerLoop h E rec current path edges rest
    else
      match rec nb (path ++ [nb]) (edges ++ [(current, nb)]) with
      | some r => some r
      | none => dfsEulerLoop h E rec current path edges rest

/-- Modes "ep"/"ec" (`ec = true` for the circuit).  `E` is
`self.number_of_edges`; the recursion depth is bounded by the number of
unused edges. -/
def dfsEuler (h : Heap) (E : Nat) (ec : Bool) :
    Nat → Nat → List Nat → List (Nat × Nat) → Option (List Nat)
  | 0 => fun _ path edges =>
    if edges.length = E then
      if ec ∧ ¬ path.headD 0 = path.getLastD 0 then none else some path
    else none
  | f + 1 => fun current path edges =>
    if edges.length = E then
      if ec ∧ ¬ path.headD 0 = path.getLastD 0 then none else some path
    else dfsEulerLoop h E (dfsEuler h E ec f) current path edges ((h current).neighbors)

/-- The win check of the Hamilton modes (`len(path) == len(self.nodes)`). -/
def hamWin (h : Heap) (hc : Bool) (current : Nat) (path : List Nat) :
    Option (List Nat) :=
  if hc then
    if path.headD 0 ∈ (h current).neighbors then
      some (path ++ [path.headD 0])
    else none
  else some path

/-- The neighbor loop of the Hamilton modes; `rec` is the recursive call
at the remaining fuel. -/
def dfsHamLoop (rec : Nat → List Nat → Option (List Nat))
    (path : List Nat) : List Nat → Option (List Nat)
  | [] => none
  | nb :: rest =>
    if nb ∈ path then dfsHamLoop rec path rest
    else match rec nb (path ++ [nb]) with
      | some r => some r
      | none => dfsHamLoop rec path rest

/-- Modes "hp"/"hc" (`hc = true` for the circuit).  `numNodes` is
`len(self.nodes)`; the recursion depth is bounded by the number of
unvisited nodes. -/
def dfsHam (h : Heap) (numNodes : Nat) (hc : Bool) :
    Nat → Nat → List Nat → Option (List Nat)
  | 0 => fun current path =>
    if path.length = numNodes then hamWin h hc current path else none
  | f + 1 => fun current path =>
    if path.length = numNodes then hamWin h hc current path
    else dfsHamLoop (dfsHam h numNodes hc f) path ((h current).neighbors)

/-- The neighbor loop of mode "b"; `rec` is the recursive call at the
remaining fuel. -/
def dfsBLoop (rec : Nat → List Nat → Option (List Nat))
    (path : List Nat) : List Nat → Option (List Nat)
  | [] => none
  | nb :: rest =>
    if nb ∈ path then
      let idx := path.indexOf nb
      if path.length - idx > 2 ∧ (path.length - idx) % 2 = 1 then
        some (path.drop idx ++ [nb])
      else dfsBLoop rec path rest
    else match rec nb (path ++ [nb]) with
      | some r => some r
      | none => dfsBLoop rec path rest

/-- Mode "b" (odd-cycle extraction for the bipartite analysis); the
recursion never revisits a node on the path, so the depth is bounded by
the node count. -/
def dfsB (h : Heap) : Nat → Nat → List Nat → Option (List Nat)
  | 0 => fun _ _ => none
  | f + 1 => fun current path => dfsBLoop (dfsB h f) path ((h current).neighbors)

/-! ### Python dict helpers -/

/-- Python `d[k] = v` on an insertion-ordered association list: overwrite
in place when the key exists, else append. -/
def dictSet {κ α : Type} [BEq κ] (l : List (κ × α)) (k : κ) (v : α) :
    List (κ × α) :=
  if l.any (fun p => p.1 == k) then
    l.map (fun p => if p.1 == k then (k, v) else p)
  else l ++ [(k, v)]

/-- Python `k in d`. -/
def dictMem {κ α : Type} [BEq κ] (l : List (κ × α)) (k : κ) : Bool :=
  l.any (fun p => p.1 == k)

/-- Python `d[k]` (`none` when the key is absent). -/
def dictLookup {κ α : Type} [BEq κ] (l : List (κ × α)) (k : κ) : Option α :=
  (l.find? (fun p => p.1 == k)).map (fun p => p.2)

/-! ### `Graph.set_diameter_avg_path_length` (lines 129-158) -/

/-- Loop state of `set_diameter_avg_path_length`. -/
structure SdState where
  parts : List (List Nat)
  diam : Nat
  conn : Bool
  lens : List Nat
deriving DecidableEq

/-- One iteration of the `for node in self.nodes` loop of
`set_diameter_avg_path_length`.  The source computes
`partition = partition.union(set(path for path in node.paths[finish]))`
inside the paths loop, but `set.union` returns a fresh set that is bound
only to the local variable, so the stored partition never receives those
elements; the stored state (modelled here) gains only the node itself and
its direct neighbors. -/
def sdapl_node (h : Heap) (st : SdState) (i : Nat) : SdState :=
  let idx := match st.parts.findIdx? (fun p => i ∈ p) with
    | some k => k
    | none => st.parts.length
  let parts := match st.parts.findIdx? (fun p => i ∈ p) with
    | some _ => st.parts
    | none => st.parts ++ [[i]]
  let r1 := (h i).neighbors.foldl
    (fun (acc : List (List Nat) × Nat × List Nat) nb =>
      (acc.1.set idx (setAdd (acc.1.getD idx []) nb),
       if acc.2.1 < 1 then 1 else acc.2.1,
       acc.2.2 ++ [1]))
    (parts, st.diam, st.lens)
  let r2 := (h i).paths.foldl
    (fun (acc : Nat × Bool × List Nat) pr =>
      match pr.2 with
      | some ps =>
        let L := (ps.headD []).length - 1
        (if acc.1 < L then L else acc.1, acc.2.1, acc.2.2 ++ [L])
      | none => (acc.1, false, acc.2.2))
    (r1.2.1, st.conn, r1.2.2)
  { parts := r1.1, diam := r2.1, conn := r2.2.1, lens := r2.2.2 }

/-- `Graph.set_diameter_avg_path_length`. -/
def set_diameter_avg_path_length (g : Graph) (h : Heap) : Graph :=
  let st := g.nodes.foldl (sdapl_node h)
    { parts := [], diam := 0, conn := true, lens := [] }
  let g := { g with diameter := some st.diam, connected := some st.conn,
                    partitions := st.parts }
  if st.lens.length > 0 then
    { g with average_path_length :=
        ((qdiv (qn st.lens.sum) (qn st.lens.length) : ℚ) : WithTop ℚ) }
  else g

/-! ### `Graph.calculate_shortest_paths_for_all_nodes` (lines 170-203) -/

/-- The index pairs `(i, j)`, `i < j`, of the double loop. -/
def allPairs (n : Nat) : List (Nat × Nat) :=
  (List.range n).flatMap (fun i =>
    ((List.range n).drop (i + 1)).map (fun j => (i, j)))

/-- The body of the pair loop: skip adjacent or already-filled pairs, else
run `dijsktra`, walk the parents, and store the enumerated shortest-path
set on one endpoint and its reversal on the other (a `None` marker on both
when the target was not found).  The `frontier` result of `dijsktra` is
impossible here (`max_distance` is infinite) and is mapped to the
unreachable branch. -/
def calc_pair (g : Graph) (h : Heap) (pr : Nat × Nat) : Heap :=
  let start := g.nodes.getD pr.1 0
  let finish := g.nodes.getD pr.2 0
  if finish ∈ (h start).neighbors ∨ dictMem (h start).paths finish then h
  else
    let r := dijsktra g h start (some finish) ⊤ false
    match r.1 with
    | DijRes.node k =>
      let path := (walk_parents r.2 (g.nodes.length + 1) k [k]).reverse
      let all_paths := dfsA r.2 k path.length path.length start [start] [path]
      let h3 := hset r.2 start (fun n =>
        { n with paths := dictSet n.paths finish (some all_paths) })
      hset h3 finish (fun n =>
        { n with paths := dictSet n.paths start (some (all_paths.map List.reverse)) })
    | _ =>
      let h3 := hset r.2 start (fun n =>
        { n with paths := dictSet n.paths finish none })
      hset h3 finish (fun n =>
        { n with paths := dictSet n.paths start none })

/-- Sort key of the final paths sort: length of the first stored path,
`math.inf` for the `None` marker. -/
def pathSortKey (v : Option (List (List Nat))) : WithTop Nat :=
  match v with
  | some ps => ((ps.headD []).length : WithTop Nat)
  | none => ⊤

/-- `node.paths = dict(sorted(node.paths.items(), key=...))`. -/
def sort_node_paths (h : Heap) (i : Nat) : Heap :=
  hset h i (fun n =>
    { n with paths := sortBy (fun a b => pathSortKey a.2 ≤ pathSortKey b.2) n.paths })

/-- `Graph.calculate_shortest_paths_for_all_nodes`. -/
def calculate_shortest_paths_for_all_nodes (g : Graph) (h : Heap) : Graph × Heap :=
  let h := (allPairs g.nodes.length).foldl (fun hh pr => calc_pair g hh pr) h
  let g := set_diameter_avg_path_length g h
  (g, g.nodes.foldl sort_node_paths h)

/-! ### `Graph.analyze_betweeness_centrality` (lines 205-260) -/

/-- `self.edge_bridges` update for one edge occurrence on one path. -/
def edgeBridgesAdd (eb : List ((Nat × Nat) × List (List Nat)))
    (e : Nat × Nat) (p : List Nat) : List ((Nat × Nat) × List (List Nat)) :=
  let eb := if ¬ eb.any (fun q => q.1 == e) ∧ ¬ eb.any (fun q => q.1 == (e.2, e.1))
    then eb ++ [(e, [])] else eb
  if eb.any (fun q => q.1 == e) then
    eb.map (fun q => if q.1 == e then (q.1, setAdd q.2 p) else q)
  else
    eb.map (fun q => if q.1 == (e.2, e.1) then (q.1, setAdd q.2 p) else q)

/-- `for bridge in path[1:-1]: bridge.bridge_paths.add(path)`. -/
def bridgeWrite (hh : Heap) (p : List Nat) : Heap :=
  ((p.drop 1).dropLast).foldl
    (fun hh2 b => hset hh2 b (fun n =>
      { n with bridge_paths := setAdd n.bridge_paths p })) hh

/-- Processing of one stored path: add it to the `bridge_paths` set of each
strict interior node, then record each of its edges in `edge_bridges`. -/
def betw_path (st : Heap × List ((Nat × Nat) × List (List Nat)))
    (p : List Nat) : Heap × List ((Nat × Nat) × List (List Nat)) :=
  let eb := (List.range (p.length - 1)).foldl
    (fun acc i => edgeBridgesAdd acc (p.getD i 0, p.getD (i + 1) 0) p) st.2
  (bridgeWrite st.1 p, eb)

/-- One iteration of `for finish in node.paths`: `None` entries are
skipped, otherwise the counter grows by the entry's set size and every
path of the entry is processed. -/
def betw_entry (acc2 : Nat × Heap × List ((Nat × Nat) × List (List Nat)))
    (pr : Nat × Option (List (List Nat))) :
    Nat × Heap × List ((Nat × Nat) × List (List Nat)) :=
  match pr.2 with
  | none => acc2
  | some ps =>
    let r := ps.foldl (fun acc3 p => betw_path acc3 p) (acc2.2.1, acc2.2.2)
    (acc2.1 + ps.length, r.1, r.2)

/-- One iteration of `for node in self.nodes` of the first loop of
`analyze_betweeness_centrality`. -/
def betw_node (acc : Nat × Heap × List ((Nat × Nat) × List (List Nat)))
    (i : Nat) : Nat × Heap × List ((Nat × Nat) × List (List Nat)) :=
  ((acc.2.1 : Heap) i).paths.foldl betw_entry acc

/-- Python `max` of a nonempty list. -/
def pymax (l : List ℚ) : ℚ :=
  l.tail.foldl (fun a b => if Rat.blt a b then b else a) (l.headD 0)

/-- Python `min` of a nonempty list. -/
def pymin (l : List ℚ) : ℚ :=
  l.tail.foldl (fun a b => if Rat.blt b a then b else a) (l.headD 0)

/-- `Graph.analyze_betweeness_centrality`. -/
def analyze_betweeness_centrality (g : Graph) (h : Heap) : Graph × Heap :=
  let st := g.nodes.foldl betw_node
    ((0, h, g.edge_bridges) : Nat × Heap × List ((Nat × Nat) × List (List Nat)))
  let total := st.1
  let h2 := st.2.1
  let eb := st.2.2
  if total = 0 then
    ({ g with total_paths := some 0, edge_bridges := eb, max_betweeness := some 0,
              min_betweeness := some 0, average_betweeness := some 0 }, h2)
  else
    let h3 := g.nodes.foldl (fun hh i => hset hh i (fun n =>
        { n with betweeness := qdiv (qn n.bridge_paths.length) (qn total) })) h2
    let ebet := eb.foldl
      (fun acc q => dictSet acc q.1 (qdiv (qn q.2.length) (qn total)))
      g.edge_betweeness
    let ebet := sortBy (fun a b => ! Rat.blt a.2 b.2) ebet
    let tot_eb := ebet.map (fun q => q.2)
    let g2 := { g with total_paths := some total, edge_bridges := eb,
                       edge_betweeness := ebet }
    let g3 := if tot_eb.length = 0 then { g2 with avg_edge_betweeness := 0 }
      else { g2 with max_betweeness := some (pymax tot_eb),
                     avg_edge_betweeness := qdiv (qsum tot_eb) (qn tot_eb.length) }
    let listb := g.nodes.map (fun i => (h3 i).betweeness)
    if listb.length = 0 then
      ({ g3 with max_betweeness := some 0, min_betweeness := some 0,
                 average_betweeness := some 0 }, h3)
    else
      ({ g3 with max_betweeness := some (pymax listb),
                 min_betweeness := some (pymin listb),
                 average_betweeness := some (qdiv (qsum listb) (qn listb.length)) }, h3)

/-! ### Closeness and clustering (`Node.set_closeness`,
`Node.set_clustering_coefficient`, `Graph.analyze_closessness`,
`Graph.analyze_cluster_coefficients`) -/

/-- `Node.set_closeness`.  The loop takes the first stored path of each
reachable entry (`break` after one path). -/
def set_closeness (num_nodes : Nat) (n : NodeRec) : NodeRec :=
  let t0 := n.neighbors.length
  if t0 = 0 then { n with closeness := 0 }
  else
    let total := n.paths.foldl (fun acc pr =>
        match pr.2 with
        | none => acc
        | some ps => acc + ((ps.headD []).length - 1)) t0
    let avg : ℚ := qdiv (qn total) (qn (num_nodes - 1))
    { n with closeness := qdiv (qn 1) avg }

/-- `Graph.analyze_closessness`.  Both extremum updates use the `<`
comparison exactly as in the source (the `min_closeness` branch also
updates on `self.min_closeness < node.closeness`). -/
def analyze_closessness (g : Graph) (h : Heap) : Graph × Heap :=
  let st := g.nodes.foldl (fun (acc : Heap × Option ℚ × Option ℚ) i =>
      let hh := hset acc.1 i (set_closeness g.nodes.length)
      let c := (hh i).closeness
      let mx := match acc.2.1 with
        | none => some c
        | some m => if Rat.blt m c then some c else some m
      let mn := match acc.2.2 with
        | none => some c
        | some m => if Rat.blt m c then some c else some m
      (hh, mx, mn))
    (h, g.max_closeness, g.min_closeness)
  let closer := g.nodes.map (fun i => (st.1 i).closeness)
  if closer.length = 0 then
    ({ g with min_closeness := some 0, max_closeness := some 0,
              average_closeness := some 0 }, st.1)
  else
    ({ g with max_closeness := st.2.1, min_closeness := st.2.2,
              average_closeness := some (qdiv (qsum closer) (qn closer.length)) }, st.1)

/-- `Node.set_clustering_coefficient`.  For `degree == 0` the source
executes `return None` without assigning the attribute, so the record is
returned unchanged (the attribute keeps its `Node.__init__` value `0`). -/
def set_clustering_coefficient (h : Heap) (i : Nat) : Heap :=
  if (h i).degree = 0 then h
  else
    let conns := ((h i).neighbors.map (fun nb =>
        ((h nb).neighbors.filter (fun x => x ∈ (h i).neighbors)).length)).sum
    let c2 : ℚ := qdiv (qn conns) (qn 2)
    let maxp : ℚ := qdiv (qmul (qn (h i).degree) (qsub (qn (h i).degree) (qn 1))) (qn 2)
    hset h i (fun n =>
      { n with clustering_coefficient := if maxp ≠ 0 then qdiv c2 maxp else 0 })

/-- `Graph.analyze_cluster_coefficients`.  The `is None` guards of the
source never fire because the attribute is never assigned `None`; the
extremum updates mirror the source (`<` in both branches). -/
def analyze_cluster_coefficients (g : Graph) (h : Heap) : Graph × Heap :=
  let st := g.nodes.foldl (fun (acc : Heap × Option ℚ × Option ℚ) i =>
      let hh := set_clustering_coefficient acc.1 i
      let c := (hh i).clustering_coefficient
      let mx := match acc.2.1 with
        | none => some c
        | some m => if Rat.blt m c then some c else some m
      let mn := match acc.2.2 with
        | none => some c
        | some m => if Rat.blt m c then some c else some m
      (hh, mx, mn))
    (h, g.max_cluster_coefficient, g.min_cluster_coefficient)
  let ccs := g.nodes.map (fun i => (st.1 i).clustering_coefficient)
  if ccs.length = 0 then
    ({ g with max_cluster_coefficient := some 0, min_cluster_coefficient := some 0,
              average_cluster_coefficient := some 0 }, st.1)
  else
    ({ g with max_cluster_coefficient := st.2.1, min_cluster_coefficient := st.2.2,
              average_cluster_coefficient := some (qdiv (qsum ccs) (qn ccs.length)) }, st.1)

/-! ### `Graph.analyze_bipartite` (lines 294-329) -/

/-- The `for node in self.nodes` loop of `analyze_bipartite`.  The third
component is `some true` when the loop performed the early
`self.bipartite = True; return`; the connected-and-found branch is the
`break`. -/
def bip_loop (g : Graph) : List Nat → Heap → List Nat → Heap × List Nat × Option Bool
  | [], h, odds => (h, odds, none)
  | i :: rest, h, odds =>
    if (h i).neighbors.length = 0 then
      bip_loop g rest (hset h i (fun n => { n with color := some "yellow" })) odds
    else
      let r := dijsktra g h i none ⊤ true
      let odds := match r.1 with
        | DijRes.node k => odds ++ [k]
        | _ => odds
      if g.connected = some true ∧ odds.length = 0 then (r.2, odds, some true)
      else if g.connected = some true ∧ odds.length > 0 then (r.2, odds, none)
      else bip_loop g rest r.2 odds

/-- The `for odd in odd_colors_out` loop: every iteration assigns
`self.odd_cycle`; `bipartite` is assigned only on success. -/
def odd_loop (h : Heap) (fuel : Nat) (g : Graph) : List Nat → Graph
  | [] => g
  | o :: rest =>
    let oc := dfsB h fuel o [o]
    let g := { g with odd_cycle := oc }
    match oc with
    | some _ => { g with bipartite := some false }
    | none => odd_loop h fuel g rest

/-- `Graph.analyze_bipartite`. -/
def analyze_bipartite (fuel : Nat) (g : Graph) (h : Heap) : Graph × Heap :=
  let r := bip_loop g g.nodes h []
  match r.2.2 with
  | some _ => ({ g with bipartite := some true }, r.1)
  | none =>
    if r.2.1.length = 0 then ({ g with bipartite := some true }, r.1)
    else (odd_loop r.1 fuel g r.2.1, r.1)

/-! ### `Graph.analyze_hamilton` (lines 331-386) -/

/-- `Graph.hamilton_qn`. -/
def hamilton_qn (path : List String) : List String :=
  (path.map (fun s => "0" ++ s)) ++ ((path.reverse).map (fun s => "1" ++ s))

/-- `self.name[0] == "q" and self.name[1:].isdigit()`.  (On an empty name
the source would raise `IndexError`; here the test is simply false.) -/
def isQName (s : String) : Bool :=
  match s.data with
  | [] => false
  | c :: rest => c == 'q' && rest.length != 0 && rest.all Char.isDigit

/-- `for node in self.nodes: result = search(node); if result is not None:
break` — the value left in the assigned attribute. -/
def firstSome {α : Type} (f : Nat → Option α) : List Nat → Option α
  | [] => none
  | i :: rest =>
    match f i with
    | some r => some r
    | none => firstSome f rest

/-- `self.hamilton_path[0] in self.hamilton_path[-1].neighbors`.  Entries
are `Option` because the `q`-graph branch can store failed name lookups;
the source would raise on those, here the test is false. -/
def hamEndsAdj (h : Heap) (p : List (Option Nat)) : Bool :=
  match p.headD none, p.getLastD none with
  | some a, some b => decide (a ∈ (h b).neighbors)
  | _, _ => false

/-- `Graph.analyze_hamilton`. -/
def analyze_hamilton (fuel : Nat) (g : Graph) (h : Heap) : Graph :=
  if ¬ g.connected = some true ∨ (g.nodes.filter (fun i => (h i).degree = 1)).length > 2 then
    { g with hamilton_path := none, hamilton_circuit := none }
  else if isQName g.name then
    let n := digitsToNat g.name.data.tail
    let h_path := (List.range n).foldl (fun acc _ => hamilton_qn acc) [""]
    let hp_nodes := h_path.map (fun nm => get_node_by_name g h nm)
    { g with hamilton_path := some hp_nodes,
             hamilton_circuit := some (hp_nodes ++ [hp_nodes.headD none]) }
  else
    let hp := if g.nodes = [] then g.hamilton_path
      else (firstSome (fun i => dfsHam h g.nodes.length false fuel i [i]) g.nodes).map
        (fun p => p.map some)
    let g1 := { g with hamilton_path := hp }
    match hp with
    | none => { g1 with hamilton_circuit := none }
    | some p =>
      if hamEndsAdj h p then
        { g1 with hamilton_circuit := some (p ++ [p.headD none]) }
      else if (g.nodes.filter (fun i => (h i).degree = 1)).length > 0 then
        { g1 with hamilton_circuit := none }
      else
        let hc := if g.nodes = [] then g1.hamilton_circuit
          else (firstSome (fun i => dfsHam h g.nodes.length true fuel i [i]) g.nodes).map (fun q => q.map some)
        { g1 with hamilton_circuit := hc }

/-! ### `Graph.analyze_euler` (lines 388-418) -/

/-- `Graph.analyze_euler`.  The two `random.choice(self.nodes)` draws and
the `random.choice([0, 1])` draw are modelled by the three `pick`
arguments reduced modulo the choice-list length (the source raises on an
empty node list; here the default id `0` is taken). -/
def analyze_euler (fuel : Nat) (g : Graph) (h : Heap)
    (pick1 pick2 pick3 : Nat) : Graph :=
  if ¬ g.connected = some true then
    { g with euler_path := none, euler_circuit := none }
  else
    let odd := g.nodes.filter (fun i => (h i).degree % 2 = 1)
    if odd.length = 0 then
      let s1 := g.nodes.getD (pick1 % g.nodes.length) 0
      let s2 := g.nodes.getD (pick2 % g.nodes.length) 0
      { g with euler_path := dfsEuler h g.number_of_edges false fuel s1 [s1] [],
               euler_circuit := dfsEuler h g.number_of_edges true fuel s2 [s2] [] }
    else if odd.length = 2 then
      let s := odd.getD (pick3 % 2) 0
      { g with euler_circuit := none,
               euler_path := dfsEuler h g.number_of_edges false fuel s [s] [] }
    else g

/-! ### The fixed analysis pipeline (`GraphManager.analyze_graph` steps
0-9, also run on every community-detection subgraph, lines 701-711) -/

/-- The pipeline steps strictly before `analyze_bipartite`: degrees,
adjacency matrix, edge count and density, clustering coefficients, all
shortest paths, betweenness, closeness, Euler, Hamilton. -/
def pipeline_pre_bipartite (fuel : Nat) (p : Nat × Nat × Nat) (g : Graph)
    (h : Heap) : Graph × Heap :=
  let r := set_node_degrees g h
  let g := set_adjacency_matrix r.1 r.2
  let g := set_number_of_connections_and_density g
  let r2 := analyze_cluster_coefficients g r.2
  let r3 := calculate_shortest_paths_for_all_nodes r2.1 r2.2
  let r4 := analyze_betweeness_centrality r3.1 r3.2
  let r5 := analyze_closessness r4.1 r4.2
  let g := analyze_euler fuel r5.1 r5.2 p.1 p.2.1 p.2.2
  let g := analyze_hamilton fuel g r5.2
  (g, r5.2)

/-- The full fixed-order analysis pass (the ten steps run by
`GraphManager.analyze_graph` on a graph and by `analyze_communities` on
each subgraph). -/
def analyze_pipeline (fuel : Nat) (p : Nat × Nat × Nat) (g : Graph)
    (h : Heap) : Graph × Heap :=
  let r := pipeline_pre_bipartite fuel p g h
  let r6 := analyze_bipartite fuel r.1 r.2
  ({ r6.1 with analyzed := true }, r6.2)

/-! ### Community detection (lines 613-731) -/

/-- Python 3 `round(x, 4)`: round half to even at four decimal digits. -/
def pyround4 (x : ℚ) : ℚ :=
  let y := qmul x (qn 10000)
  let n : Int := y.floor
  let r : Int :=
    if Rat.blt (qsub y (qi n)) (mkRat 1 2) then n
    else if Rat.blt (mkRat 1 2) (qsub y (qi n)) then n + 1
    else if n % 2 = 0 then n else n + 1
  qdiv (qi r) (qn 10000)

/-- Inner loop of `check_if_snip` for one partition: `True` at the first
rounded edge-betweenness mismatch within the partition. -/
def snip_partition (gr : Graph) (part : List Nat) : Bool :=
  (gr.edge_betweeness.foldl
    (fun (acc : Option ℚ × Bool) q =>
      if acc.2 then acc
      else if q.1.1 ∈ part then
        match acc.1 with
        | none => (some (pyround4 q.2), false)
        | some b => if pyround4 q.2 ≠ b then (acc.1, true) else acc
      else acc)
    (none, false)).2

/-- `Graph.check_if_snip`. -/
def check_if_snip (gr : Graph) : Bool :=
  gr.partitions.any (fun part => snip_partition gr part)

/-- `Graph.get_node_copies`: allocate one fresh `Node` per listed node at
ids `next, next+1, ...`, then re-wire the neighbor lists among the copies
by name lookup.  A failed lookup (impossible when the listed nodes carry
their own neighbors) appends nothing where the source would raise. -/
def get_node_copies (h : Heap) (nodes : List Nat) (next : Nat) :
    Heap × List Nat × Nat :=
  let names := nodes.map (fun i => (h i).name)
  let newIds := (List.range nodes.length).map (fun k => next + k)
  let h := (List.range nodes.length).foldl
    (fun hh k => hset hh (next + k) (fun _ => Node_init (names.getD k ""))) h
  let h := nodes.foldl (fun hh i =>
      match newIds.find? (fun j => (hh j).name == (hh i).name) with
      | none => hh
      | some ni =>
        (hh i).neighbors.foldl (fun hh2 nb =>
            match newIds.find? (fun j => (hh2 j).name == (hh2 nb).name) with
            | none => hh2
            | some nj => hset hh2 ni (fun n =>
                { n with neighbors := n.neighbors ++ [nj] })) hh) h
  (h, newIds, next + nodes.length)

/-- `Graph.delete_edge_from_copy`: remove the mutual neighbor references
of the two copies whose names match the edge.  (The source indexes
`evil_nodes[0]`/`evil_nodes[1]` and would raise when fewer than two
matches exist; that case leaves the heap unchanged here.) -/
def delete_edge_from_copy (h : Heap) (edge : Nat × Nat)
    (nodes_copy : List Nat) : Heap :=
  let enames := [(h edge.1).name, (h edge.2).name]
  match nodes_copy.filter (fun i => (h i).name ∈ enames) with
  | a :: b :: _ =>
    let h := hset h a (fun n => { n with neighbors := n.neighbors.erase b })
    hset h b (fun n => { n with neighbors := n.neighbors.erase a })
  | _ => h

/-- `Graph.generate_subgraph`. -/
def generate_subgraph (nodes : List Nat) (name : String) : Graph :=
  { Graph_init name with nodes := nodes }

/-- Python `max(d, key=d.get)`: first key attaining the maximal value
(the source raises on an empty dict; that case yields the dummy edge
`(0, 0)` and is unreachable from `check_if_snip = true`). -/
def pymaxBy (l : List ((Nat × Nat) × ℚ)) : Nat × Nat :=
  match l with
  | [] => (0, 0)
  | q :: rest => (rest.foldl (fun best r => if best.2 < r.2 then r else best) q).1

/-- Loop state of `analyze_communities`: heap, allocation counter, the
graph of the current iteration, the iteration index `i`, the pending
snips, and the `self.subgraphs`/`self.snips`/`self.connectivity`
accumulators. -/
structure CommState where
  h : Heap
  next : Nat
  current : Graph
  i : Nat
  current_snips : List (Option Nat × Option Nat)
  subgraphs : List Graph
  snips : List (List (Option Nat × Option Nat))
  connectivity : Option (WithTop Nat)

/-- The `while self.check_if_snip(...)` loop of `analyze_communities`:
copy the current nodes, delete the maximal-betweenness edge from the
copies, run the full pipeline on the new subgraph, and keep the snapshot
when its partition count grows. -/
def comm_loop (pipelineFuel : Nat) (rnd : Nat → Nat × Nat × Nat) (g0 : Graph) :
    Nat → CommState → CommState
  | 0, st => st
  | f + 1, st =>
    if check_if_snip st.current then
      let r := get_node_copies st.h st.current.nodes st.next
      let edge := pymaxBy st.current.edge_betweeness
      let h2 := delete_edge_from_copy r.1 edge r.2.1
      let snip := (get_node_by_name g0 h2 ((h2 edge.1).name),
                   get_node_by_name g0 h2 ((h2 edge.2).name))
      let current_snips := st.current_snips ++ [snip]
      let pr := analyze_pipeline pipelineFuel (rnd st.i)
        (generate_subgraph r.2.1 (toString st.i)) h2
      let newg := pr.1
      let keep1 := st.subgraphs.length > 0 ∧
        newg.partitions.length > (st.subgraphs.getLastD (Graph_init "")).partitions.length
      let keep2 := newg.partitions.length > g0.partitions.length
      let acc3 :=
        if keep1 then (st.subgraphs ++ [newg], st.snips ++ [current_snips],
          ([] : List (Option Nat × Option Nat)))
        else if keep2 then (st.subgraphs ++ [newg], st.snips ++ [current_snips], [])
        else (st.subgraphs, st.snips, current_snips)
      let conn := if st.connectivity = none ∧ ¬ newg.connected = some true then
          some ((st.i : Nat) : WithTop Nat)
        else st.connectivity
      comm_loop pipelineFuel rnd g0 f
        { h := pr.2, next := r.2.2, current := newg, i := st.i + 1,
          current_snips := acc3.2.2, subgraphs := acc3.1, snips := acc3.2.1,
          connectivity := conn }
    else st

/-- `Graph.analyze_communities`.  Returns the updated root graph
(`connectivity` set), the heap, the allocation counter, and the
`subgraphs`/`snips` accumulators (stored on the graph object in the
source). -/
def analyze_communities (loopFuel pipelineFuel : Nat)
    (rnd : Nat → Nat × Nat × Nat) (g : Graph) (h : Heap) (next : Nat) :
    Graph × Heap × Nat × List Graph × List (List (Option Nat × Option Nat)) :=
  let st0 : CommState :=
    { h := h, next := next, current := g, i := 1, current_snips := [],
      subgraphs := [], snips := [], connectivity := none }
  let st := comm_loop pipelineFuel rnd g loopFuel st0
  let conn := match st.connectivity with
    | some c => some c
    | none =>
      if g.connected = some true then some g.min_degree
      else some (((0 : Nat) : WithTop Nat))
  ({ g with connectivity := conn }, st.h, st.next, st.subgraphs, st.snips)

/-- `GraphManager.analyze_graph` on the current graph: name sort, then the
full pipeline, then community detection. -/
def analyze_graph_all (pipelineFuel loopFuel : Nat) (p0 : Nat × Nat × Nat)
    (rnd : Nat → Nat × Nat × Nat) (g : Graph) (h : Heap) (next : Nat) :
    Graph × Heap × Nat × List Graph × List (List (Option Nat × Option Nat)) :=
  let g := sort_nodes_by_name g h
  let r := analyze_pipeline pipelineFuel p0 g h
  analyze_communities loopFuel pipelineFuel rnd r.1 r.2 next

/-! ### Concrete instances used by evaluations and witnesses -/

/-- A concrete heap: node `i` carries the `i`-th listed name and neighbor
list (fresh `Node_init` records everywhere else). -/
def heapOf (l : List (String × List Nat)) : Heap :=
  fun i =>
    let pr := l.getD i ("", [])
    { Node_init pr.1 with neighbors := pr.2 }

/-- Path graph `a(0) — b(1) — c(2)`. -/
def c1Heap : Heap := heapOf [("a", [1]), ("b", [0, 2]), ("c", [1])]

/-- The same path graph with node list ordered `[a, c, b]`. -/
def c1Graph : Graph := { Graph_init "t" with nodes := [0, 2, 1] }

/-- **C1** (code bug).  On the connected path graph `a—b—c` with node list
ordered `[a, c, b]`, `calculate_shortest_paths_for_all_nodes` produces
`partitions = [{a, b, c}, {c, b}]`: two overlapping partition sets for a
single connected component, instead of exactly one set per component.
The loop of `set_diameter_avg_path_length` appends a fresh partition for
`c` (not yet in any stored partition), later also unions `c` into the
first partition via `b`, and never removes or merges the second; nodes
reachable only through stored shortest paths are lost entirely because
`partition.union(...)` rebinds a local name instead of updating the stored
set. -/
theorem C1_partition_failure :
    (calculate_shortest_paths_for_all_nodes c1Graph c1Heap).1.partitions
      = [[0, 1, 2], [2, 1]] ∧
    (calculate_shortest_paths_for_all_nodes c1Graph c1Heap).1.connected
      = some true := by
  decide

/-- A single isolated node. -/
def c5Heap : Heap := heapOf [("x", [])]

/-- The graph holding only the isolated node. -/
def c5Graph : Graph := { Graph_init "t" with nodes := [0] }

/-- **C5** (code bug).  For a node of degree `0`, the claim (and the
source's own docstring and the dead `is None` guards of
`analyze_cluster_coefficients`) require a null clustering coefficient, but
`set_clustering_coefficient` executes `return None` without assigning the
attribute, so after the analysis the isolated node's
`clustering_coefficient` still holds the `Node.__init__` value `0` (and is
averaged into the graph aggregates as `0`). -/
theorem C5_degree_zero_not_null :
    ((set_node_degrees c5Graph c5Heap).2 0).degree = 0 ∧
    ((analyze_cluster_coefficients (set_node_degrees c5Graph c5Heap).1
        (set_node_degrees c5Graph c5Heap).2).2 0).clustering_coefficient = 0 ∧
    (analyze_cluster_coefficients (set_node_degrees c5Graph c5Heap).1
        (set_node_degrees c5Graph c5Heap).2).1.average_cluster_coefficient
      = some 0 := by
  decide

/-- A getD-selected element of a nonempty list is a member. -/
theorem getD_mem_of_lt {l : List Nat} {n : Nat} (hn : n < l.length) (d : Nat) :
    l.getD n d ∈ l := by
  rw [List.getD_eq_getElem l d hn]
  exact List.getElem_mem hn

/-- **C8** (Euler dispatch).  For every graph state, heap, search fuel and
random draws: a graph not marked connected gets `euler_path` and
`euler_circuit` both set to `None`; a connected graph with no odd-degree
node gets both a path search and a circuit search, each started from some
(randomly drawn) node of the graph; a connected graph with exactly two
odd-degree nodes gets `euler_circuit = None` and only a path search,
started from one of the two odd-degree nodes. -/
theorem C8_euler_dispatch (fuel : Nat) (g : Graph) (h : Heap) (p1 p2 p3 : Nat) :
    (¬ g.connected = some true →
      (analyze_euler fuel g h p1 p2 p3).euler_path = none ∧
      (analyze_euler fuel g h p1 p2 p3).euler_circuit = none) ∧
    (g.connected = some true →
      (g.nodes.filter (fun i => (h i).degree % 2 = 1)).length = 0 →
      g.nodes ≠ [] →
      ∃ s1 ∈ g.nodes, ∃ s2 ∈ g.nodes,
        (analyze_euler fuel g h p1 p2 p3).euler_path
          = dfsEuler h g.number_of_edges false fuel s1 [s1] [] ∧
        (analyze_euler fuel g h p1 p2 p3).euler_circuit
          = dfsEuler h g.number_of_edges true fuel s2 [s2] []) ∧
    (g.connected = some true →
      (g.nodes.filter (fun i => (h i).degree % 2 = 1)).length = 2 →
      (analyze_euler fuel g h p1 p2 p3).euler_circuit = none ∧
      ∃ s ∈ g.nodes.filter (fun i => (h i).degree % 2 = 1),
        (analyze_euler fuel g h p1 p2 p3).euler_path
          = dfsEuler h g.number_of_edges false fuel s [s] []) := by
  refine ⟨fun hc => ?_, fun hc hodd hne => ?_, fun hc hodd => ?_⟩
  · simp [analyze_euler, hc]
  · have hlen : g.nodes.length ≠ 0 := fun hl => hne (List.length_eq_zero.mp hl)
    have hm1 : p1 % g.nodes.length < g.nodes.length :=
      Nat.mod_lt _ (Nat.pos_of_ne_zero hlen)
    have hm2 : p2 % g.nodes.length < g.nodes.length :=
      Nat.mod_lt _ (Nat.pos_of_ne_zero hlen)
    refine ⟨g.nodes.getD (p1 % g.nodes.length) 0, getD_mem_of_lt hm1 0,
           g.nodes.getD (p2 % g.nodes.length) 0, getD_mem_of_lt hm2 0, ?_⟩
    simp [analyze_euler, hc, hodd]
  · have hm3 : p3 % 2 < (g.nodes.filter (fun i => (h i).degree % 2 = 1)).length := by
      rw [hodd]; exact Nat.mod_lt _ (by decide)
    refine ⟨?_, (g.nodes.filter (fun i => (h i).degree % 2 = 1)).getD (p3 % 2) 0,
            getD_mem_of_lt hm3 0, ?_⟩ <;>
      simp [analyze_euler, hc, hodd]

/-- Triangle used as the C8 witness (all degrees even, connected). -/
def c8Heap : Heap :=
  (set_node_degrees { Graph_init "t" with nodes := [0, 1, 2] }
    (heapOf [("a", [1, 2]), ("b", [0, 2]), ("c", [0, 1])])).2

/-- The analyzed-state graph for the C8 witness. -/
def c8Graph : Graph :=
  { (set_node_degrees { Graph_init "t" with nodes := [0, 1, 2] }
      (heapOf [("a", [1, 2]), ("b", [0, 2]), ("c", [0, 1])])).1 with
    connected := some true, number_of_edges := 3 }

/-- Witness for C8 at the triangle. -/
theorem C8_euler_dispatch_witness :
    c8Graph.connected = some true ∧
    (c8Graph.nodes.filter (fun i => (c8Heap i).degree % 2 = 1)).length = 0 ∧
    c8Graph.nodes ≠ [] ∧
    ((¬ c8Graph.connected = some true →
      (analyze_euler 5 c8Graph c8Heap 0 1 0).euler_path = none ∧
      (analyze_euler 5 c8Graph c8Heap 0 1 0).euler_circuit = none) ∧
    (c8Graph.connected = some true →
      (c8Graph.nodes.filter (fun i => (c8Heap i).degree % 2 = 1)).length = 0 →
      c8Graph.nodes ≠ [] →
      ∃ s1 ∈ c8Graph.nodes, ∃ s2 ∈ c8Graph.nodes,
        (analyze_euler 5 c8Graph c8Heap 0 1 0).euler_path
          = dfsEuler c8Heap c8Graph.number_of_edges false 5 s1 [s1] [] ∧
        (analyze_euler 5 c8Graph c8Heap 0 1 0).euler_circuit
          = dfsEuler c8Heap c8Graph.number_of_edges true 5 s2 [s2] []) ∧
    (c8Graph.connected = some true →
      (c8Graph.nodes.filter (fun i => (c8Heap i).degree % 2 = 1)).length = 2 →
      (analyze_euler 5 c8Graph c8Heap 0 1 0).euler_circuit = none ∧
      ∃ s ∈ c8Graph.nodes.filter (fun i => (c8Heap i).degree % 2 = 1),
        (analyze_euler 5 c8Graph c8Heap 0 1 0).euler_path
          = dfsEuler c8Heap c8Graph.number_of_edges false 5 s [s] [])) :=
  ⟨by decide, by decide, by decide, C8_euler_dispatch 5 c8Graph c8Heap 0 1 0⟩

/-- **C10** (Euler with four or more odd-degree nodes).  On a connected
graph whose odd-degree node count is neither `0` nor `2`,
`analyze_euler` returns the graph record completely unchanged — in
particular `euler_path` and `euler_circuit` keep their initial `None`
values — reporting the structural impossibility as a normal null outcome
rather than an error. -/
theorem C10_euler_many_odd (fuel : Nat) (g : Graph) (h : Heap) (p1 p2 p3 : Nat)
    (hconn : g.connected = some true)
    (h0 : (g.nodes.filter (fun i => (h i).degree % 2 = 1)).length ≠ 0)
    (h2 : (g.nodes.filter (fun i => (h i).degree % 2 = 1)).length ≠ 2) :
    analyze_euler fuel g h p1 p2 p3 = g ∧
    (g.euler_path = none → (analyze_euler fuel g h p1 p2 p3).euler_path = none) ∧
    (g.euler_circuit = none → (analyze_euler fuel g h p1 p2 p3).euler_circuit = none) := by
  have he : analyze_euler fuel g h p1 p2 p3 = g := by
    simp [analyze_euler, hconn, h0, h2]
  exact ⟨he, fun hp => by rw [he]; exact hp, fun hc => by rw [he]; exact hc⟩

/-- Complete graph `K4` (all degrees `3`) used as the C10 witness. -/
def c10Heap : Heap :=
  (set_node_degrees { Graph_init "t" with nodes := [0, 1, 2, 3] }
    (heapOf [("a", [1, 2, 3]), ("b", [0, 2, 3]), ("c", [0, 1, 3]), ("d", [0, 1, 2])])).2

/-- The analyzed-state graph for the C10 witness. -/
def c10Graph : Graph :=
  { (set_node_degrees { Graph_init "t" with nodes := [0, 1, 2, 3] }
      (heapOf [("a", [1, 2, 3]), ("b", [0, 2, 3]), ("c", [0, 1, 3]), ("d", [0, 1, 2])])).1 with
    connected := some true, number_of_edges := 6 }

/-- Witness for C10 at `K4` (four odd-degree nodes). -/
theorem C10_euler_many_odd_witness :
    c10Graph.connected = some true ∧
    (c10Graph.nodes.filter (fun i => (c10Heap i).degree % 2 = 1)).length = 4 ∧
    (analyze_euler 5 c10Graph c10Heap 0 0 0 = c10Graph ∧
      (c10Graph.euler_path = none →
        (analyze_euler 5 c10Graph c10Heap 0 0 0).euler_path = none) ∧
      (c10Graph.euler_circuit = none →
        (analyze_euler 5 c10Graph c10Heap 0 0 0).euler_circuit = none)) :=
  ⟨by decide, by decide,
   C10_euler_many_odd 5 c10Graph c10Heap 0 0 0 (by decide) (by decide) (by decide)⟩

/-- The node sequence built by the `q`-graph branch of `analyze_hamilton`:
the reflected-Gray-code names of dimension `int(name[1:])`, each looked up
with `get_node_by_name` (a failed lookup contributes a null entry). -/
def qGrayNodes (g : Graph) (h : Heap) : List (Option Nat) :=
  (((List.range (digitsToNat g.name.data.tail)).foldl
      (fun acc _ => hamilton_qn acc) [""]).map (fun nm => get_node_by_name g h nm))

/-- The `for node in self.nodes` Hamilton search (`hc = true` for the
circuit search), as a stored attribute value. -/
def hamSearch (fuel : Nat) (g : Graph) (h : Heap) (hc : Bool) :
    Option (List (Option Nat)) :=
  (firstSome (fun i => dfsHam h g.nodes.length hc fuel i [i]) g.nodes).map
    (fun p => p.map some)

/-- Path graph `a—b—c` whose graph object is named `q1`; degrees set. -/
def c9Heap : Heap :=
  (set_node_degrees { Graph_init "q1" with nodes := [0, 1, 2], connected := some true }
    (heapOf [("a", [1]), ("b", [0, 2]), ("c", [1])])).2

/-- The `q1`-named path graph (connected, two degree-1 nodes). -/
def c9Graph : Graph :=
  (set_node_degrees { Graph_init "q1" with nodes := [0, 1, 2], connected := some true }
    (heapOf [("a", [1]), ("b", [0, 2]), ("c", [1])])).1

/-- **C9** (counterexample).  The claim asserts that on a connected graph
with at most two degree-1 nodes `analyze_hamilton` runs the Hamilton-path
search.  The graph named `q1` (here: a path `a—b—c`, connected, exactly
two degree-1 nodes) instead takes the hypercube branch keyed on the graph
NAME: no search runs, and `hamilton_path` is set to the Gray-code name
lookups `["0", "1"]`, both of which fail and store null entries — while
the search the claim mandates would have produced the path `[a, b, c]`. -/
theorem C9_hamilton_counterexample :
    c9Graph.connected = some true ∧
    (c9Graph.nodes.filter (fun i => (c9Heap i).degree = 1)).length = 2 ∧
    (analyze_hamilton 20 c9Graph c9Heap).hamilton_path = some [none, none] ∧
    hamSearch 20 c9Graph c9Heap false = some [some 0, some 1, some 2] ∧
    ¬ (analyze_hamilton 20 c9Graph c9Heap).hamilton_path
        = hamSearch 20 c9Graph c9Heap false := by
  decide

/-- **C9** (amended).  `analyze_hamilton` dispatch: a graph that is not
marked connected, or has more than two degree-1 nodes, gets both fields
set to `None` with no search; otherwise a graph whose NAME is `q`
followed by at least one digit bypasses the search entirely and stores the
Gray-code name-lookup sequence as the path and that sequence closed with
its first entry as the circuit; otherwise the path search runs from every
node in order, and the circuit is: `None` when no path was found; the path
closed with its first node when the found path's endpoints are adjacent;
`None` without a circuit search when a degree-1 node exists; else the
result of running the circuit search from every node in order. -/
theorem C9_hamilton_dispatch (fuel : Nat) (g : Graph) (h : Heap) :
    (¬ g.connected = some true ∨
        (g.nodes.filter (fun i => (h i).degree = 1)).length > 2 →
      (analyze_hamilton fuel g h).hamilton_path = none ∧
      (analyze_hamilton fuel g h).hamilton_circuit = none) ∧
    (g.connected = some true →
      ¬ (g.nodes.filter (fun i => (h i).degree = 1)).length > 2 →
      isQName g.name = true →
      (analyze_hamilton fuel g h).hamilton_path = some (qGrayNodes g h) ∧
      (analyze_hamilton fuel g h).hamilton_circuit
        = some (qGrayNodes g h ++ [(qGrayNodes g h).headD none])) ∧
    (g.connected = some true →
      ¬ (g.nodes.filter (fun i => (h i).degree = 1)).length > 2 →
      isQName g.name = false →
      g.nodes ≠ [] →
      (analyze_hamilton fuel g h).hamilton_path = hamSearch fuel g h false ∧
      (hamSearch fuel g h false = none →
        (analyze_hamilton fuel g h).hamilton_circuit = none) ∧
      (∀ p, hamSearch fuel g h false = some p → hamEndsAdj h p = true →
        (analyze_hamilton fuel g h).hamilton_circuit = some (p ++ [p.headD none])) ∧
      (∀ p, hamSearch fuel g h false = some p → hamEndsAdj h p = false →
        (g.nodes.filter (fun i => (h i).degree = 1)).length > 0 →
        (analyze_hamilton fuel g h).hamilton_circuit = none) ∧
      (∀ p, hamSearch fuel g h false = some p → hamEndsAdj h p = false →
        (g.nodes.filter (fun i => (h i).degree = 1)).length = 0 →
        (analyze_hamilton fuel g h).hamilton_circuit = hamSearch fuel g h true)) := by
  refine ⟨fun hguard => ?_, fun hc hd hq => ?_, fun hc hd hq hne => ?_⟩
  · rcases hguard with hguard | hguard
    · simp [analyze_hamilton, hguard]
    · refine ⟨?_, ?_⟩ <;>
        · simp only [analyze_hamilton]
          rw [if_pos (Or.inr hguard)]
  · simp [analyze_hamilton, hc, hd, hq, qGrayNodes]
  · have hC1 : ¬ (¬ g.connected = some true ∨
        (g.nodes.filter (fun i => (h i).degree = 1)).length > 2) :=
      fun hor => hor.elim (fun x => x hc) hd
    have heq : analyze_hamilton fuel g h =
        (match hamSearch fuel g h false with
        | none =>
          { { g with hamilton_path := hamSearch fuel g h false } with
            hamilton_circuit := none }
        | some p =>
          if hamEndsAdj h p then
            { { g with hamilton_path := hamSearch fuel g h false } with
              hamilton_circuit := some (p ++ [p.headD none]) }
          else if (g.nodes.filter (fun i => (h i).degree = 1)).length > 0 then
            { { g with hamilton_path := hamSearch fuel g h false } with
              hamilton_circuit := none }
          else
            { { g with hamilton_path := hamSearch fuel g h false } with
              hamilton_circuit := hamSearch fuel g h true }) := by
      simp only [analyze_hamilton, hamSearch, if_neg hC1, hq, Bool.false_eq_true,
        if_false, if_neg hne]
    refine ⟨?_, fun hnone => ?_, fun p hp hadj => ?_, fun p hp hadj hdeg => ?_,
            fun p hp hadj hdeg => ?_⟩
    · rw [heq]
      cases hcase : hamSearch fuel g h false with
      | none => simp
      | some p =>
        by_cases hca : hamEndsAdj h p
        · simp [hca]
        · by_cases hdg : (g.nodes.filter (fun i => (h i).degree = 1)).length > 0 <;>
            simp [hca, hdg]
    · rw [heq, hnone]
    · rw [heq, hp]; simp [hadj]
    · rw [heq, hp]; simp [hadj, hdeg]
    · rw [heq, hp]
      have hdg : ¬ (g.nodes.filter (fun i => (h i).degree = 1)).length > 0 := by
        rw [hdeg]; decide
      simp [hadj, hdg]

/-- Witness for the amended C9 statement: the `q1`-named path graph takes
the hypercube branch and stores the (failed) Gray-code lookups. -/
theorem C9_hamilton_dispatch_witness :
    c9Graph.connected = some true ∧
    (¬ (c9Graph.nodes.filter (fun i => (c9Heap i).degree = 1)).length > 2) ∧
    isQName c9Graph.name = true ∧
    (analyze_hamilton 20 c9Graph c9Heap).hamilton_path
      = some (qGrayNodes c9Graph c9Heap) :=
  ⟨by decide, by decide, by decide,
   ((C9_hamilton_dispatch 20 c9Graph c9Heap).2.1 (by decide) (by decide) (by decide)).1⟩

/-! ### Projection-preservation machinery

Most heap writes of the analysis pipeline update a single record field;
these lemmas track an arbitrary projection `P` through such writes. -/

theorem hset_proj {α : Type} (P : NodeRec → α) {f : NodeRec → NodeRec}
    (hf : ∀ n, P (f n) = P n) (h : Heap) (i j : Nat) :
    P (hset h i f j) = P (h j) := by
  unfold hset
  split
  · exact hf (h j)
  · rfl

theorem foldl_proj {γ β α : Type} (P : NodeRec → α) (proj : β → Heap)
    {f : β → γ → β}
    (hstep : ∀ s x j, P (proj (f s x) j) = P (proj s j)) :
    ∀ (l : List γ) (s : β) (j : Nat), P (proj (l.foldl f s) j) = P (proj s j) := by
  intro l
  induction l with
  | nil => intro s j; rfl
  | cons x xs ih => intro s j; rw [List.foldl_cons, ih, hstep]

theorem foldl_heap_proj {γ α : Type} (P : NodeRec → α) {f : Heap → γ → Heap}
    (hstep : ∀ s x j, P (f s x j) = P (s j)) :
    ∀ (l : List γ) (s : Heap) (j : Nat), P (l.foldl f s j) = P (s j) := by
  intro l
  induction l with
  | nil => intro s j; rfl
  | cons x xs ih => intro s j; rw [List.foldl_cons, ih, hstep]

/-- Preservation hypotheses: `P` ignores each transient field written by
the pipeline steps that precede `analyze_bipartite`. -/
structure PipePres {α : Type} (P : NodeRec → α) : Prop where
  deg : ∀ n d, P { n with degree := d } = P n
  pd : ∀ n dist par, P { n with distance := dist, parent := par } = P n
  clu : ∀ n v, P { n with clustering_coefficient := v } = P n
  pth : ∀ n v, P { n with paths := v } = P n
  bp : ∀ n v, P { n with bridge_paths := v } = P n
  bet : ∀ n v, P { n with betweeness := v } = P n
  clo : ∀ n v, P { n with closeness := v } = P n

theorem set_node_degrees_proj {α : Type} (P : NodeRec → α) (hp : PipePres P)
    (g : Graph) (h : Heap) (j : Nat) :
    P ((set_node_degrees g h).2 j) = P (h j) := by
  simp only [set_node_degrees]
  exact foldl_proj P (fun (s : Nat × Nat × WithTop Nat × Heap) => s.2.2.2)
    (fun s x j => hset_proj P (fun n => hp.deg n _) _ _ j) g.nodes _ j

theorem set_clustering_coefficient_proj {α : Type} (P : NodeRec → α)
    (hp : PipePres P) (h : Heap) (i j : Nat) :
    P (set_clustering_coefficient h i j) = P (h j) := by
  unfold set_clustering_coefficient
  split
  · rfl
  · exact hset_proj P (fun n => hp.clu n _) _ _ j

theorem analyze_cluster_coefficients_proj {α : Type} (P : NodeRec → α)
    (hp : PipePres P) (g : Graph) (h : Heap) (j : Nat) :
    P ((analyze_cluster_coefficients g h).2 j) = P (h j) := by
  simp only [analyze_cluster_coefficients]
  split <;>
    exact foldl_proj P (fun (s : Heap × Option ℚ × Option ℚ) => s.1)
      (fun s x j => set_clustering_coefficient_proj P hp s.1 x j) g.nodes _ j

theorem reset_pathfinding_proj {α : Type} (P : NodeRec → α)
    (hpd : ∀ n d q, P { n with distance := d, parent := q } = P n)
    (g : Graph) (h : Heap) (j : Nat) :
    P (reset_pathfinding g h j) = P (h j) := by
  unfold reset_pathfinding
  exact foldl_heap_proj P (fun s x j => hset_proj P (fun n => hpd n _ _) s x j)
    g.nodes h j

/-- The heap carried by a `dijNbrs` result. -/
def dijNbrsHeap (r : Sum (Nat × Heap) (Heap × List Nat)) : Heap :=
  match r with
  | .inl pr => pr.2
  | .inr pr => pr.1

theorem dijNbrs_false_proj {α : Type} (P : NodeRec → α)
    (hpd : ∀ n d q, P { n with distance := d, parent := q } = P n)
    (cur c : Nat) :
    ∀ (l : List Nat) (h : Heap) (opn : List Nat) (j : Nat),
      P (dijNbrsHeap (dijNbrs false cur c l h opn) j) = P (h j) := by
  intro l
  induction l with
  | nil => intro h opn j; rfl
  | cons nb rest ih =>
    intro h opn j
    simp only [dijNbrs, Bool.false_eq_true, false_and, if_false]
    split
    · exact (ih _ _ j).trans (hset_proj P (fun n => hpd n _ _) _ _ j)
    · exact ih _ _ j

theorem dijLoop_false_proj {α : Type} (P : NodeRec → α)
    (hpd : ∀ n d q, P { n with distance := d, parent := q } = P n)
    (finish : Option Nat) (maxd : WithTop Nat) :
    ∀ (fuel : Nat) (opn : List Nat) (h : Heap) (c : Nat) (j : Nat),
      P ((dijLoop false finish maxd fuel opn h c).2 j) = P (h j) := by
  intro fuel
  induction fuel with
  | zero => intro opn h c j; rfl
  | succ f ih =>
    intro opn h c j
    match opn with
    | [] => rfl
    | cur :: rest =>
      simp only [dijLoop]
      split
      · split
        · rfl
        · split
          · rfl
          · cases hr : dijNbrs false cur (c + 1) ((h cur).neighbors) h rest with
            | inl pr =>
              have := dijNbrs_false_proj P hpd cur (c + 1) ((h cur).neighbors) h rest j
              rw [hr] at this
              exact this
            | inr pr =>
              have := dijNbrs_false_proj P hpd cur (c + 1) ((h cur).neighbors) h rest j
              rw [hr] at this
              exact (ih _ _ _ j).trans this
      · rfl

theorem dijsktra_false_proj {α : Type} (P : NodeRec → α)
    (hpd : ∀ n d q, P { n with distance := d, parent := q } = P n)
    (g : Graph) (h : Heap) (start : Nat) (finish : Option Nat)
    (maxd : WithTop Nat) (j : Nat) :
    P ((dijsktra g h start finish maxd false).2 j) = P (h j) := by
  unfold dijsktra
  simp only [Bool.false_eq_true, false_and, if_false]
  rw [dijLoop_false_proj P hpd, hset_proj P (fun n => hpd n _ n.parent),
    reset_pathfinding_proj P hpd]

theorem calc_pair_proj {α : Type} (P : NodeRec → α) (hp : PipePres P)
    (g : Graph) (h : Heap) (pr : Nat × Nat) (j : Nat) :
    P (calc_pair g h pr j) = P (h j) := by
  unfold calc_pair
  split
  · rfl
  · dsimp only
    cases hr : (dijsktra g h (g.nodes.getD pr.1 0)
        (some (g.nodes.getD pr.2 0)) ⊤ false).1 <;>
      rw [hset_proj P (fun n => hp.pth n _), hset_proj P (fun n => hp.pth n _),
        dijsktra_false_proj P (fun n d q => hp.pd n d q)]

theorem sort_node_paths_proj {α : Type} (P : NodeRec → α) (hp : PipePres P)
    (h : Heap) (i j : Nat) :
    P (sort_node_paths h i j) = P (h j) :=
  hset_proj P (fun n => hp.pth n _) h i j

theorem calculate_proj {α : Type} (P : NodeRec → α) (hp : PipePres P)
    (g : Graph) (h : Heap) (j : Nat) :
    P ((calculate_shortest_paths_for_all_nodes g h).2 j) = P (h j) := by
  simp only [calculate_shortest_paths_for_all_nodes]
  rw [foldl_heap_proj P (fun s x j => sort_node_paths_proj P hp s x j),
    foldl_heap_proj P (fun s x j => calc_pair_proj P hp g s x j)]

theorem bridgeWrite_proj {α : Type} (P : NodeRec → α) (hp : PipePres P)
    (h : Heap) (p : List Nat) (j : Nat) :
    P (bridgeWrite h p j) = P (h j) := by
  unfold bridgeWrite
  exact foldl_heap_proj P (fun s x j => hset_proj P (fun n => hp.bp n _) s x j) _ h j

theorem analyze_betweeness_proj {α : Type} (P : NodeRec → α) (hp : PipePres P)
    (g : Graph) (h : Heap) (j : Nat) :
    P ((analyze_betweeness_centrality g h).2 j) = P (h j) := by
  have hps : ∀ (ps : List (List Nat))
      (s : Heap × List ((Nat × Nat) × List (List Nat))) (j : Nat),
      P ((ps.foldl (fun acc3 p => betw_path acc3 p) s).1 j) = P (s.1 j) :=
    foldl_proj P (fun (s : Heap × List ((Nat × Nat) × List (List Nat))) => s.1)
      (fun s x j => bridgeWrite_proj P hp s.1 x j)
  have hnode : ∀ (l : List Nat)
      (s : Nat × Heap × List ((Nat × Nat) × List (List Nat))) (j : Nat),
      P (((l.foldl betw_node s)).2.1 j) = P (s.2.1 j) := by
    refine foldl_proj P (fun (s : Nat × Heap × List ((Nat × Nat) × List (List Nat))) => s.2.1)
      (fun s x j => ?_)
    show P (((((s.2.1 : Heap) x).paths.foldl betw_entry s)).2.1 j) = P (s.2.1 j)
    refine foldl_proj P (fun (s : Nat × Heap × List ((Nat × Nat) × List (List Nat))) => s.2.1)
      (fun s2 pr j => ?_) _ s j
    show P ((betw_entry s2 pr).2.1 j) = P (s2.2.1 j)
    cases hpr : pr.2 with
    | none => simp [betw_entry, hpr]
    | some ps =>
      simp only [betw_entry, hpr]
      exact hps ps (s2.2.1, s2.2.2) j
  simp only [analyze_betweeness_centrality]
  split
  · exact hnode g.nodes _ j
  · split <;>
      rw [foldl_heap_proj P (fun s x j => hset_proj P (fun n => hp.bet n _) s x j),
        hnode g.nodes _ j]

theorem set_closeness_proj {α : Type} (P : NodeRec → α) (hp : PipePres P)
    (k : Nat) (n : NodeRec) : P (set_closeness k n) = P n := by
  unfold set_closeness
  dsimp only
  split
  · exact hp.clo n _
  · exact hp.clo n _

theorem analyze_closessness_proj {α : Type} (P : NodeRec → α) (hp : PipePres P)
    (g : Graph) (h : Heap) (j : Nat) :
    P ((analyze_closessness g h).2 j) = P (h j) := by
  simp only [analyze_closessness]
  split <;>
    exact foldl_proj P (fun (s : Heap × Option ℚ × Option ℚ) => s.1)
      (fun s x j => hset_proj P (fun n => set_closeness_proj P hp _ n) s.1 x j)
      g.nodes _ j

/-- The pipeline steps before `analyze_bipartite` change no node field
other than the transient pathfinding state, `degree`, the clustering
coefficient, `paths`, `bridge_paths`, `betweeness` and `closeness`; any
projection ignoring those fields is untouched. -/
theorem pipeline_pre_bipartite_proj {α : Type} (P : NodeRec → α) (hp : PipePres P)
    (fuel : Nat) (p : Nat × Nat × Nat) (g : Graph) (h : Heap) (j : Nat) :
    P ((pipeline_pre_bipartite fuel p g h).2 j) = P (h j) := by
  simp only [pipeline_pre_bipartite]
  rw [analyze_closessness_proj P hp, analyze_betweeness_proj P hp,
    calculate_proj P hp, analyze_cluster_coefficients_proj P hp,
    set_node_degrees_proj P hp]

/-! ### `get_node_copies` produces uncolored nodes -/

/-- The allocation fold of `get_node_copies` leaves untouched any id it
does not write. -/
theorem copies_alloc_untouched (names : List String) (next : Nat) :
    ∀ (ks : List Nat) (h : Heap) (j : Nat), (∀ k ∈ ks, j ≠ next + k) →
      (ks.foldl (fun hh k => hset hh (next + k)
        (fun _ => Node_init (names.getD k ""))) h) j = h j := by
  intro ks
  induction ks with
  | nil => intro h j _; rfl
  | cons k rest ih =>
    intro h j hj
    rw [List.foldl_cons, ih _ j (fun k' hk' => hj k' (List.mem_cons_of_mem _ hk')),
      hset_other _ _ _ (hj k (List.mem_cons_self _ _))]

/-- After the allocation fold of `get_node_copies`, every allocated id
holds a fresh `Node_init` record, whose color is `none`. -/
theorem copies_alloc_color (names : List String) (next : Nat) :
    ∀ (ks : List Nat) (h : Heap) (j : Nat), (∃ k ∈ ks, j = next + k) →
      ((ks.foldl (fun hh k => hset hh (next + k)
        (fun _ => Node_init (names.getD k ""))) h) j).color = none := by
  intro ks
  induction ks with
  | nil => rintro h j ⟨k, hk, _⟩; exact absurd hk (List.not_mem_nil k)
  | cons k rest ih =>
    intro h j hj
    rw [List.foldl_cons]
    by_cases hrest : ∃ k' ∈ rest, j = next + k'
    · exact ih _ j hrest
    · obtain ⟨k', hk', hjk⟩ := hj
      have hk0 : k' = k := by
        rcases List.mem_cons.mp hk' with h1 | h1
        · exact h1
        · exact absurd ⟨k', h1, hjk⟩ hrest
      rw [copies_alloc_untouched names next rest _ j
          (fun k2 hk2 hj2 => hrest ⟨k2, hk2, hj2⟩),
        hjk, hk0, hset_same]
      rfl

/-- The rewiring fold of `get_node_copies` appends neighbor references
only, so it changes no node's color. -/
theorem copies_wire_color (newIds : List Nat) :
    ∀ (l : List Nat) (h : Heap) (j : Nat),
      ((l.foldl (fun hh i =>
        match newIds.find? (fun j2 => (hh j2).name == (hh i).name) with
        | none => hh
        | some ni =>
          (hh i).neighbors.foldl (fun hh2 nb =>
              match newIds.find? (fun j2 => (hh2 j2).name == (hh2 nb).name) with
              | none => hh2
              | some nj => hset hh2 ni (fun n =>
                  { n with neighbors := n.neighbors ++ [nj] })) hh) h) j).color
        = (h j).color := by
  have hinner : ∀ (nbrs : List Nat) (ni : Nat) (h : Heap) (j : Nat),
      ((nbrs.foldl (fun hh2 nb =>
          match newIds.find? (fun j2 => (hh2 j2).name == (hh2 nb).name) with
          | none => hh2
          | some nj => hset hh2 ni (fun n =>
              { n with neighbors := n.neighbors ++ [nj] })) h) j).color
        = (h j).color := by
    intro nbrs
    induction nbrs with
    | nil => intro ni h j; rfl
    | cons nb rest ih =>
      intro ni h j
      rw [List.foldl_cons, ih]
      cases newIds.find? (fun j2 => (h j2).name == (h nb).name) with
      | none => rfl
      | some nj =>
        exact @hset_proj _ (fun n => n.color)
          (fun n => { n with neighbors := n.neighbors ++ [nj] })
          (fun n => rfl) h ni j
  intro l
  induction l with
  | nil => intro h j; rfl
  | cons i rest ih =>
    intro h j
    rw [List.foldl_cons, ih]
    cases newIds.find? (fun j2 => (h j2).name == (h i).name) with
    | none => rfl
    | some ni => exact hinner _ ni h j

/-- Every node produced by `get_node_copies` is uncolored. -/
theorem get_node_copies_color (h : Heap) (nodes : List Nat) (next : Nat) :
    ∀ j ∈ (get_node_copies h nodes next).2.1,
      ((get_node_copies h nodes next).1 j).color = none := by
  intro j hj
  simp only [get_node_copies] at hj ⊢
  rw [copies_wire_color]
  apply copies_alloc_color
  simp only [List.mem_map] at hj
  obtain ⟨k, hk, hjk⟩ := hj
  exact ⟨k, hk, hjk.symm⟩

/-! ### Claim C6 -/

/-- Two-node path graph `a(0) — b(1)` with fresh (uncolored) nodes. -/
def c6Heap : Heap := heapOf [("a", [1]), ("b", [0])]

/-- The graph object for the C6 instance. -/
def c6Graph : Graph := { Graph_init "t" with nodes := [0, 1] }

/-- **C6** (counterexample).  `reset_color` is never invoked anywhere in
the repository, so colors survive an analysis pass: after one full
pipeline pass over the fresh two-node path graph (which colors `a`
magenta), a second pass reaches its `analyze_bipartite` step — the state
at that point is by definition `pipeline_pre_bipartite` of the first
pass's result — with node `a` still carrying the magenta color assigned
during the previous pass, contradicting the claim that no node retains a
color from a previous analysis pass at the start of each bipartite
analysis.  (Re-analysis of an already-analyzed graph is reachable in the
program: `StringManager.generate_graph` calls `GraphManager`'s
`generate_kn_graph` directly, which does not update `current_graph`, and
then calls `analyze_graph`, which re-analyzes the previous graph.) -/
theorem C6_color_counterexample :
    (c6Heap 0).color = none ∧
    ((analyze_pipeline 20 (0, 0, 0) c6Graph c6Heap).2 0).color = some "magenta" ∧
    ((pipeline_pre_bipartite 20 (0, 0, 0)
        (analyze_pipeline 20 (0, 0, 0) c6Graph c6Heap).1
        (analyze_pipeline 20 (0, 0, 0) c6Graph c6Heap).2).2 0).color
      = some "magenta" := by
  decide

/-- **C6** (amended).  The program contains a `reset_color` method but
never calls it; colors are never reset between runs.  Instead, every
bipartite analysis the program performs starts uncolored because it runs
on freshly constructed `Node` objects: for any heap whose nodes are all
uncolored, the pipeline steps preceding `analyze_bipartite` assign no
color, so the first bipartite analysis over a freshly built graph starts
with every node uncolored; and `get_node_copies` (the only node source of
the community-detection subgraphs) produces uncolored nodes.  A second
analysis pass over the same node set, however, begins with the colors of
the previous pass retained (see the counterexample). -/
theorem C6_colors_amended (fuel : Nat) (p : Nat × Nat × Nat) (g : Graph)
    (h : Heap) (hc : ∀ i, (h i).color = none) :
    (∀ i, ((pipeline_pre_bipartite fuel p g h).2 i).color = none) ∧
    (∀ (h2 : Heap) (nodes : List Nat) (next : Nat),
      ∀ j ∈ (get_node_copies h2 nodes next).2.1,
        ((get_node_copies h2 nodes next).1 j).color = none) := by
  constructor
  · intro i
    rw [pipeline_pre_bipartite_proj (fun n => n.color)
      ⟨fun n d => rfl, fun n d p => rfl, fun n v => rfl, fun n v => rfl,
       fun n v => rfl, fun n v => rfl, fun n v => rfl⟩]
    exact hc i
  · exact fun h2 nodes next => get_node_copies_color h2 nodes next

/-- Witness for the amended C6 statement at the fresh two-node path. -/
theorem C6_colors_amended_witness :
    (∀ i, (c6Heap i).color = none) ∧
    ((∀ i, ((pipeline_pre_bipartite 20 (0, 0, 0) c6Graph c6Heap).2 i).color = none) ∧
    (∀ (h2 : Heap) (nodes : List Nat) (next : Nat),
      ∀ j ∈ (get_node_copies h2 nodes next).2.1,
        ((get_node_copies h2 nodes next).1 j).color = none)) :=
  ⟨fun _ => rfl,
   C6_colors_amended 20 (0, 0, 0) c6Graph c6Heap (fun _ => rfl)⟩

/-! ### Claim C2: betweeness centrality -/

/-- `setAdd` really inserts. -/
theorem mem_setAdd_self {α : Type} [DecidableEq α] (l : List α) (a : α) :
    a ∈ setAdd l a := by
  unfold setAdd
  split
  · assumption
  · simp

theorem setAdd_of_mem {α : Type} [DecidableEq α] {l : List α} {a : α}
    (h : a ∈ l) : setAdd l a = l := if_pos h

theorem setAdd_idem {α : Type} [DecidableEq α] (l : List α) (a : α) :
    setAdd (setAdd l a) a = setAdd l a :=
  setAdd_of_mem (mem_setAdd_self l a)

theorem setAdd_nodup {α : Type} [DecidableEq α] {l : List α} (h : l.Nodup)
    (a : α) : (setAdd l a).Nodup := by
  unfold setAdd
  split
  · exact h
  · next ha =>
    refine List.Nodup.append h (List.nodup_singleton a) ?_
    intro x hx hx2
    rw [List.mem_singleton] at hx2
    subst hx2
    exact ha hx

theorem toFinset_setAdd {α : Type} [DecidableEq α] (l : List α) (a : α) :
    (setAdd l a).toFinset = insert a l.toFinset := by
  unfold setAdd
  split
  · next ha => exact (Finset.insert_eq_self.mpr (List.mem_toFinset.mpr ha)).symm
  · simp [Finset.insert_eq, Finset.union_comm]

theorem foldl_setAdd_nodup {α : Type} [DecidableEq α] :
    ∀ (L : List α) (l0 : List α), l0.Nodup → (L.foldl setAdd l0).Nodup := by
  intro L
  induction L with
  | nil => exact fun l0 h => h
  | cons a L ih => exact fun l0 h => ih _ (setAdd_nodup h a)

theorem foldl_setAdd_toFinset {α : Type} [DecidableEq α] :
    ∀ (L : List α) (l0 : List α),
      (L.foldl setAdd l0).toFinset = l0.toFinset ∪ L.toFinset := by
  intro L
  induction L with
  | nil => intro l0; simp
  | cons a L ih =>
    intro l0
    rw [List.foldl_cons, ih, toFinset_setAdd, List.toFinset_cons]
    ext x
    simp

/-- Folding `setAdd` from the empty list keeps one copy of each distinct
element: the result has the length of the deduplicated input. -/
theorem foldl_setAdd_length {α : Type} [DecidableEq α] (L : List α) :
    (L.foldl setAdd ([] : List α)).length = L.dedup.length := by
  have h1 : (L.foldl setAdd ([] : List α)).toFinset.card
      = (L.foldl setAdd ([] : List α)).length :=
    List.toFinset_card_of_nodup (foldl_setAdd_nodup L [] List.nodup_nil)
  have h2 : L.dedup.toFinset.card = L.dedup.length :=
    List.toFinset_card_of_nodup (List.nodup_dedup L)
  have h3 : L.dedup.toFinset = L.toFinset := by
    ext x
    simp [List.mem_dedup]
  rw [← h1, ← h2, h3, foldl_setAdd_toFinset]
  simp

/-- The effect of one stored path on one node's `bridge_paths` set: the
path is inserted exactly when the node occupies a strict interior
position of the path. -/
def bridgeStep (j : Nat) (l : List (List Nat)) (p : List Nat) :
    List (List Nat) :=
  if j ∈ (p.drop 1).dropLast then setAdd l p else l

/-- Folding `bridgeStep j` inserts exactly the paths with `j` in their
interior. -/
theorem foldl_bridgeStep_filter {i : Nat} :
    ∀ (L : List (List Nat)) (l0 : List (List Nat)),
      L.foldl (bridgeStep i) l0
        = (L.filter (fun p => decide (i ∈ (p.drop 1).dropLast))).foldl setAdd l0 := by
  intro L
  induction L with
  | nil => intro l0; rfl
  | cons p rest ih =>
    intro l0
    rw [List.foldl_cons]
    by_cases hp : i ∈ (p.drop 1).dropLast
    · rw [List.filter_cons_of_pos (by simpa using hp), List.foldl_cons]
      have hstep : bridgeStep i l0 p = setAdd l0 p := if_pos hp
      rw [hstep, ih]
    · rw [List.filter_cons_of_neg (by simpa using hp)]
      have hstep : bridgeStep i l0 p = l0 := if_neg hp
      rw [hstep, ih]

theorem foldl_bridge_hset (p : List Nat) :
    ∀ (bs : List Nat) (hh : Heap) (j : Nat),
      ((bs.foldl (fun hh2 b => hset hh2 b (fun n =>
          { n with bridge_paths := setAdd n.bridge_paths p })) hh) j).bridge_paths
        = if j ∈ bs then setAdd ((hh j).bridge_paths) p
          else (hh j).bridge_paths := by
  intro bs
  induction bs with
  | nil => intro hh j; simp
  | cons b rest ih =>
    intro hh j
    rw [List.foldl_cons, ih]
    by_cases hb : j = b
    · subst hb
      rw [hset_same]
      by_cases hr : j ∈ rest
      · rw [if_pos hr, if_pos (List.mem_cons_self _ _)]
        exact setAdd_idem _ _
      · rw [if_neg hr, if_pos (List.mem_cons_self _ _)]
    · rw [hset_other _ _ _ hb]
      by_cases hr : j ∈ rest
      · rw [if_pos hr, if_pos (List.mem_cons_of_mem _ hr)]
      · rw [if_neg hr, if_neg (by simp [hb, hr])]

/-- `bridgeWrite` on node `j` is one `bridgeStep`. -/
theorem bridgeWrite_char (hh : Heap) (p : List Nat) (j : Nat) :
    ((bridgeWrite hh p) j).bridge_paths = bridgeStep j ((hh j).bridge_paths) p := by
  unfold bridgeWrite bridgeStep
  exact foldl_bridge_hset p _ hh j

theorem bridgeWrite_paths (hh : Heap) (p : List Nat) (j : Nat) :
    ((bridgeWrite hh p) j).paths = (hh j).paths := by
  unfold bridgeWrite
  exact foldl_heap_proj (fun n => n.paths)
    (fun s x j => @hset_proj _ (fun n => n.paths)
      (fun n => { n with bridge_paths := setAdd n.bridge_paths p })
      (fun n => rfl) s x j) _ hh j

theorem betw_path_bridge (st : Heap × List ((Nat × Nat) × List (List Nat)))
    (p : List Nat) (j : Nat) :
    ((betw_path st p).1 j).bridge_paths = bridgeStep j ((st.1 j).bridge_paths) p :=
  bridgeWrite_char st.1 p j

theorem betw_path_paths (st : Heap × List ((Nat × Nat) × List (List Nat)))
    (p : List Nat) (j : Nat) :
    ((betw_path st p).1 j).paths = (st.1 j).paths :=
  bridgeWrite_paths st.1 p j

theorem betw_fold_bridge :
    ∀ (ps : List (List Nat)) (s : Heap × List ((Nat × Nat) × List (List Nat)))
      (j : Nat),
      ((ps.foldl (fun acc3 p => betw_path acc3 p) s).1 j).bridge_paths
        = ps.foldl (bridgeStep j) ((s.1 j).bridge_paths) := by
  intro ps
  induction ps with
  | nil => intro s j; rfl
  | cons p rest ih =>
    intro s j
    rw [List.foldl_cons, List.foldl_cons, ih, betw_path_bridge]

theorem betw_fold_paths :
    ∀ (ps : List (List Nat)) (s : Heap × List ((Nat × Nat) × List (List Nat)))
      (j : Nat),
      ((ps.foldl (fun acc3 p => betw_path acc3 p) s).1 j).paths = (s.1 j).paths := by
  intro ps
  induction ps with
  | nil => intro s j; rfl
  | cons p rest ih =>
    intro s j
    rw [List.foldl_cons, ih, betw_path_paths]

/-- Spec-side: size of a node's stored shortest-path sets (`None` entries
store no set). -/
def spec_entry_count : List (Nat × Option (List (List Nat))) → Nat
  | [] => 0
  | pr :: rest =>
    (match pr.2 with | none => 0 | some ps => ps.length) + spec_entry_count rest

/-- Spec-side: the paths of a node's stored shortest-path sets, in
iteration order. -/
def spec_entry_paths : List (Nat × Option (List (List Nat))) → List (List Nat)
  | [] => []
  | pr :: rest =>
    (match pr.2 with | none => [] | some ps => ps) ++ spec_entry_paths rest

/-- Spec-side: the sum over all nodes of the sizes of all their stored
shortest-path sets. -/
def spec_total_paths (h : Heap) : List Nat → Nat
  | [] => 0
  | i :: rest => spec_entry_count (h i).paths + spec_total_paths h rest

/-- Spec-side: all discovered paths, every node's stored sets
concatenated in iteration order. -/
def spec_discovered_paths (h : Heap) : List Nat → List (List Nat)
  | [] => []
  | i :: rest => spec_entry_paths (h i).paths ++ spec_discovered_paths h rest

theorem betw_entries_char :
    ∀ (prs : List (Nat × Option (List (List Nat))))
      (s : Nat × Heap × List ((Nat × Nat) × List (List Nat))),
      (prs.foldl betw_entry s).1 = s.1 + spec_entry_count prs ∧
      (∀ j, ((prs.foldl betw_entry s).2.1 j).paths = (s.2.1 j).paths) ∧
      (∀ j, ((prs.foldl betw_entry s).2.1 j).bridge_paths
        = (spec_entry_paths prs).foldl (bridgeStep j) ((s.2.1 j).bridge_paths)) := by
  intro prs
  induction prs with
  | nil => exact fun s => ⟨(Nat.add_zero s.1).symm, fun j => rfl, fun j => rfl⟩
  | cons pr rest ih =>
    intro s
    rw [List.foldl_cons]
    cases hpr : pr.2 with
    | none =>
      have hstep : betw_entry s pr = s := by simp [betw_entry, hpr]
      rw [hstep]
      obtain ⟨hc, hp, hb⟩ := ih s
      refine ⟨?_, hp, ?_⟩
      · rw [hc]; simp [spec_entry_count, hpr]
      · intro j; rw [hb j]; simp [spec_entry_paths, hpr]
    | some ps =>
      have hstep : betw_entry s pr =
          ((s.1 + ps.length,
            (ps.foldl (fun acc3 p => betw_path acc3 p) (s.2.1, s.2.2)).1,
            (ps.foldl (fun acc3 p => betw_path acc3 p) (s.2.1, s.2.2)).2)) := by
        simp [betw_entry, hpr]
      rw [hstep]
      obtain ⟨hc, hp, hb⟩ := ih _
      refine ⟨?_, fun j => ?_, fun j => ?_⟩
      · rw [hc]
        simp only [spec_entry_count, hpr, Nat.add_assoc]
      · rw [hp j]
        exact betw_fold_paths ps (s.2.1, s.2.2) j
      · rw [hb j]
        simp only [spec_entry_paths, hpr, List.foldl_append]
        rw [betw_fold_bridge ps (s.2.1, s.2.2) j]

theorem betw_nodes_char (h : Heap) :
    ∀ (nodes : List Nat) (s : Nat × Heap × List ((Nat × Nat) × List (List Nat))),
      (∀ j, (s.2.1 j).paths = (h j).paths) →
      (nodes.foldl betw_node s).1 = s.1 + spec_total_paths h nodes ∧
      (∀ j, ((nodes.foldl betw_node s).2.1 j).paths = (h j).paths) ∧
      (∀ j, ((nodes.foldl betw_node s).2.1 j).bridge_paths
        = (spec_discovered_paths h nodes).foldl (bridgeStep j)
            ((s.2.1 j).bridge_paths)) := by
  intro nodes
  induction nodes with
  | nil =>
    exact fun s hs => ⟨(Nat.add_zero s.1).symm, hs, fun j => rfl⟩
  | cons i rest ih =>
    intro s hs
    rw [List.foldl_cons]
    obtain ⟨h1c, h1p, h1b⟩ := betw_entries_char (h i).paths s
    have hbn : betw_node s i = (h i).paths.foldl betw_entry s := by
      unfold betw_node
      rw [hs i]
    obtain ⟨hc, hp, hb⟩ := ih (betw_node s i)
      (fun j => by rw [hbn, h1p j]; exact hs j)
    refine ⟨?_, hp, fun j => ?_⟩
    · rw [hc, hbn, h1c, spec_total_paths, Nat.add_assoc]
    · rw [hb j, hbn, h1b j]
      simp only [spec_discovered_paths, List.foldl_append]

/-- Assigning `betweeness = |bridge_paths| / total` to every listed node. -/
theorem betw_assign (t : Nat) :
    ∀ (nodes : List Nat) (hh : Heap) (i : Nat), i ∈ nodes →
      ((nodes.foldl (fun hh2 k => hset hh2 k (fun n =>
          { n with betweeness := qdiv (qn n.bridge_paths.length) (qn t) })) hh)
        i).betweeness
      = qdiv (qn ((hh i).bridge_paths.length)) (qn t) := by
  intro nodes
  induction nodes with
  | nil => intro hh i hi; exact absurd hi (List.not_mem_nil i)
  | cons k rest ih =>
    intro hh i hi
    rw [List.foldl_cons]
    by_cases hr : i ∈ rest
    · rw [ih _ i hr]
      by_cases hk : i = k
      · subst hk; rw [hset_same]
      · rw [hset_other _ _ _ hk]
    · have hk : i = k := by
        rcases List.mem_cons.mp hi with h1 | h1
        · exact h1
        · exact absurd h1 hr
      subst hk
      have huntouched : ∀ (l : List Nat) (h2 : Heap) (j : Nat), j ∉ l →
          (l.foldl (fun hh2 k => hset hh2 k (fun n =>
            { n with betweeness := qdiv (qn n.bridge_paths.length) (qn t) })) h2) j
          = h2 j := by
        intro l
        induction l with
        | nil => intro h2 j _; rfl
        | cons a as ihl =>
          intro h2 j hj
          rw [List.foldl_cons, ihl _ j (fun hx => hj (List.mem_cons_of_mem _ hx)),
            hset_other _ _ _ (fun hx => hj (by rw [hx]; exact List.mem_cons_self a as))]
      rw [huntouched rest _ i hr, hset_same]

/-- **C2.**  After `analyze_betweeness_centrality` runs on a heap with
all `bridge_paths` sets still empty (as left by the shortest-path pass),
`total_paths` equals the sum over all nodes of the sizes of all their
stored shortest-path sets, and — whenever that total is nonzero, so the
division is performed — every node's `betweeness` equals the number of
distinct discovered paths on which the node occupies a strict interior
(non-endpoint) position, divided by `total_paths`. -/
theorem C2_betweeness_centrality (g : Graph) (h : Heap)
    (hbp : ∀ i, (h i).bridge_paths = []) :
    (analyze_betweeness_centrality g h).1.total_paths
        = some (spec_total_paths h g.nodes) ∧
    (spec_total_paths h g.nodes ≠ 0 → ∀ i ∈ g.nodes,
      ((analyze_betweeness_centrality g h).2 i).betweeness
        = qdiv (qn (((spec_discovered_paths h g.nodes).filter
            (fun p => decide (i ∈ (p.drop 1).dropLast))).dedup.length))
          (qn (spec_total_paths h g.nodes))) := by
  obtain ⟨hc, hp, hb⟩ := betw_nodes_char h g.nodes (0, h, g.edge_bridges)
    (fun j => rfl)
  have hbrij : ∀ i,
      ((g.nodes.foldl betw_node (0, h, g.edge_bridges)).2.1 i).bridge_paths
        = ((spec_discovered_paths h g.nodes).filter
            (fun p => decide (i ∈ (p.drop 1).dropLast))).foldl setAdd [] := by
    intro i
    rw [hb i]
    show (spec_discovered_paths h g.nodes).foldl (bridgeStep i)
        ((h i).bridge_paths) = _
    rw [hbp i, foldl_bridgeStep_filter]
  have hcount : (g.nodes.foldl betw_node (0, h, g.edge_bridges)).1
      = spec_total_paths h g.nodes := by
    rw [hc]
    exact Nat.zero_add _
  simp only [analyze_betweeness_centrality]
  rw [hcount]
  by_cases ht : spec_total_paths h g.nodes = 0
  · rw [if_pos ht]
    refine ⟨?_, fun hne => absurd ht hne⟩
    show some 0 = some (spec_total_paths h g.nodes)
    rw [ht]
  · rw [if_neg ht]
    constructor
    · split
      · split <;> rfl
      · split <;> rfl
    · intro _ i hi
      split
      all_goals
        rw [betw_assign (spec_total_paths h g.nodes) g.nodes _ i hi, hbrij i,
          foldl_setAdd_length]

/-- Path graph `a(0) — b(1) — c(2)` after a shortest-path pass: the
non-adjacent pair `(a, c)` has its path set stored in both directions. -/
def c2Heap : Heap := fun i =>
  let pr := ([("a", [1], [(2, some [[0, 1, 2]])]),
              ("b", [0, 2], []),
              ("c", [1], [(0, some [[2, 1, 0]])])] :
      List (String × List Nat × List (Nat × Option (List (List Nat))))).getD
    i ("", [], [])
  { Node_init pr.1 with neighbors := pr.2.1, paths := pr.2.2 }

/-- The graph object for the C2 instance. -/
def c2Graph : Graph := { Graph_init "t" with nodes := [0, 1, 2] }

/-- Witness for C2 at the analyzed path graph. -/
theorem C2_betweeness_centrality_witness :
    (∀ i, (c2Heap i).bridge_paths = []) ∧
    ((analyze_betweeness_centrality c2Graph c2Heap).1.total_paths
        = some (spec_total_paths c2Heap c2Graph.nodes) ∧
      (spec_total_paths c2Heap c2Graph.nodes ≠ 0 → ∀ i ∈ c2Graph.nodes,
        ((analyze_betweeness_centrality c2Graph c2Heap).2 i).betweeness
          = qdiv (qn (((spec_discovered_paths c2Heap c2Graph.nodes).filter
              (fun p => decide (i ∈ (p.drop 1).dropLast))).dedup.length))
            (qn (spec_total_paths c2Heap c2Graph.nodes)))) :=
  ⟨fun _ => rfl, C2_betweeness_centrality c2Graph c2Heap (fun _ => rfl)⟩

/-! ### Claim C4: `dijsktra` in target mode is a correct breadth-first
search

The loop counter `current_distance` counts pops, not hop levels, so the
stored `distance` values are not hop counts; but each node is enqueued at
most once, on first discovery, so the FIFO queue still pops nodes in
nondecreasing hop-level order and the `parent` pointers form a
shortest-hop tree.  The development below proves exactly that. -/

/-- `reachK H s x k`: node `x` is reachable from `s` along neighbor edges
of the original heap `H` in exactly `k` hops. -/
inductive reachK (H : Heap) (s : Nat) : Nat → Nat → Prop where
  | refl : reachK H s s 0
  | step {y x k : Nat} : reachK H s y k → x ∈ (H y).neighbors →
      reachK H s x (k + 1)

/-- Reachability (in any number of hops). -/
def reach (H : Heap) (s t : Nat) : Prop := ∃ k, reachK H s t k

/-- `k` is the minimum hop count from `s` to `t`. -/
def minReach (H : Heap) (s t k : Nat) : Prop :=
  reachK H s t k ∧ ∀ j, j < k → ¬ reachK H s t j

theorem reachK_zero {H : Heap} {s x : Nat} (h : reachK H s x 0) : x = s := by
  cases h
  rfl

theorem minReach_self (H : Heap) (s : Nat) : minReach H s s 0 :=
  ⟨.refl, fun j hj => absurd hj (Nat.not_lt_zero j)⟩

theorem minReach_unique {H : Heap} {s t k k' : Nat} (h : minReach H s t k)
    (h' : minReach H s t k') : k = k' := by
  rcases Nat.lt_trichotomy k k' with hlt | heq | hgt
  · exact absurd h.1 (h'.2 k hlt)
  · exact heq
  · exact absurd h'.1 (h.2 k' hgt)

theorem reach_minReach {H : Heap} {s t : Nat} :
    ∀ k, reachK H s t k → ∃ m, minReach H s t m := by
  intro k
  induction k using Nat.strong_induction_on with
  | _ k ih =>
    intro hk
    by_cases hall : ∀ j, j < k → ¬ reachK H s t j
    · exact ⟨k, hk, hall⟩
    · push_neg at hall
      obtain ⟨j, hj, hjr⟩ := hall
      exact ih j hj hjr

theorem reachK_mem {H : Heap} {g : Graph} {s : Nat}
    (hcl : ∀ i ∈ g.nodes, ∀ nb ∈ (H i).neighbors, nb ∈ g.nodes)
    (hs : s ∈ g.nodes) : ∀ {x k : Nat}, reachK H s x k → x ∈ g.nodes := by
  intro x k h
  induction h with
  | refl => exact hs
  | step hy hnb ih => exact hcl _ ih _ hnb

/-- A neighbor-edge chain from `s` to `y` of `n + 1` vertices witnesses
reachability in `n` hops. -/
theorem chain_to_reachK {H : Heap} {s : Nat} :
    ∀ (q : List Nat) (y : Nat),
      List.Chain' (fun a b => b ∈ (H a).neighbors) q →
      q.head? = some s → q.getLast? = some y →
      reachK H s y (q.length - 1) := by
  intro q
  induction q using List.reverseRecOn with
  | nil => intro y _ h1 _; exact absurd h1 (by simp)
  | append_singleton l a ihl =>
    intro y hch h1 h2
    rw [List.getLast?_concat] at h2
    injection h2 with h2
    subst h2
    match l, h1 with
    | [], h1 =>
      injection h1 with h1
      subst h1
      exact .refl
    | b :: l', h1 =>
      rw [List.head?_append_of_ne_nil _ (by simp)] at h1
      rw [List.chain'_append] at hch
      obtain ⟨hchl, _, hlink⟩ := hch
      have hz' : (b :: l').getLast? = some ((b :: l').getLast (by simp)) :=
        List.getLast?_eq_getLast _ _
      have hstep := hlink _ hz' a (by simp)
      have hr := ihl ((b :: l').getLast (by simp)) hchl h1 hz'
      have := reachK.step hr hstep
      simpa using this

/-- A fold of `hset`s with one fixed update leaves untouched cells
unchanged. -/
theorem foldl_hset_untouched {f : NodeRec → NodeRec} :
    ∀ (l : List Nat) (hh : Heap) (j : Nat), j ∉ l →
      (l.foldl (fun h2 i => hset h2 i f) hh) j = hh j := by
  intro l
  induction l with
  | nil => intro hh j _; rfl
  | cons a as ih =>
    intro hh j hj
    rw [List.foldl_cons, ih _ j (fun hx => hj (List.mem_cons_of_mem _ hx)),
      hset_other _ _ _ (fun hx => hj (by rw [hx]; exact List.mem_cons_self a as))]

/-- After `reset_pathfinding`, every graph node has infinite distance and
no parent. -/
theorem reset_pathfinding_mem (g : Graph) (h : Heap) :
    ∀ x ∈ g.nodes, ((reset_pathfinding g h) x).distance = ⊤ ∧
      ((reset_pathfinding g h) x).parent = none := by
  have main : ∀ (l : List Nat) (hh : Heap) (x : Nat), x ∈ l →
      ((l.foldl (fun h2 i => hset h2 i
        (fun n => { n with parent := none, distance := ⊤ })) hh) x).distance = ⊤ ∧
      ((l.foldl (fun h2 i => hset h2 i
        (fun n => { n with parent := none, distance := ⊤ })) hh) x).parent = none := by
    intro l
    induction l with
    | nil => intro hh x hx; exact absurd hx (List.not_mem_nil x)
    | cons a as ih =>
      intro hh x hx
      rw [List.foldl_cons]
      by_cases hr : x ∈ as
      · exact ih _ x hr
      · have hxa : x = a := by
          rcases List.mem_cons.mp hx with h1 | h1
          · exact h1
          · exact absurd h1 hr
        subst hxa
        rw [foldl_hset_untouched as _ x hr, hset_same]
        exact ⟨rfl, rfl⟩
  exact fun x hx => main g.nodes h x hx

/-- `reset_pathfinding` does not change neighbor lists. -/
theorem reset_pathfinding_neighbors (g : Graph) (h : Heap) (x : Nat) :
    ((reset_pathfinding g h) x).neighbors = (h x).neighbors := by
  unfold reset_pathfinding
  exact foldl_heap_proj (fun n => n.neighbors)
    (fun s i j => @hset_proj _ (fun n => n.neighbors)
      (fun n => { n with parent := none, distance := ⊤ })
      (fun n => rfl) s i j) _ h x

/-- Count of still-undiscovered graph nodes: the loop measure. -/
def undisc (g : Graph) (hh : Heap) : Nat :=
  (g.nodes.toFinset.filter (fun x => (hh x).distance = ⊤)).card

/-- The breadth-first-search loop invariant of `dijsktra` in target mode
(`bipartite = False`, `max_distance = math.inf`).  `L` is the hop level
of the queue's front block, `c` the pop counter. -/
structure BfsInv (H : Heap) (g : Graph) (s t : Nat) (hh : Heap)
    (opn : List Nat) (L c : Nat) : Prop where
  nbrs : ∀ x, (hh x).neighbors = (H x).neighbors
  sdisc : (hh s).distance ≠ ⊤
  sparent : (hh s).parent = none
  reachD : ∀ x ∈ g.nodes, (hh x).distance ≠ ⊤ → reach H s x
  dbound : ∀ x ∈ g.nodes, (hh x).distance ≠ ⊤ →
    (hh x).distance ≤ (c : WithTop Nat)
  lv : ∃ A B, opn = A ++ B ∧ (∀ x ∈ A, minReach H s x L) ∧
    (∀ x ∈ B, minReach H s x (L + 1))
  nd : opn.Nodup
  opnD : ∀ x ∈ opn, x ∈ g.nodes ∧ (hh x).distance ≠ ⊤
  cov : ∀ x k, k ≤ L → reachK H s x k → (hh x).distance ≠ ⊤
  proc : ∀ x ∈ g.nodes, (hh x).distance ≠ ⊤ → x ∉ opn →
    ∀ nb ∈ (H x).neighbors, (hh nb).distance ≠ ⊤
  tin : t ∈ g.nodes → (hh t).distance ≠ ⊤ → t ∈ opn
  par : ∀ x ∈ g.nodes, (hh x).distance ≠ ⊤ → x ≠ s →
    ∃ px k, (hh x).parent = some px ∧ px ∈ g.nodes ∧
      (hh px).distance ≠ ⊤ ∧ x ∈ (H px).neighbors ∧
      minReach H s x (k + 1) ∧ minReach H s px k

/-- What holds of the heap returned with a found target. -/
structure BfsPost (H : Heap) (g : Graph) (s t : Nat) (hh : Heap) : Prop where
  treach : reach H s t
  tdisc : (hh t).distance ≠ ⊤
  sparent : (hh s).parent = none
  par : ∀ x ∈ g.nodes, (hh x).distance ≠ ⊤ → x ≠ s →
    ∃ px k, (hh x).parent = some px ∧ px ∈ g.nodes ∧
      (hh px).distance ≠ ⊤ ∧ x ∈ (H px).neighbors ∧
      minReach H s x (k + 1) ∧ minReach H s px k

/-- Advancing the front level when the level-`L` block is exhausted. -/
theorem bfs_shift {H : Heap} {g : Graph} {s t : Nat} {hh : Heap}
    {opn : List Nat} {L c : Nat}
    (hcl : ∀ i ∈ g.nodes, ∀ nb ∈ (H i).neighbors, nb ∈ g.nodes)
    (hsmem : s ∈ g.nodes)
    (inv : BfsInv H g s t hh opn L c)
    (hB : ∀ x ∈ opn, minReach H s x (L + 1)) :
    BfsInv H g s t hh opn (L + 1) c := by
  refine ⟨inv.nbrs, inv.sdisc, inv.sparent, inv.reachD, inv.dbound,
    ⟨opn, [], by simp, hB, by simp⟩, inv.nd, inv.opnD, ?_, inv.proc,
    inv.tin, inv.par⟩
  intro x k hk hxk
  rcases Nat.lt_or_ge k (L + 1) with hlt | hge
  · exact inv.cov x k (Nat.lt_succ_iff.mp hlt) hxk
  · have hkeq : k = L + 1 := Nat.le_antisymm hk hge
    subst hkeq
    cases hxk with
    | step hy hnb =>
      rename_i y
      have hyd : (hh y).distance ≠ ⊤ := inv.cov y _ (Nat.le_refl _) hy
      have hymem : y ∈ g.nodes := reachK_mem hcl hsmem hy
      have hynot : y ∉ opn := fun hin => (hB y hin).2 _ (Nat.lt_succ_self L) hy
      exact inv.proc y hymem hyd hynot x hnb

/-- With an empty queue every reachable node is discovered and processed,
so an undiscovered (or unpopped) target is unreachable. -/
theorem bfs_empty_unreach {H : Heap} {g : Graph} {s t : Nat} {hh : Heap}
    {L c : Nat}
    (hcl : ∀ i ∈ g.nodes, ∀ nb ∈ (H i).neighbors, nb ∈ g.nodes)
    (hsmem : s ∈ g.nodes)
    (inv : BfsInv H g s t hh [] L c) : ¬ reach H s t := by
  intro hr
  obtain ⟨k, hk⟩ := hr
  have hdisc : ∀ (k x : Nat), reachK H s x k → (hh x).distance ≠ ⊤ := by
    intro k
    induction k with
    | zero =>
      intro x hx
      rw [reachK_zero hx]
      exact inv.sdisc
    | succ k ih =>
      intro x hx
      cases hx with
      | step hy hnb =>
        exact inv.proc _ (reachK_mem hcl hsmem hy) (ih _ hy)
          (List.not_mem_nil _) _ hnb
  exact absurd (inv.tin (reachK_mem hcl hsmem hk) (hdisc k t hk))
    (List.not_mem_nil t)

/-- One full neighbor scan of the BFS loop: with `bipartite = False` the
scan never exits early, discovers exactly the previously-undiscovered
scanned neighbors (assigning them distance `c'`, parent `cur`, and hop
level `L + 1`), appends them to the queue, and leaves every discovered
node's cell untouched. -/
theorem dijNbrs_step (H : Heap) (g : Graph) (s : Nat)
    (hcl : ∀ i ∈ g.nodes, ∀ nb ∈ (H i).neighbors, nb ∈ g.nodes)
    (cur : Nat) (c' L : Nat)
    (hcurmem : cur ∈ g.nodes) (hcurLv : minReach H s cur L) :
    ∀ (nbrs : List Nat) (hh : Heap) (opn : List Nat),
      (∀ nb ∈ nbrs, nb ∈ (H cur).neighbors) →
      (∀ x ∈ g.nodes, (hh x).distance ≠ ⊤ →
        (hh x).distance ≤ (c' : WithTop Nat)) →
      (∀ x k, k ≤ L → reachK H s x k → (hh x).distance ≠ ⊤) →
      (∀ x ∈ opn, x ∈ g.nodes ∧ (hh x).distance ≠ ⊤) →
      opn.Nodup →
      ∃ hh' opn' new,
        dijNbrs false cur c' nbrs hh opn = .inr (hh', opn') ∧
        opn' = opn ++ new ∧
        (∀ x, (hh x).distance ≠ ⊤ → hh' x = hh x) ∧
        (∀ x, (hh' x).neighbors = (hh x).neighbors) ∧
        opn'.Nodup ∧
        (∀ x ∈ new, x ∈ g.nodes ∧ (hh' x).distance ≠ ⊤ ∧
          minReach H s x (L + 1)) ∧
        (∀ x, ((hh x).distance ≠ ⊤ ∨ x ∈ nbrs) → (hh' x).distance ≠ ⊤) ∧
        (∀ x, (hh' x).distance ≠ ⊤ → (hh x).distance ≠ ⊤ ∨
          (x ∈ g.nodes ∧ (hh' x).distance = (c' : WithTop Nat) ∧
            (hh' x).parent = some cur ∧ x ∈ (H cur).neighbors ∧
            minReach H s x (L + 1) ∧ x ∈ opn')) ∧
        opn'.length + undisc g hh' = opn.length + undisc g hh := by
  intro nbrs
  induction nbrs with
  | nil =>
    intro hh opn _ _ _ hopnD hnd
    refine ⟨hh, opn, [], rfl, (List.append_nil opn).symm, fun x _ => rfl,
      fun x => rfl, hnd, fun x hx => absurd hx (List.not_mem_nil x),
      fun x hx => ?_, fun x hx => Or.inl hx, rfl⟩
    rcases hx with hx | hx
    · exact hx
    · exact absurd hx (List.not_mem_nil x)
  | cons nb rest ih =>
    intro hh opn hsub hdb hcov hopnD hnd
    have hnbcur : nb ∈ (H cur).neighbors := hsub nb (List.mem_cons_self _ _)
    have hnbg : nb ∈ g.nodes := hcl cur hcurmem nb hnbcur
    have hred : dijNbrs false cur c' (nb :: rest) hh opn =
        if (c' : WithTop Nat) < (hh nb).distance then
          dijNbrs false cur c' rest
            (hset hh nb (fun n =>
              { n with distance := (c' : WithTop Nat), parent := some cur }))
            (if nb ∈ opn then opn else opn ++ [nb])
        else dijNbrs false cur c' rest hh opn := by
      simp only [dijNbrs, Bool.false_eq_true, false_and, if_false]
    by_cases hlt : (c' : WithTop Nat) < (hh nb).distance
    · -- `nb` is undiscovered: it is discovered now and appended.
      have hund : (hh nb).distance = ⊤ := by
        by_contra hne
        exact absurd hlt (not_lt.mpr (hdb nb hnbg hne))
      have hnotin : nb ∉ opn := fun hin => (hopnD nb hin).2 hund
      have hmin : minReach H s nb (L + 1) := by
        refine ⟨.step hcurLv.1 hnbcur, fun j hj hjr => ?_⟩
        exact hcov nb j (Nat.lt_succ_iff.mp hj) hjr hund
      rw [hred, if_pos hlt, if_neg hnotin]
      set h2 := hset hh nb (fun n =>
        { n with distance := (c' : WithTop Nat), parent := some cur }) with hh2
      have h2nb : h2 nb = { hh nb with distance := (c' : WithTop Nat), parent := some cur } :=
        hset_same _ _ _
      have h2other : ∀ x, x ≠ nb → h2 x = hh x :=
        fun x hx => hset_other _ _ _ hx
      have h2db : ∀ x ∈ g.nodes, (h2 x).distance ≠ ⊤ →
          (h2 x).distance ≤ (c' : WithTop Nat) := by
        intro x hxg hxd
        by_cases hx : x = nb
        · subst hx
          rw [h2nb]
        · rw [h2other x hx] at hxd ⊢
          exact hdb x hxg hxd
      have h2cov : ∀ x k, k ≤ L → reachK H s x k → (h2 x).distance ≠ ⊤ := by
        intro x k hk hxr
        by_cases hx : x = nb
        · subst hx
          exact absurd (hcov _ _ hk hxr) (fun h => h hund)
        · rw [h2other x hx]
          exact hcov x k hk hxr
      have h2opnD : ∀ x ∈ opn ++ [nb], x ∈ g.nodes ∧ (h2 x).distance ≠ ⊤ := by
        intro x hx
        rcases List.mem_append.mp hx with hx | hx
        · have hxnb : x ≠ nb := fun he => hnotin (he ▸ hx)
          rw [h2other x hxnb]
          exact hopnD x hx
        · rw [List.mem_singleton] at hx
          subst hx
          rw [h2nb]
          exact ⟨hnbg, WithTop.coe_ne_top⟩
      have h2nd : (opn ++ [nb]).Nodup := by
        refine List.Nodup.append hnd (List.nodup_singleton nb) ?_
        intro x hx hx2
        rw [List.mem_singleton] at hx2
        subst hx2
        exact hnotin hx
      obtain ⟨hh', opn', new', heq, happ, hkeep, hnbr, hnd', hnew, hall,
        hchar, hmeas⟩ :=
        ih h2 (opn ++ [nb]) (fun x hx => hsub x (List.mem_cons_of_mem _ hx))
          h2db h2cov h2opnD h2nd
      have hh'nb : hh' nb = h2 nb := hkeep nb (by rw [h2nb]; exact WithTop.coe_ne_top)
      refine ⟨hh', opn', nb :: new', heq, by rw [happ, List.append_assoc]; rfl, ?_,
        ?_, hnd', ?_, ?_, ?_, ?_⟩
      · intro x hx
        have hxnb : x ≠ nb := fun he => (he ▸ hx) hund
        rw [hkeep x (by rw [h2other x hxnb]; exact hx), h2other x hxnb]
      · intro x
        rw [hnbr x]
        exact @hset_proj _ (fun n => n.neighbors)
          (fun n => { n with distance := (c' : WithTop Nat), parent := some cur })
          (fun n => rfl) hh nb x
      · intro x hx
        rcases List.mem_cons.mp hx with hx | hx
        · subst hx
          rw [hh'nb, h2nb]
          exact ⟨hnbg, WithTop.coe_ne_top, hmin⟩
        · exact hnew x hx
      · intro x hx
        rcases hx with hx | hx
        · have hxnb : x ≠ nb := fun he => (he ▸ hx) hund
          exact hall x (Or.inl (by rw [h2other x hxnb]; exact hx))
        · rcases List.mem_cons.mp hx with hx | hx
          · subst hx
            rw [hh'nb, h2nb]
            exact WithTop.coe_ne_top
          · exact hall x (Or.inr hx)
      · intro x hx
        rcases hchar x hx with hx2 | hx2
        · by_cases hxnb : x = nb
          · subst hxnb
            refine Or.inr ⟨hnbg, ?_, ?_, hnbcur, hmin, ?_⟩
            · rw [hh'nb, h2nb]
            · rw [hh'nb, h2nb]
            · rw [happ]
              simp
          · exact Or.inl (by rw [← h2other x hxnb]; exact hx2)
        · exact Or.inr hx2
      · rw [hmeas, List.length_append, List.length_singleton]
        have hfil : g.nodes.toFinset.filter (fun x => (h2 x).distance = ⊤)
            = (g.nodes.toFinset.filter
                (fun x => (hh x).distance = ⊤)).erase nb := by
          ext x
          rw [Finset.mem_erase, Finset.mem_filter, Finset.mem_filter]
          constructor
          · intro ⟨hxg, hxd⟩
            by_cases hx : x = nb
            · subst hx
              rw [h2nb] at hxd
              exact absurd hxd WithTop.coe_ne_top
            · rw [h2other x hx] at hxd
              exact ⟨hx, hxg, hxd⟩
          · intro ⟨hx, hxg, hxd⟩
            rw [h2other x hx]
            exact ⟨hxg, hxd⟩
        have hnbfil : nb ∈ g.nodes.toFinset.filter
            (fun x => (hh x).distance = ⊤) :=
          Finset.mem_filter.mpr ⟨List.mem_toFinset.mpr hnbg, hund⟩
        have hpos : 1 ≤ (g.nodes.toFinset.filter
            (fun x => (hh x).distance = ⊤)).card :=
          Finset.card_pos.mpr ⟨nb, hnbfil⟩
        unfold undisc
        rw [hfil, Finset.card_erase_of_mem hnbfil]
        omega
    · -- `nb` was already discovered: nothing changes.
      have hdisc : (hh nb).distance ≠ ⊤ := by
        intro he
        exact hlt (he ▸ WithTop.coe_lt_top c')
      rw [hred, if_neg hlt]
      obtain ⟨hh', opn', new', heq, happ, hkeep, hnbr, hnd', hnew, hall,
        hchar, hmeas⟩ :=
        ih hh opn (fun x hx => hsub x (List.mem_cons_of_mem _ hx))
          hdb hcov hopnD hnd
      refine ⟨hh', opn', new', heq, happ, hkeep, hnbr, hnd', hnew, ?_,
        hchar, hmeas⟩
      intro x hx
      rcases hx with hx | hx
      · exact hall x (Or.inl hx)
      · rcases List.mem_cons.mp hx with hx | hx
        · subst hx
          exact hall x (Or.inl hdisc)
        · exact hall x (Or.inr hx)

/-- The BFS loop of `dijsktra` in target mode: with enough fuel it
returns the target (with the invariant's parent tree) exactly when the
target is reachable, and the `None` result otherwise. -/
theorem dijLoop_bfs (H : Heap) (g : Graph) (s t : Nat)
    (hcl : ∀ i ∈ g.nodes, ∀ nb ∈ (H i).neighbors, nb ∈ g.nodes)
    (hsmem : s ∈ g.nodes) :
    ∀ (fuel : Nat) (opn : List Nat) (hh : Heap) (c L : Nat),
      BfsInv H g s t hh opn L c →
      opn.length + undisc g hh ≤ fuel →
      (∃ hh', dijLoop false (some t) ⊤ fuel opn hh c = (.node t, hh') ∧
        BfsPost H g s t hh') ∨
      ((dijLoop false (some t) ⊤ fuel opn hh c).1 = .nores ∧ ¬ reach H s t) := by
  intro fuel
  induction fuel with
  | zero =>
    intro opn hh c L inv hfuel
    have hopn : opn = [] := List.length_eq_zero.mp (Nat.le_zero.mp
      (Nat.le_trans (Nat.le_add_right _ _) hfuel))
    subst hopn
    exact Or.inr ⟨rfl, bfs_empty_unreach hcl hsmem inv⟩
  | succ f ih =>
    intro opn hh c L inv hfuel
    match opn, inv, hfuel with
    | [], inv, hfuel =>
      exact Or.inr ⟨rfl, bfs_empty_unreach hcl hsmem inv⟩
    | cur :: rest, inv, hfuel =>
      obtain ⟨hcmem, hcdisc⟩ := inv.opnD cur (List.mem_cons_self _ _)
      by_cases hcurt : cur = t
      · subst hcurt
        refine Or.inl ⟨hh, ?_, ?_⟩
        · simp only [dijLoop]
          split
          · split
            · rfl
            · next hsome => exact absurd trivial hsome
          · next hlt => exact absurd (WithTop.coe_lt_top c) hlt
        · exact ⟨inv.reachD cur hcmem hcdisc, hcdisc, inv.sparent, inv.par⟩
      · -- Not the target: scan the neighbors and loop.
        have hsetup : ∃ L2 A2 B2, minReach H s cur L2 ∧ rest = A2 ++ B2 ∧
            (∀ x ∈ A2, minReach H s x L2) ∧
            (∀ x ∈ B2, minReach H s x (L2 + 1)) ∧
            BfsInv H g s t hh (cur :: rest) L2 c := by
          obtain ⟨A, B, hAB, hA, hB⟩ := inv.lv
          match A, hAB, hA with
          | [], hAB, hA =>
            have hBeq : B = cur :: rest := by simpa using hAB.symm
            subst hBeq
            exact ⟨L + 1, rest, [], hB cur (List.mem_cons_self _ _),
              (List.append_nil rest).symm,
              fun x hx => hB x (List.mem_cons_of_mem _ hx),
              fun x hx => absurd hx (List.not_mem_nil x),
              bfs_shift hcl hsmem inv hB⟩
          | a :: A', hAB, hA =>
            rw [List.cons_append] at hAB
            injection hAB with hc hrest
            subst hc
            subst hrest
            exact ⟨L, A', B, hA cur (List.mem_cons_self _ _),
              rfl, fun x hx => hA x (List.mem_cons_of_mem _ hx), hB, inv⟩
        obtain ⟨L2, A2, B2, hcurLv, hrest, hA2, hB2, inv2⟩ := hsetup
        obtain ⟨hh', opn', new, heq, happ, hkeep, hnbr, hnd', hnew, hall,
          hchar, hmeas⟩ :=
          dijNbrs_step H g s hcl cur (c + 1) L2 hcmem hcurLv
            (hh cur).neighbors hh rest
            (fun nb hnb => by rw [inv2.nbrs cur] at hnb; exact hnb)
            (fun x hxg hxd => le_trans (inv2.dbound x hxg hxd)
              (WithTop.coe_le_coe.mpr (Nat.le_succ c)))
            inv2.cov
            (fun x hx => inv2.opnD x (List.mem_cons_of_mem _ hx))
            (List.Nodup.of_cons inv2.nd)
        have hstep : dijLoop false (some t) ⊤ (f + 1) (cur :: rest) hh c
            = dijLoop false (some t) ⊤ f opn' hh' (c + 1) := by
          simp only [dijLoop]
          rw [heq]
          split
          · split
            · next hsome => exact absurd hsome (by simp [hcurt])
            · split
              · next htop => exact absurd htop WithTop.coe_ne_top
              · rfl
          · next hlt => exact absurd (WithTop.coe_lt_top c) hlt
        rw [hstep]
        have hdiscall : ∀ x, (hh x).distance ≠ ⊤ → (hh' x).distance ≠ ⊤ :=
          fun x hx => hall x (Or.inl hx)
        have inv' : BfsInv H g s t hh' opn' L2 (c + 1) := by
          refine ⟨fun x => (hnbr x).trans (inv2.nbrs x),
            hdiscall s inv2.sdisc,
            by rw [hkeep s inv2.sdisc]; exact inv2.sparent,
            ?_, ?_, ?_, hnd', ?_, ?_, ?_, ?_, ?_⟩
          · -- reachD
            intro x hxg hxd
            rcases hchar x hxd with hx | hx
            · exact inv2.reachD x hxg hx
            · exact ⟨L2 + 1, hx.2.2.2.2.1.1⟩
          · -- dbound
            intro x hxg hxd
            rcases hchar x hxd with hx | hx
            · rw [hkeep x hx]
              exact le_trans (inv2.dbound x hxg hx)
                (WithTop.coe_le_coe.mpr (Nat.le_succ c))
            · rw [hx.2.1]
          · -- lv
            exact ⟨A2, B2 ++ new, by rw [happ, hrest, List.append_assoc],
              hA2, fun x hx => (List.mem_append.mp hx).elim (hB2 x)
                (fun hx2 => (hnew x hx2).2.2)⟩
          · -- opnD
            intro x hx
            rw [happ] at hx
            rcases List.mem_append.mp hx with hx | hx
            · obtain ⟨h1, h2⟩ := inv2.opnD x (List.mem_cons_of_mem _ hx)
              exact ⟨h1, hdiscall x h2⟩
            · obtain ⟨h1, h2, _⟩ := hnew x hx
              exact ⟨h1, h2⟩
          · -- cov
            exact fun x k hk hr => hdiscall x (inv2.cov x k hk hr)
          · -- proc
            intro x hxg hxd hxopn nb hnb
            rcases hchar x hxd with hx | hx
            · by_cases hxc : x = cur
              · rw [hxc] at hnb
                exact hall nb (Or.inr (by rw [inv2.nbrs cur]; exact hnb))
              · have hxrest : x ∉ rest := fun hr =>
                  hxopn (by rw [happ]; exact List.mem_append_left _ hr)
                have hxold : x ∉ cur :: rest := by
                  intro hr
                  rcases List.mem_cons.mp hr with h1 | h1
                  · exact hxc h1
                  · exact hxrest h1
                exact hdiscall nb (inv2.proc x hxg hx hxold nb hnb)
            · exact absurd hx.2.2.2.2.2 hxopn
          · -- tin
            intro htg htd
            rcases hchar t htd with hx | hx
            · have := inv2.tin htg hx
              rcases List.mem_cons.mp this with h1 | h1
              · exact absurd h1.symm hcurt
              · rw [happ]
                exact List.mem_append_left _ h1
            · exact hx.2.2.2.2.2
          · -- par
            intro x hxg hxd hxs
            rcases hchar x hxd with hx | hx
            · obtain ⟨px, k, hp1, hp2, hp3, hp4, hp5, hp6⟩ :=
                inv2.par x hxg hx hxs
              exact ⟨px, k, by rw [hkeep x hx]; exact hp1, hp2,
                hdiscall px hp3, hp4, hp5, hp6⟩
            · exact ⟨cur, L2, hx.2.2.1, hcmem, hdiscall cur hcdisc,
                hx.2.2.2.1, hx.2.2.2.2.1, hcurLv⟩
        refine ih opn' hh' (c + 1) L2 inv' ?_
        rw [hmeas]
        have := hfuel
        simp only [List.length_cons] at this
        omega

/-- The parent chain of a discovered node passes through one node of each
hop level below it, so it is duplicate-free and bounds the node's level by
the graph size. -/
theorem bfs_chain_abstract {H : Heap} {g : Graph} {s : Nat} {hh : Heap}
    (hpar : ∀ x ∈ g.nodes, (hh x).distance ≠ ⊤ → x ≠ s →
      ∃ px k, (hh x).parent = some px ∧ px ∈ g.nodes ∧
        (hh px).distance ≠ ⊤ ∧ x ∈ (H px).neighbors ∧
        minReach H s x (k + 1) ∧ minReach H s px k) :
    ∀ (k x : Nat), x ∈ g.nodes → (hh x).distance ≠ ⊤ → minReach H s x k →
      ∃ w : List Nat, w.length = k + 1 ∧ w.Nodup ∧ (∀ y ∈ w, y ∈ g.nodes) ∧
        (∀ y ∈ w, ∃ j, j ≤ k ∧ minReach H s y j) := by
  intro k
  induction k with
  | zero =>
    intro x hxg hxd hmin
    exact ⟨[x], rfl, List.nodup_singleton x,
      fun y hy => by rw [List.mem_singleton] at hy; rw [hy]; exact hxg,
      fun y hy => by
        rw [List.mem_singleton] at hy
        rw [hy]
        exact ⟨0, Nat.le_refl 0, hmin⟩⟩
  | succ k ihk =>
    intro x hxg hxd hmin
    have hxs : x ≠ s := by
      intro he
      exact hmin.2 0 (Nat.succ_pos k) (by rw [he]; exact .refl)
    obtain ⟨px, k0, hp1, hp2, hp3, hp4, hp5, hp6⟩ := hpar x hxg hxd hxs
    have hk0 : k0 = k := by
      have := minReach_unique hp5 hmin
      omega
    rw [hk0] at hp5 hp6
    obtain ⟨w', hwl, hwnd, hwg, hwlv⟩ := ihk px hp2 hp3 hp6
    refine ⟨x :: w', by simp [hwl], ?_, ?_, ?_⟩
    · refine List.nodup_cons.mpr ⟨?_, hwnd⟩
      intro hxw
      obtain ⟨j, hj, hjm⟩ := hwlv x hxw
      have := minReach_unique hmin hjm
      omega
    · intro y hy
      rcases List.mem_cons.mp hy with hy | hy
      · rw [hy]; exact hxg
      · exact hwg y hy
    · intro y hy
      rcases List.mem_cons.mp hy with hy | hy
      · rw [hy]; exact ⟨k + 1, Nat.le_refl _, hmin⟩
      · obtain ⟨j, hj, hjm⟩ := hwlv y hy
        exact ⟨j, Nat.le_succ_of_le hj, hjm⟩

/-- `walk_parents` follows the parent tree from a discovered node down to
the start, producing the reversed minimum-hop path. -/
theorem bfs_walk {H : Heap} {g : Graph} {s : Nat} {hh : Heap}
    (hsp : (hh s).parent = none)
    (hpar : ∀ x ∈ g.nodes, (hh x).distance ≠ ⊤ → x ≠ s →
      ∃ px k, (hh x).parent = some px ∧ px ∈ g.nodes ∧
        (hh px).distance ≠ ⊤ ∧ x ∈ (H px).neighbors ∧
        minReach H s x (k + 1) ∧ minReach H s px k) :
    ∀ (k x : Nat), x ∈ g.nodes → (hh x).distance ≠ ⊤ → minReach H s x k →
      ∀ (fuel : Nat) (acc : List Nat), k ≤ fuel →
        ∃ w, walk_parents hh fuel x acc = acc ++ w ∧ w.length = k ∧
          List.Chain' (fun a b => a ∈ (H b).neighbors) (x :: w) ∧
          (x :: w).getLast? = some s := by
  intro k
  induction k with
  | zero =>
    intro x hxg hxd hmin fuel acc _
    have hxs : x = s := reachK_zero hmin.1
    subst hxs
    refine ⟨[], ?_, rfl, List.chain'_singleton x, rfl⟩
    match fuel with
    | 0 => exact (List.append_nil acc).symm
    | f + 1 =>
      simp only [walk_parents, hsp]
      exact (List.append_nil acc).symm
  | succ k ihk =>
    intro x hxg hxd hmin fuel acc hfu
    have hxs : x ≠ s := by
      intro he
      exact hmin.2 0 (Nat.succ_pos k) (by rw [he]; exact .refl)
    obtain ⟨px, k0, hp1, hp2, hp3, hp4, hp5, hp6⟩ := hpar x hxg hxd hxs
    have hk0 : k0 = k := by
      have := minReach_unique hp5 hmin
      omega
    rw [hk0] at hp5 hp6
    match fuel, hfu with
    | f + 1, hfu =>
      obtain ⟨w', hweq, hwlen, hwch, hwlast⟩ :=
        ihk px hp2 hp3 hp6 f (acc ++ [px]) (Nat.succ_le_succ_iff.mp hfu)
      refine ⟨px :: w', ?_, by simp [hwlen], ?_, ?_⟩
      · simp only [walk_parents, hp1]
        rw [hweq, List.append_assoc]
        rfl
      · exact List.chain'_cons.mpr ⟨hp4, hwch⟩
      · rw [List.getLast?_cons_cons]
        exact hwlast

/-- Running `dijsktra` in target mode from scratch: the target is found
(with the BFS parent tree in the returned heap) or the `None` result is
returned and the target is unreachable. -/
theorem dijsktra_run (g : Graph) (h : Heap) (s t : Nat)
    (hs : s ∈ g.nodes) (hst : s ≠ t)
    (hcl : ∀ i ∈ g.nodes, ∀ nb ∈ (h i).neighbors, nb ∈ g.nodes) :
    (∃ hh', dijsktra g h s (some t) ⊤ false = (DijRes.node t, hh') ∧
      BfsPost h g s t hh') ∨
    ((dijsktra g h s (some t) ⊤ false).1 = DijRes.nores ∧ ¬ reach h s t) := by
  have hdij : dijsktra g h s (some t) ⊤ false
      = dijLoop false (some t) ⊤ (g.nodes.length + 1) [s]
          (hset (reset_pathfinding g h) s
            (fun n => { n with distance := ((0 : Nat) : WithTop Nat) })) 0 := by
    simp only [dijsktra, Bool.false_eq_true, false_and, if_false]
  set H1 := hset (reset_pathfinding g h) s
    (fun n => { n with distance := ((0 : Nat) : WithTop Nat) }) with hH1def
  have hH1s : H1 s = { reset_pathfinding g h s with distance := ((0 : Nat) : WithTop Nat) } :=
    hset_same _ _ _
  have hH1o : ∀ x, x ≠ s → H1 x = reset_pathfinding g h x :=
    fun x hx => hset_other _ _ _ hx
  have hsd : (H1 s).distance ≠ ⊤ := by
    rw [hH1s]
    exact WithTop.coe_ne_top
  have hother : ∀ x ∈ g.nodes, x ≠ s → (H1 x).distance = ⊤ := by
    intro x hxg hxs
    rw [hH1o x hxs]
    exact (reset_pathfinding_mem g h x hxg).1
  have inv0 : BfsInv h g s t H1 [s] 0 0 := by
    refine ⟨?_, hsd, ?_, ?_, ?_, ?_, List.nodup_singleton s, ?_, ?_, ?_, ?_, ?_⟩
    · intro x
      by_cases hx : x = s
      · rw [hx, hH1s]
        exact reset_pathfinding_neighbors g h s
      · rw [hH1o x hx]
        exact reset_pathfinding_neighbors g h x
    · rw [hH1s]
      exact (reset_pathfinding_mem g h s hs).2
    · intro x hxg hxd
      by_cases hx : x = s
      · subst hx
        exact ⟨0, .refl⟩
      · exact absurd (hother x hxg hx) hxd
    · intro x hxg hxd
      by_cases hx : x = s
      · rw [hx, hH1s]
      · exact absurd (hother x hxg hx) hxd
    · exact ⟨[s], [], (List.append_nil [s]).symm,
        fun x hx => by rw [List.mem_singleton] at hx; rw [hx]; exact minReach_self h s,
        fun x hx => absurd hx (List.not_mem_nil x)⟩
    · intro x hx
      rw [List.mem_singleton] at hx
      subst hx
      exact ⟨hs, hsd⟩
    · intro x k hk hr
      rw [Nat.le_zero.mp hk] at hr
      rw [reachK_zero hr]
      exact hsd
    · intro x hxg hxd hxopn
      by_cases hx : x = s
      · exact absurd (by rw [hx]; exact List.mem_singleton_self s) hxopn
      · exact absurd (hother x hxg hx) hxd
    · intro htg htd
      exact absurd (hother t htg (fun he => hst he.symm)) htd
    · intro x hxg hxd hxs
      exact absurd (hother x hxg hxs) hxd
  have hmeas : [s].length + undisc g H1 ≤ g.nodes.length + 1 := by
    have h1 : undisc g H1 ≤ g.nodes.toFinset.card := Finset.card_filter_le _ _
    have h2 := List.toFinset_card_le g.nodes
    simp only [List.length_singleton]
    omega
  have hres := dijLoop_bfs h g s t hcl hs (g.nodes.length + 1) [s] H1 0 0
    inv0 hmeas
  rcases hres with ⟨hh', heq, post⟩ | ⟨h1, hnr⟩
  · exact Or.inl ⟨hh', by rw [hdij, heq], post⟩
  · exact Or.inr ⟨by rw [hdij]; exact h1, hnr⟩

/-- **C4.**  For every graph whose edges stay inside its node list, and
distinct nodes `s`, `t` of it, `dijsktra(start=s, finish=t)` returns the
node result `t` exactly when `t` is reachable from `s`, in which case
walking the parent links from `t` and reversing
(`get_path_from_final_node`) yields an `s`-to-`t` path along neighbor
edges with the minimum number of hops; when `t` is unreachable the queue
runs out and the `None` result is returned — no error is raised, the
function is total. -/
theorem C4_dijsktra_bfs (g : Graph) (h : Heap) (s t : Nat)
    (hs : s ∈ g.nodes) (hst : s ≠ t)
    (hcl : ∀ i ∈ g.nodes, ∀ nb ∈ (h i).neighbors, nb ∈ g.nodes) :
    (reach h s t →
      (dijsktra g h s (some t) ⊤ false).1 = DijRes.node t ∧
      ∃ p, get_path_from_final_node g (dijsktra g h s (some t) ⊤ false).2
          (some t) = some p ∧
        p.head? = some s ∧ p.getLast? = some t ∧
        List.Chain' (fun a b => b ∈ (h a).neighbors) p ∧
        ∀ q, q.head? = some s → q.getLast? = some t →
          List.Chain' (fun a b => b ∈ (h a).neighbors) q →
          p.length ≤ q.length) ∧
    (¬ reach h s t →
      (dijsktra g h s (some t) ⊤ false).1 = DijRes.nores) := by
  have hres := dijsktra_run g h s t hs hst hcl
  constructor
  · intro hr
    rcases hres with ⟨hh', heq, post⟩ | ⟨_, hnr⟩
    · obtain ⟨k0, hk0⟩ := hr
      have htg : t ∈ g.nodes := reachK_mem hcl hs hk0
      have hts : t ≠ s := fun he => hst he.symm
      obtain ⟨px, k', hp1, hp2, hp3, hp4, hp5, hp6⟩ :=
        post.par t htg post.tdisc hts
      have hmin : minReach h s t (k' + 1) := hp5
      have hbound : k' + 1 + 1 ≤ g.nodes.length := by
        obtain ⟨w, hwl, hwnd, hwg, _⟩ := bfs_chain_abstract post.par
          (k' + 1) t htg post.tdisc hmin
        have h1 : w.toFinset.card = w.length := List.toFinset_card_of_nodup hwnd
        have h2 : w.toFinset ⊆ g.nodes.toFinset := fun y hy =>
          List.mem_toFinset.mpr (hwg y (List.mem_toFinset.mp hy))
        have h3 := Finset.card_le_card h2
        have h4 := List.toFinset_card_le g.nodes
        omega
      obtain ⟨w, hweq, hwlen, hwch, hwlast⟩ := bfs_walk post.sparent post.par
        (k' + 1) t htg post.tdisc hmin (g.nodes.length + 1) [t] (by omega)
      refine ⟨by rw [heq], (t :: w).reverse, ?_, ?_, ?_, ?_, ?_⟩
      · rw [heq]
        simp only [get_path_from_final_node]
        rw [hweq]
        rfl
      · rw [List.head?_reverse]
        exact hwlast
      · rw [List.getLast?_reverse]
        rfl
      · rw [List.chain'_reverse]
        exact hwch
      · intro q hq1 hq2 hq3
        have hqr := chain_to_reachK q t hq3 hq1 hq2
        have hqne : q ≠ [] := by
          intro he
          rw [he] at hq1
          exact absurd hq1 (by simp)
        have hq1le : 1 ≤ q.length := List.length_pos.mpr hqne
        have hnotlt : ¬ (q.length - 1 < k' + 1) := fun hlt => hmin.2 _ hlt hqr
        simp only [List.length_reverse, List.length_cons, hwlen]
        omega
    · exact absurd hr hnr
  · intro hnr
    rcases hres with ⟨hh', heq, post⟩ | ⟨hres1, _⟩
    · exact absurd post.treach hnr
    · exact hres1

/-- Path graph `a(0) — b(1) — c(2)` for the C4 instance. -/
def c4Heap : Heap := heapOf [("a", [1]), ("b", [0, 2]), ("c", [1])]

/-- The graph object for the C4 instance. -/
def c4Graph : Graph := { Graph_init "t" with nodes := [0, 1, 2] }

/-- Witness for C4: on the path graph, node `c` is reachable from `a`. -/
theorem C4_dijsktra_bfs_witness :
    reach c4Heap 0 2 ∧
    (0 ∈ c4Graph.nodes ∧ (0 : Nat) ≠ 2 ∧
      (∀ i ∈ c4Graph.nodes, ∀ nb ∈ (c4Heap i).neighbors, nb ∈ c4Graph.nodes)) ∧
    ((reach c4Heap 0 2 →
      (dijsktra c4Graph c4Heap 0 (some 2) ⊤ false).1 = DijRes.node 2 ∧
      ∃ p, get_path_from_final_node c4Graph
          (dijsktra c4Graph c4Heap 0 (some 2) ⊤ false).2 (some 2) = some p ∧
        p.head? = some 0 ∧ p.getLast? = some 2 ∧
        List.Chain' (fun a b => b ∈ (c4Heap a).neighbors) p ∧
        ∀ q, q.head? = some 0 → q.getLast? = some 2 →
          List.Chain' (fun a b => b ∈ (c4Heap a).neighbors) q →
          p.length ≤ q.length) ∧
    (¬ reach c4Heap 0 2 →
      (dijsktra c4Graph c4Heap 0 (some 2) ⊤ false).1 = DijRes.nores)) :=
  ⟨⟨2, @reachK.step c4Heap 0 1 2 1
      (@reachK.step c4Heap 0 0 1 0 reachK.refl (by decide)) (by decide)⟩,
   ⟨by decide, by decide, by decide⟩,
   C4_dijsktra_bfs c4Graph c4Heap 0 2 (by decide) (by decide) (by decide)⟩

/-! ### Claim C7: symmetric population of the stored shortest-path sets -/

theorem find?_mapSet {α : Type} (k : Nat) (v : α) :
    ∀ (l : List (Nat × α)), l.any (fun p => p.1 == k) = true →
      (l.map (fun p => if p.1 == k then (k, v) else p)).find?
        (fun p => p.1 == k) = some (k, v) := by
  intro l
  induction l with
  | nil => intro hany; simp at hany
  | cons p rest ih =>
    intro hany
    rw [List.map_cons]
    by_cases hp : (p.1 == k) = true
    · rw [if_pos hp]
      exact List.find?_cons_of_pos _ (by simp)
    · have hpf : (p.1 == k) = false := by simpa using hp
      rw [List.any_cons, hpf, Bool.false_or] at hany
      rw [if_neg hp, @List.find?_cons_of_neg (Nat × α) (fun q => q.1 == k) p _ hp]
      exact ih hany

theorem dictSet_lookup_self {α : Type} (l : List (Nat × α)) (k : Nat) (v : α) :
    dictLookup (dictSet l k v) k = some v := by
  unfold dictLookup dictSet
  split
  · next hany =>
    rw [find?_mapSet k v l hany]
    rfl
  · next hany =>
    rw [List.find?_append]
    have h1 : l.find? (fun p => p.1 == k) = none := by
      rw [List.find?_eq_none]
      intro x hx hxk
      exact hany (List.any_eq_true.mpr ⟨x, hx, hxk⟩)
    rw [h1]
    simp

theorem find?_mapSet_ne {α : Type} (k k' : Nat) (v : α) (hk : k' ≠ k) :
    ∀ (l : List (Nat × α)),
      (l.map (fun p => if p.1 == k then (k, v) else p)).find?
        (fun p => p.1 == k') = l.find? (fun p => p.1 == k') := by
  have hkk : ((k : Nat) == k') = false := beq_eq_false_iff_ne.mpr (Ne.symm hk)
  intro l
  induction l with
  | nil => rfl
  | cons p rest ih =>
    rw [List.map_cons]
    by_cases hp : (p.1 == k) = true
    · have hp1 : p.1 = k := by simpa using hp
      have hpk' : ¬ ((p.1 == k') = true) := by
        rw [hp1, hkk]
        exact Bool.false_ne_true
      have hkv : ¬ (((k, v).1 == k') = true) := by
        rw [show ((k, v).1 == k') = (k == k') from rfl, hkk]
        exact Bool.false_ne_true
      rw [if_pos hp,
        @List.find?_cons_of_neg (Nat × α) (fun q => q.1 == k') (k, v) _ hkv,
        @List.find?_cons_of_neg (Nat × α) (fun q => q.1 == k') p _ hpk']
      exact ih
    · rw [if_neg hp]
      by_cases hpk : (p.1 == k') = true
      · rw [@List.find?_cons_of_pos (Nat × α) (fun q => q.1 == k') p _ hpk,
          @List.find?_cons_of_pos (Nat × α) (fun q => q.1 == k') p _ hpk]
      · rw [@List.find?_cons_of_neg (Nat × α) (fun q => q.1 == k') p _ hpk,
          @List.find?_cons_of_neg (Nat × α) (fun q => q.1 == k') p _ hpk]
        exact ih

theorem dictSet_lookup_ne {α : Type} (l : List (Nat × α)) (k k' : Nat) (v : α)
    (hk : k' ≠ k) : dictLookup (dictSet l k v) k' = dictLookup l k' := by
  have hkk : ((k : Nat) == k') = false := beq_eq_false_iff_ne.mpr (Ne.symm hk)
  unfold dictLookup dictSet
  split
  · rw [find?_mapSet_ne k k' v hk]
  · rw [List.find?_append]
    have h2 : ([(k, v)] : List (Nat × α)).find? (fun p => p.1 == k') = none := by
      rw [List.find?_cons_of_neg _ (by rw [show ((k, v).1 == k') = (k == k') from rfl, hkk]; exact Bool.false_ne_true)]
      rfl
    rw [h2]
    simp

theorem any_mapSet_ne {α : Type} (k k' : Nat) (v : α) (hk : k' ≠ k) :
    ∀ (l : List (Nat × α)),
      (l.map (fun p => if p.1 == k then (k, v) else p)).any
        (fun p => p.1 == k') = l.any (fun p => p.1 == k') := by
  have hkk : ((k : Nat) == k') = false := beq_eq_false_iff_ne.mpr (Ne.symm hk)
  intro l
  induction l with
  | nil => rfl
  | cons p rest ih =>
    rw [List.map_cons, List.any_cons, List.any_cons, ih]
    by_cases hp : (p.1 == k) = true
    · have hp1 : p.1 = k := by simpa using hp
      rw [if_pos hp, show ((k, v).1 == k') = (k == k') from rfl, hkk, hp1, hkk]
    · rw [if_neg hp]

theorem dictMem_dictSet_ne {α : Type} (l : List (Nat × α)) (k k' : Nat) (v : α)
    (hk : k' ≠ k) : dictMem (dictSet l k v) k' = dictMem l k' := by
  have hkk : ((k : Nat) == k') = false := beq_eq_false_iff_ne.mpr (Ne.symm hk)
  unfold dictMem dictSet
  split
  · exact any_mapSet_ne k k' v hk l
  · rw [List.any_append, List.any_cons, List.any_nil,
      show ((k, v).1 == k') = (k == k') from rfl, hkk]
    simp

/-- The keys of an association list are duplicate-free. -/
def keysND {α : Type} (l : List (Nat × α)) : Prop := (l.map Prod.fst).Nodup

theorem keysND_nil {α : Type} : keysND ([] : List (Nat × α)) := List.nodup_nil

theorem keysND_dictSet {α : Type} {l : List (Nat × α)} (h : keysND l)
    (k : Nat) (v : α) : keysND (dictSet l k v) := by
  unfold dictSet
  split
  · have hmap : (l.map (fun p => if p.1 == k then (k, v) else p)).map Prod.fst
        = l.map Prod.fst := by
      rw [List.map_map]
      refine List.map_congr_left ?_
      intro p _
      by_cases hp2 : p.1 = k
      · simp [hp2]
      · simp [hp2]
    unfold keysND
    rw [hmap]
    exact h
  · next hany =>
    unfold keysND
    rw [List.map_append]
    refine List.Nodup.append h (List.nodup_singleton k) ?_
    intro x hx hx2
    rw [List.map_singleton, List.mem_singleton] at hx2
    subst hx2
    obtain ⟨p, hp, hp1⟩ := List.mem_map.mp hx
    exact hany (List.any_eq_true.mpr ⟨p, hp, by simp [hp1]⟩)

theorem keysND_perm {α : Type} {l l' : List (Nat × α)} (hp : l.Perm l')
    (h : keysND l) : keysND l' := ((hp.map Prod.fst).nodup_iff).mp h

theorem dictLookup_perm {α : Type} {l l' : List (Nat × α)} (hp : l.Perm l')
    (hnd : keysND l) (k : Nat) : dictLookup l k = dictLookup l' k := by
  unfold dictLookup
  suffices h : l.find? (fun p => p.1 == k) = l'.find? (fun p => p.1 == k) by
    rw [h]
  cases hfind : l.find? (fun p => p.1 == k) with
  | none =>
    rw [List.find?_eq_none] at hfind
    have : l'.find? (fun p => p.1 == k) = none := by
      rw [List.find?_eq_none]
      exact fun x hx => hfind x (hp.symm.subset hx)
    rw [this]
  | some p =>
    have hpmem : p ∈ l := List.mem_of_find?_eq_some hfind
    have hppred : (p.1 == k) = true :=
      @List.find?_some (Nat × α) (fun q => q.1 == k) p l hfind
    cases hfind' : l'.find? (fun pp => pp.1 == k) with
    | none =>
      rw [List.find?_eq_none] at hfind'
      exact absurd hppred (by simpa using hfind' p (hp.subset hpmem))
    | some q =>
      have hqmem : q ∈ l := hp.symm.subset (List.mem_of_find?_eq_some hfind')
      have hqpred : (q.1 == k) = true :=
        @List.find?_some (Nat × α) (fun pp => pp.1 == k) q l' hfind'
      have hpq : p = q := by
        refine List.inj_on_of_nodup_map hnd hpmem hqmem ?_
        have h1 : p.1 = k := by simpa using hppred
        have h2 : q.1 = k := by simpa using hqpred
        rw [h1, h2]
      rw [hpq]

theorem insertBy_perm {α : Type} (le : α → α → Bool) (x : α) :
    ∀ l : List α, (insertBy le x l).Perm (x :: l) := by
  intro l
  induction l with
  | nil => exact List.Perm.refl _
  | cons y ys ih =>
    unfold insertBy
    split
    · exact (ih.cons y).trans (List.Perm.swap x y ys)
    · exact List.Perm.refl _

theorem sortBy_perm {α : Type} (le : α → α → Bool) :
    ∀ l : List α, (sortBy le l).Perm l := by
  intro l
  induction l with
  | nil => exact List.Perm.refl _
  | cons x xs ih => exact (insertBy_perm le x (sortBy le xs)).trans (ih.cons x)

theorem reachK_congr {h1 h2 : Heap}
    (hnb : ∀ x, (h1 x).neighbors = (h2 x).neighbors) {s x k : Nat}
    (hr : reachK h1 s x k) : reachK h2 s x k := by
  induction hr with
  | refl => exact .refl
  | step hy hnbm ih =>
    refine .step ih ?_
    rw [← hnb]
    exact hnbm

theorem getD_inj {l : List Nat} (hnd : l.Nodup) {i j : Nat}
    (hi : i < l.length) (hj : j < l.length)
    (h : l.getD i 0 = l.getD j 0) : i = j := by
  rw [List.getD_eq_getElem l 0 hi, List.getD_eq_getElem l 0 hj] at h
  exact (List.Nodup.getElem_inj_iff hnd).mp h

theorem drop_range (n k : Nat) (hk : k ≤ n) :
    (List.range n).drop k = List.range' k (n - k) := by
  rw [List.range_eq_range']
  have h := List.range'_append_1 0 k (n - k)
  rw [Nat.zero_add, Nat.sub_add_cancel hk] at h
  rw [← h, List.drop_left' (List.length_range' 0 1 k)]

theorem mem_range'_one {s n j : Nat} :
    j ∈ List.range' s n ↔ s ≤ j ∧ j < s + n := by
  rw [List.mem_range']
  constructor
  · rintro ⟨i, hi, rfl⟩
    omega
  · intro ⟨h1, h2⟩
    exact ⟨j - s, by omega, by omega⟩

theorem allPairs_lt {n : Nat} : ∀ pr ∈ allPairs n, pr.1 < pr.2 ∧ pr.2 < n := by
  intro pr hpr
  unfold allPairs at hpr
  obtain ⟨i, hi, hpr2⟩ := List.mem_flatMap.mp hpr
  obtain ⟨j, hj, hpr3⟩ := List.mem_map.mp hpr2
  rw [List.mem_range] at hi
  rw [drop_range n (i + 1) (by
    rcases Nat.lt_or_ge i n with h | h
    · omega
    · omega), mem_range'_one] at hj
  subst hpr3
  constructor
  · exact hj.1
  · omega

theorem allPairs_mem {n i j : Nat} (hij : i < j) (hj : j < n) :
    (i, j) ∈ allPairs n := by
  unfold allPairs
  refine List.mem_flatMap.mpr ⟨i, List.mem_range.mpr (by omega), ?_⟩
  refine List.mem_map.mpr ⟨j, ?_, rfl⟩
  rw [drop_range n (i + 1) (by omega), mem_range'_one]
  omega

/-- The neighbor list ignores every transient pipeline field. -/
theorem pipePres_neighbors : PipePres (fun n => n.neighbors) :=
  ⟨fun _ _ => rfl, fun _ _ _ => rfl, fun _ _ => rfl, fun _ _ => rfl,
   fun _ _ => rfl, fun _ _ => rfl, fun _ _ => rfl⟩

theorem dictMem_of_lookup {α : Type} {l : List (Nat × α)} {k : Nat} {v : α}
    (h : dictLookup l k = some v) : dictMem l k = true := by
  unfold dictLookup at h
  unfold dictMem
  cases hf : l.find? (fun p => p.1 == k) with
  | none =>
    rw [hf] at h
    simp at h
  | some p =>
    exact List.any_eq_true.mpr ⟨p, List.mem_of_find?_eq_some hf,
      @List.find?_some _ (fun q => q.1 == k) p l hf⟩

/-- A guarded pair is skipped. -/
theorem calc_pair_skip (g : Graph) (hh : Heap) (pr : Nat × Nat)
    (hg : g.nodes.getD pr.2 0 ∈ (hh (g.nodes.getD pr.1 0)).neighbors ∨
      dictMem (hh (g.nodes.getD pr.1 0)).paths (g.nodes.getD pr.2 0) = true) :
    calc_pair g hh pr = hh := by
  unfold calc_pair
  dsimp only
  split
  · rfl
  · next hcond => exact absurd hg hcond

/-- The path set stored by a pair iteration that found node `k`. -/
def calcT (g : Graph) (hh2 : Heap) (X k : Nat) : List (List Nat) :=
  dfsA hh2 k ((walk_parents hh2 (g.nodes.length + 1) k [k]).reverse).length
    ((walk_parents hh2 (g.nodes.length + 1) k [k]).reverse).length X [X]
    [(walk_parents hh2 (g.nodes.length + 1) k [k]).reverse]

/-- One pair-loop iteration either skips, or runs `dijsktra` (which keeps
all `paths`) and then touches only the `paths` dictionaries of its two
endpoints, one `dictSet` each, keyed by the other endpoint. -/
theorem calc_pair_shape (g : Graph) (hh : Heap) (pr : Nat × Nat) :
    calc_pair g hh pr = hh ∨
    ∃ (r2 : Heap) (vX vY : Option (List (List Nat))),
      (∀ jj, (r2 jj).paths = (hh jj).paths) ∧
      calc_pair g hh pr
        = hset (hset r2 (g.nodes.getD pr.1 0) (fun n =>
            { n with paths := dictSet n.paths (g.nodes.getD pr.2 0) vX }))
          (g.nodes.getD pr.2 0) (fun n =>
            { n with paths := dictSet n.paths (g.nodes.getD pr.1 0) vY }) := by
  have hdijp : ∀ (jj : Nat),
      ((dijsktra g hh (g.nodes.getD pr.1 0)
        (some (g.nodes.getD pr.2 0)) ⊤ false).2 jj).paths = (hh jj).paths :=
    fun jj => dijsktra_false_proj (fun n => n.paths) (fun n d q => rfl)
      g hh _ _ ⊤ jj
  simp only [calc_pair]
  split
  · exact Or.inl rfl
  · cases hr : (dijsktra g hh (g.nodes.getD pr.1 0)
        (some (g.nodes.getD pr.2 0)) ⊤ false).1 with
    | node k =>
      refine Or.inr ⟨(dijsktra g hh (g.nodes.getD pr.1 0)
          (some (g.nodes.getD pr.2 0)) ⊤ false).2,
        some (calcT g (dijsktra g hh (g.nodes.getD pr.1 0)
          (some (g.nodes.getD pr.2 0)) ⊤ false).2 (g.nodes.getD pr.1 0) k),
        some ((calcT g (dijsktra g hh (g.nodes.getD pr.1 0)
          (some (g.nodes.getD pr.2 0)) ⊤ false).2 (g.nodes.getD pr.1 0) k).map
          List.reverse), hdijp, rfl⟩
    | frontier l =>
      exact Or.inr ⟨(dijsktra g hh (g.nodes.getD pr.1 0)
          (some (g.nodes.getD pr.2 0)) ⊤ false).2, none, none, hdijp, rfl⟩
    | nores =>
      exact Or.inr ⟨(dijsktra g hh (g.nodes.getD pr.1 0)
          (some (g.nodes.getD pr.2 0)) ⊤ false).2, none, none, hdijp, rfl⟩

/-- A pair iteration other than the `{a, b}` one preserves the `paths`
entry of `a` under key `b`. -/
theorem calc_pair_lookup_frame (g : Graph) (hh : Heap) (pr : Nat × Nat)
    (hXY : g.nodes.getD pr.1 0 ≠ g.nodes.getD pr.2 0) (a b : Nat)
    (h1 : ¬ (a = g.nodes.getD pr.1 0 ∧ b = g.nodes.getD pr.2 0))
    (h2 : ¬ (a = g.nodes.getD pr.2 0 ∧ b = g.nodes.getD pr.1 0)) :
    dictLookup ((calc_pair g hh pr a).paths) b
      = dictLookup ((hh a).paths) b ∧
    dictMem ((calc_pair g hh pr a).paths) b = dictMem ((hh a).paths) b := by
  rcases calc_pair_shape g hh pr with hsk | ⟨r2, vX, vY, hr2, heq⟩
  · rw [hsk]
    exact ⟨rfl, rfl⟩
  · rw [heq]
    by_cases haY : a = g.nodes.getD pr.2 0
    · have hbX : b ≠ g.nodes.getD pr.1 0 := fun hb => h2 ⟨haY, hb⟩
      rw [haY, hset_same, hset_other _ _ _ (Ne.symm hXY)]
      dsimp only
      rw [hr2, dictSet_lookup_ne _ _ _ _ hbX, dictMem_dictSet_ne _ _ _ _ hbX]
      exact ⟨rfl, rfl⟩
    · rw [hset_other _ _ _ haY]
      by_cases haX : a = g.nodes.getD pr.1 0
      · have hbY : b ≠ g.nodes.getD pr.2 0 := fun hb => h1 ⟨haX, hb⟩
        rw [haX, hset_same]
        dsimp only
        rw [hr2, dictSet_lookup_ne _ _ _ _ hbY, dictMem_dictSet_ne _ _ _ _ hbY]
        exact ⟨rfl, rfl⟩
      · rw [hset_other _ _ _ haX, hr2]
        exact ⟨rfl, rfl⟩

/-- A pair iteration keeps every key set duplicate-free. -/
theorem calc_pair_keysND (g : Graph) (hh : Heap) (pr : Nat × Nat)
    (hXY : g.nodes.getD pr.1 0 ≠ g.nodes.getD pr.2 0) (j : Nat)
    (h : keysND (hh j).paths) : keysND ((calc_pair g hh pr j).paths) := by
  rcases calc_pair_shape g hh pr with hsk | ⟨r2, vX, vY, hr2, heq⟩
  · rw [hsk]
    exact h
  · rw [heq]
    by_cases hjY : j = g.nodes.getD pr.2 0
    · rw [hjY, hset_same, hset_other _ _ _ (Ne.symm hXY)]
      dsimp only
      rw [hr2]
      exact keysND_dictSet (hjY ▸ h) _ _
    · rw [hset_other _ _ _ hjY]
      by_cases hjX : j = g.nodes.getD pr.1 0
      · rw [hjX, hset_same]
        dsimp only
        rw [hr2]
        exact keysND_dictSet (hjX ▸ h) _ _
      · rw [hset_other _ _ _ hjX]
        rw [hr2]
        exact h

/-- The firing iteration: an unguarded pair with a found target stores the
enumerated path set on the start node and its reversal on the finish
node. -/
theorem calc_pair_fire (g : Graph) (hh : Heap) (pr : Nat × Nat)
    (hXY : g.nodes.getD pr.1 0 ≠ g.nodes.getD pr.2 0)
    (hguard : ¬ (g.nodes.getD pr.2 0 ∈ (hh (g.nodes.getD pr.1 0)).neighbors ∨
      dictMem (hh (g.nodes.getD pr.1 0)).paths (g.nodes.getD pr.2 0) = true))
    (hh2 : Heap)
    (heq : dijsktra g hh (g.nodes.getD pr.1 0)
      (some (g.nodes.getD pr.2 0)) ⊤ false
      = (DijRes.node (g.nodes.getD pr.2 0), hh2)) :
    ∃ ps,
      dictLookup ((calc_pair g hh pr (g.nodes.getD pr.1 0)).paths)
        (g.nodes.getD pr.2 0) = some (some ps) ∧
      dictLookup ((calc_pair g hh pr (g.nodes.getD pr.2 0)).paths)
        (g.nodes.getD pr.1 0) = some (some (ps.map List.reverse)) := by
  have hred : ∀ j, calc_pair g hh pr j
      = hset (hset hh2 (g.nodes.getD pr.1 0) (fun n =>
          { n with paths := dictSet n.paths (g.nodes.getD pr.2 0) (some (calcT g hh2 (g.nodes.getD pr.1 0) (g.nodes.getD pr.2 0))) }))
        (g.nodes.getD pr.2 0) (fun n =>
          { n with paths := dictSet n.paths (g.nodes.getD pr.1 0) (some ((calcT g hh2 (g.nodes.getD pr.1 0) (g.nodes.getD pr.2 0)).map List.reverse)) }) j := by
    intro j
    unfold calc_pair
    dsimp only
    split
    · next hcond => exact absurd hcond hguard
    · rw [heq]
      rfl
  refine ⟨calcT g hh2 (g.nodes.getD pr.1 0) (g.nodes.getD pr.2 0), ?_, ?_⟩
  · rw [hred, hset_other _ _ _ hXY, hset_same]
    exact dictSet_lookup_self _ _ _
  · rw [hred, hset_same, hset_other _ _ _ (Ne.symm hXY)]
    exact dictSet_lookup_self _ _ _

/-- Both entries of the pair are populated and mutually reversed. -/
def c7state2 (hh : Heap) (A B : Nat) : Prop :=
  ∃ ps, dictLookup (hh A).paths B = some (some ps) ∧
    dictLookup (hh B).paths A = some (some (ps.map List.reverse))

/-- Invariant of the pair loop: neighbor lists as in the original heap,
duplicate-free dictionary keys, and the `{A, B}` entries either both
still absent or both populated and reversed. -/
def c7inv (H : Heap) (g : Graph) (A B : Nat) (hh : Heap) : Prop :=
  (∀ x, (hh x).neighbors = (H x).neighbors) ∧
  (∀ j, keysND (hh j).paths) ∧
  ((dictMem (hh A).paths B = false ∧ dictMem (hh B).paths A = false) ∨
    c7state2 hh A B)

theorem c7_step (g : Graph) (H : Heap) (iA iB : Nat)
    (hnd : g.nodes.Nodup) (hij : iA < iB) (hn : iB < g.nodes.length)
    (hcl : ∀ i ∈ g.nodes, ∀ nb ∈ (H i).neighbors, nb ∈ g.nodes)
    (hnadj : g.nodes.getD iB 0 ∉ (H (g.nodes.getD iA 0)).neighbors)
    (hreach : reach H (g.nodes.getD iA 0) (g.nodes.getD iB 0))
    (pr : Nat × Nat) (hpr1 : pr.1 < pr.2) (hpr2 : pr.2 < g.nodes.length)
    (hh : Heap)
    (hinv : c7inv H g (g.nodes.getD iA 0) (g.nodes.getD iB 0) hh) :
    c7inv H g (g.nodes.getD iA 0) (g.nodes.getD iB 0) (calc_pair g hh pr) ∧
    (c7state2 hh (g.nodes.getD iA 0) (g.nodes.getD iB 0) →
      c7state2 (calc_pair g hh pr) (g.nodes.getD iA 0) (g.nodes.getD iB 0)) ∧
    (pr = (iA, iB) →
      c7state2 (calc_pair g hh pr) (g.nodes.getD iA 0) (g.nodes.getD iB 0)) := by
  obtain ⟨hnb, hknd, hstate⟩ := hinv
  have hXY : g.nodes.getD pr.1 0 ≠ g.nodes.getD pr.2 0 := by
    intro he
    have h12 := getD_inj hnd (Nat.lt_trans hpr1 hpr2) hpr2 he
    omega
  have hAB : g.nodes.getD iA 0 ≠ g.nodes.getD iB 0 := by
    intro he
    have := getD_inj hnd (Nat.lt_trans hij hn) hn he
    omega
  have hnbrs' : ∀ x, (calc_pair g hh pr x).neighbors = (H x).neighbors :=
    fun x => (calc_pair_proj (fun n => n.neighbors) pipePres_neighbors
      g hh pr x).trans (hnb x)
  have hknd' : ∀ j, keysND ((calc_pair g hh pr j).paths) :=
    fun j => calc_pair_keysND g hh pr hXY j (hknd j)
  by_cases hpr : pr = (iA, iB)
  · have hXA : g.nodes.getD pr.1 0 = g.nodes.getD iA 0 := by rw [hpr]
    have hYB : g.nodes.getD pr.2 0 = g.nodes.getD iB 0 := by rw [hpr]
    rcases hstate with ⟨hm1, hm2⟩ | hs2
    · -- The pair fires: the guard is down and the target is reachable.
      have hguard : ¬ (g.nodes.getD pr.2 0 ∈
            (hh (g.nodes.getD pr.1 0)).neighbors ∨
          dictMem (hh (g.nodes.getD pr.1 0)).paths
            (g.nodes.getD pr.2 0) = true) := by
        rw [hXA, hYB]
        intro hor
        rcases hor with hor | hor
        · rw [hnb] at hor
          exact hnadj hor
        · rw [hm1] at hor
          exact Bool.false_ne_true hor
      have hrun := dijsktra_run g hh (g.nodes.getD iA 0) (g.nodes.getD iB 0)
        (getD_mem_of_lt (Nat.lt_trans hij hn) 0) hAB
        (fun i hi nb hnbm => hcl i hi nb (by rw [hnb i] at hnbm; exact hnbm))
      rcases hrun with ⟨hh2, heq, _⟩ | ⟨_, hnr⟩
      · obtain ⟨ps, hp1, hp2⟩ := calc_pair_fire g hh pr hXY hguard hh2
          (by rw [hXA, hYB]; exact heq)
        rw [hXA, hYB] at hp1 hp2
        exact ⟨⟨hnbrs', hknd', Or.inr ⟨ps, hp1, hp2⟩⟩,
          fun _ => ⟨ps, hp1, hp2⟩, fun _ => ⟨ps, hp1, hp2⟩⟩
      · refine absurd ?_ hnr
        obtain ⟨k, hk⟩ := hreach
        exact ⟨k, reachK_congr (fun x => (hnb x).symm) hk⟩
    · -- The entry already exists: the guard skips the pair.
      obtain ⟨ps, hp1, hp2⟩ := hs2
      have hskip : calc_pair g hh pr = hh := calc_pair_skip g hh pr (by
        rw [hXA, hYB]
        exact Or.inr (dictMem_of_lookup hp1))
      rw [hskip]
      exact ⟨⟨hnb, hknd, Or.inr ⟨ps, hp1, hp2⟩⟩, fun h2 => h2,
        fun _ => ⟨ps, hp1, hp2⟩⟩
  · -- A different pair: both `{A, B}` entries are framed.
    have hk1 : ¬ (g.nodes.getD iA 0 = g.nodes.getD pr.1 0 ∧
        g.nodes.getD iB 0 = g.nodes.getD pr.2 0) := by
      rintro ⟨h1, h2⟩
      have e1 := getD_inj hnd (Nat.lt_trans hij hn) (Nat.lt_trans hpr1 hpr2) h1
      have e2 := getD_inj hnd hn hpr2 h2
      exact hpr (Prod.ext e1.symm e2.symm)
    have hk2 : ¬ (g.nodes.getD iA 0 = g.nodes.getD pr.2 0 ∧
        g.nodes.getD iB 0 = g.nodes.getD pr.1 0) := by
      rintro ⟨h1, h2⟩
      have e1 := getD_inj hnd (Nat.lt_trans hij hn) hpr2 h1
      have e2 := getD_inj hnd hn (Nat.lt_trans hpr1 hpr2) h2
      omega
    obtain ⟨hlA, hmA⟩ := calc_pair_lookup_frame g hh pr hXY
      (g.nodes.getD iA 0) (g.nodes.getD iB 0) hk1 hk2
    obtain ⟨hlB, hmB⟩ := calc_pair_lookup_frame g hh pr hXY
      (g.nodes.getD iB 0) (g.nodes.getD iA 0)
      (fun hx => hk2 ⟨hx.2, hx.1⟩) (fun hx => hk1 ⟨hx.2, hx.1⟩)
    have hpres : c7state2 hh (g.nodes.getD iA 0) (g.nodes.getD iB 0) →
        c7state2 (calc_pair g hh pr) (g.nodes.getD iA 0) (g.nodes.getD iB 0) :=
      fun ⟨ps, h1, h2⟩ => ⟨ps, hlA.trans h1, hlB.trans h2⟩
    refine ⟨⟨hnbrs', hknd', ?_⟩, hpres, fun hpe => absurd hpe hpr⟩
    rcases hstate with ⟨hm1, hm2⟩ | hs2
    · exact Or.inl ⟨hmA.trans hm1, hmB.trans hm2⟩
    · exact Or.inr (hpres hs2)

theorem c7_fold (g : Graph) (H : Heap) (iA iB : Nat)
    (hnd : g.nodes.Nodup) (hij : iA < iB) (hn : iB < g.nodes.length)
    (hcl : ∀ i ∈ g.nodes, ∀ nb ∈ (H i).neighbors, nb ∈ g.nodes)
    (hnadj : g.nodes.getD iB 0 ∉ (H (g.nodes.getD iA 0)).neighbors)
    (hreach : reach H (g.nodes.getD iA 0) (g.nodes.getD iB 0)) :
    ∀ (prs : List (Nat × Nat)) (hh : Heap),
      (∀ pr ∈ prs, pr.1 < pr.2 ∧ pr.2 < g.nodes.length) →
      c7inv H g (g.nodes.getD iA 0) (g.nodes.getD iB 0) hh →
      c7inv H g (g.nodes.getD iA 0) (g.nodes.getD iB 0)
        (prs.foldl (fun hh2 pr => calc_pair g hh2 pr) hh) ∧
      (c7state2 hh (g.nodes.getD iA 0) (g.nodes.getD iB 0) →
        c7state2 (prs.foldl (fun hh2 pr => calc_pair g hh2 pr) hh)
          (g.nodes.getD iA 0) (g.nodes.getD iB 0)) ∧
      ((iA, iB) ∈ prs →
        c7state2 (prs.foldl (fun hh2 pr => calc_pair g hh2 pr) hh)
          (g.nodes.getD iA 0) (g.nodes.getD iB 0)) := by
  intro prs
  induction prs with
  | nil =>
    exact fun hh _ hinv => ⟨hinv, fun h2 => h2,
      fun hmem => absurd hmem (List.not_mem_nil _)⟩
  | cons pr rest ih =>
    intro hh hbnd hinv
    rw [List.foldl_cons]
    obtain ⟨hinv', hpres', hfire'⟩ := c7_step g H iA iB hnd hij hn hcl hnadj
      hreach pr (hbnd pr (List.mem_cons_self _ _)).1
      (hbnd pr (List.mem_cons_self _ _)).2 hh hinv
    obtain ⟨hinvf, hpresf, hfiref⟩ := ih (calc_pair g hh pr)
      (fun q hq => hbnd q (List.mem_cons_of_mem _ hq)) hinv'
    refine ⟨hinvf, fun h2 => hpresf (hpres' h2), fun hmem => ?_⟩
    rcases List.mem_cons.mp hmem with hmem | hmem
    · exact hpresf (hfire' hmem.symm)
    · exact hfiref hmem

theorem sort_fold_paths :
    ∀ (l : List Nat) (hh : Heap),
      (∀ j, keysND (hh j).paths) →
      (∀ j, keysND ((l.foldl sort_node_paths hh) j).paths) ∧
      (∀ a b, dictLookup ((l.foldl sort_node_paths hh) a).paths b
        = dictLookup ((hh a).paths) b) := by
  intro l
  induction l with
  | nil => exact fun hh h => ⟨h, fun a b => rfl⟩
  | cons i rest ih =>
    intro hh h
    rw [List.foldl_cons]
    have hstep_keys : ∀ j, keysND ((sort_node_paths hh i j).paths) := by
      intro j
      unfold sort_node_paths
      by_cases hj : j = i
      · rw [hj, hset_same]
        exact keysND_perm (sortBy_perm _ _).symm (h i)
      · rw [hset_other _ _ _ hj]
        exact h j
    have hstep_look : ∀ a b, dictLookup ((sort_node_paths hh i a).paths) b
        = dictLookup ((hh a).paths) b := by
      intro a b
      unfold sort_node_paths
      by_cases ha : a = i
      · rw [ha, hset_same]
        exact (dictLookup_perm (sortBy_perm _ _)
          (keysND_perm (sortBy_perm _ _).symm (h i)) b)
      · rw [hset_other _ _ _ ha]
    obtain ⟨ih1, ih2⟩ := ih (sort_node_paths hh i) hstep_keys
    exact ⟨ih1, fun a b => (ih2 a b).trans (hstep_look a b)⟩

/-- **C7.**  After `calculate_shortest_paths_for_all_nodes` on a fresh
analysis state (empty path dictionaries, duplicate-free node list, edges
inside the node list), every pair of distinct non-adjacent mutually
reachable nodes `A = nodes[iA]`, `B = nodes[iB]` (`iA < iB`) has both
`A.paths[B]` and `B.paths[A]` populated (not the `None` marker), and the
stored set `B.paths[A]` is exactly the reversal of every path of
`A.paths[B]`. -/
theorem C7_symmetric_paths (g : Graph) (h : Heap)
    (hnd : g.nodes.Nodup) (hp0 : ∀ i, (h i).paths = [])
    (hcl : ∀ i ∈ g.nodes, ∀ nb ∈ (h i).neighbors, nb ∈ g.nodes)
    (iA iB : Nat) (hij : iA < iB) (hn : iB < g.nodes.length)
    (hnadjAB : g.nodes.getD iB 0 ∉ (h (g.nodes.getD iA 0)).neighbors)
    (hnadjBA : g.nodes.getD iA 0 ∉ (h (g.nodes.getD iB 0)).neighbors)
    (hrAB : reach h (g.nodes.getD iA 0) (g.nodes.getD iB 0))
    (hrBA : reach h (g.nodes.getD iB 0) (g.nodes.getD iA 0)) :
    ∃ ps,
      dictLookup (((calculate_shortest_paths_for_all_nodes g h).2
          (g.nodes.getD iA 0)).paths) (g.nodes.getD iB 0) = some (some ps) ∧
      dictLookup (((calculate_shortest_paths_for_all_nodes g h).2
          (g.nodes.getD iB 0)).paths) (g.nodes.getD iA 0)
        = some (some (ps.map List.reverse)) := by
  have hinv0 : c7inv h g (g.nodes.getD iA 0) (g.nodes.getD iB 0) h := by
    refine ⟨fun x => rfl, fun j => ?_, Or.inl ⟨?_, ?_⟩⟩
    · rw [hp0 j]
      exact keysND_nil
    · rw [hp0]
      rfl
    · rw [hp0]
      rfl
  obtain ⟨hinvf, _, hs2⟩ := c7_fold g h iA iB hnd hij hn hcl hnadjAB hrAB
    (allPairs g.nodes.length) h allPairs_lt hinv0
  obtain ⟨ps, hl1, hl2⟩ := hs2 (allPairs_mem hij hn)
  obtain ⟨hsk, hsl⟩ := sort_fold_paths
    (set_diameter_avg_path_length g
      ((allPairs g.nodes.length).foldl (fun hh2 pr => calc_pair g hh2 pr) h)).nodes
    ((allPairs g.nodes.length).foldl (fun hh2 pr => calc_pair g hh2 pr) h)
    hinvf.2.1
  refine ⟨ps, ?_, ?_⟩
  · show dictLookup ((((set_diameter_avg_path_length g
        ((allPairs g.nodes.length).foldl (fun hh2 pr => calc_pair g hh2 pr) h)).nodes.foldl
          sort_node_paths
          ((allPairs g.nodes.length).foldl (fun hh2 pr => calc_pair g hh2 pr) h))
        (g.nodes.getD iA 0)).paths) (g.nodes.getD iB 0) = some (some ps)
    rw [hsl]
    exact hl1
  · show dictLookup ((((set_diameter_avg_path_length g
        ((allPairs g.nodes.length).foldl (fun hh2 pr => calc_pair g hh2 pr) h)).nodes.foldl
          sort_node_paths
          ((allPairs g.nodes.length).foldl (fun hh2 pr => calc_pair g hh2 pr) h))
        (g.nodes.getD iB 0)).paths) (g.nodes.getD iA 0)
      = some (some (ps.map List.reverse))
    rw [hsl]
    exact hl2

/-- Path graph `a(0) — b(1) — c(2)` for the C7 instance. -/
def c7Heap : Heap := heapOf [("a", [1]), ("b", [0, 2]), ("c", [1])]

/-- The graph object for the C7 instance. -/
def c7Graph : Graph := { Graph_init "t" with nodes := [0, 1, 2] }

/-- Witness for C7 at the path graph: `a` and `c` are distinct,
non-adjacent and mutually reachable. -/
theorem C7_symmetric_paths_witness :
    ((∀ i, (c7Heap i).paths = []) ∧ c7Graph.nodes.Nodup ∧
      (∀ i ∈ c7Graph.nodes, ∀ nb ∈ (c7Heap i).neighbors,
        nb ∈ c7Graph.nodes)) ∧
    (∃ ps,
      dictLookup (((calculate_shortest_paths_for_all_nodes c7Graph c7Heap).2
          (c7Graph.nodes.getD 0 0)).paths) (c7Graph.nodes.getD 2 0)
        = some (some ps) ∧
      dictLookup (((calculate_shortest_paths_for_all_nodes c7Graph c7Heap).2
          (c7Graph.nodes.getD 2 0)).paths) (c7Graph.nodes.getD 0 0)
        = some (some (ps.map List.reverse))) :=
  ⟨⟨fun _ => rfl, by decide, by decide⟩,
   C7_symmetric_paths c7Graph c7Heap (by decide) (fun _ => rfl) (by decide)
     0 2 (by decide) (by decide) (by decide) (by decide)
     ⟨2, @reachK.step c7Heap 0 1 2 1
       (@reachK.step c7Heap 0 0 1 0 reachK.refl (by decide)) (by decide)⟩
     ⟨2, @reachK.step c7Heap 2 1 0 1
       (@reachK.step c7Heap 2 2 1 0 reachK.refl (by decide)) (by decide)⟩⟩

/-! ### C3: `analyze_communities` never mutates the original nodes -/

theorem ite_hset_proj {α : Type} (P : NodeRec → α) {f : NodeRec → NodeRec}
    (hf : ∀ n, P (f n) = P n) (c : Prop) [Decidable c] (h : Heap) (i j : Nat) :
    P ((if c then hset h i f else h) j) = P (h j) := by
  split
  · exact hset_proj P hf h i j
  · rfl

theorem dijNbrs_bip_proj {α : Type} (P : NodeRec → α)
    (hpd : ∀ n d q, P { n with distance := d, parent := q } = P n)
    (hcol : ∀ n v, P { n with color := v } = P n)
    (bip : Bool) (cur c : Nat) :
    ∀ (l : List Nat) (h : Heap) (opn : List Nat) (j : Nat),
      P (dijNbrsHeap (dijNbrs bip cur c l h opn) j) = P (h j) := by
  intro l
  induction l with
  | nil => intro h opn j; rfl
  | cons nb rest ih =>
    intro h opn j
    simp only [dijNbrs]
    split
    · rfl
    · repeat' split
      all_goals
        first
          | exact ih _ _ j
          | exact (ih _ _ j).trans (hset_proj P (fun n => hpd n _ _) _ _ j)
          | exact (ih _ _ j).trans (hset_proj P (fun n => hcol n _) _ _ j)
          | exact ((ih _ _ j).trans (hset_proj P (fun n => hpd n _ _) _ _ j)).trans
              (hset_proj P (fun n => hcol n _) _ _ j)

theorem dijLoop_bip_proj {α : Type} (P : NodeRec → α)
    (hpd : ∀ n d q, P { n with distance := d, parent := q } = P n)
    (hcol : ∀ n v, P { n with color := v } = P n)
    (bip : Bool) (finish : Option Nat) (maxd : WithTop Nat) :
    ∀ (fuel : Nat) (opn : List Nat) (h : Heap) (c : Nat) (j : Nat),
      P ((dijLoop bip finish maxd fuel opn h c).2 j) = P (h j) := by
  intro fuel
  induction fuel with
  | zero => intro opn h c j; rfl
  | succ f ih =>
    intro opn h c j
    match opn with
    | [] => rfl
    | cur :: rest =>
      simp only [dijLoop]
      split
      · split
        · rfl
        · split
          · rfl
          · cases hr : dijNbrs bip cur (c + 1) ((h cur).neighbors) h rest with
            | inl pr =>
              have := dijNbrs_bip_proj P hpd hcol bip cur (c + 1)
                ((h cur).neighbors) h rest j
              rw [hr] at this
              exact this
            | inr pr =>
              have := dijNbrs_bip_proj P hpd hcol bip cur (c + 1)
                ((h cur).neighbors) h rest j
              rw [hr] at this
              exact (ih _ _ _ j).trans this
      · rfl

theorem dijsktra_bip_proj {α : Type} (P : NodeRec → α)
    (hpd : ∀ n d q, P { n with distance := d, parent := q } = P n)
    (hcol : ∀ n v, P { n with color := v } = P n)
    (g : Graph) (h : Heap) (start : Nat) (finish : Option Nat)
    (maxd : WithTop Nat) (bip : Bool) (j : Nat) :
    P ((dijsktra g h start finish maxd bip).2 j) = P (h j) := by
  simp only [dijsktra]
  rw [dijLoop_bip_proj P hpd hcol, hset_proj P (fun n => hpd n _ n.parent),
    ite_hset_proj P (fun n => hcol n _), reset_pathfinding_proj P hpd]

theorem bip_loop_proj {α : Type} (P : NodeRec → α)
    (hpd : ∀ n d q, P { n with distance := d, parent := q } = P n)
    (hcol : ∀ n v, P { n with color := v } = P n) (g : Graph) :
    ∀ (l : List Nat) (h : Heap) (odds : List Nat) (j : Nat),
      P ((bip_loop g l h odds).1 j) = P (h j) := by
  intro l
  induction l with
  | nil => intro h odds j; rfl
  | cons i rest ih =>
    intro h odds j
    simp only [bip_loop]
    split
    · exact (ih _ _ j).trans (hset_proj P (fun n => hcol n _) _ _ j)
    · have hd := dijsktra_bip_proj P hpd hcol g h i none ⊤ true j
      split
      · exact hd
      · split
        · exact hd
        · exact (ih _ _ j).trans hd

theorem analyze_bipartite_proj {α : Type} (P : NodeRec → α)
    (hpd : ∀ n d q, P { n with distance := d, parent := q } = P n)
    (hcol : ∀ n v, P { n with color := v } = P n)
    (fuel : Nat) (g : Graph) (h : Heap) (j : Nat) :
    P ((analyze_bipartite fuel g h).2 j) = P (h j) := by
  have hb := bip_loop_proj P hpd hcol g g.nodes h [] j
  simp only [analyze_bipartite]
  split
  · exact hb
  · split
    · exact hb
    · exact hb

/-- The full pipeline (including `analyze_bipartite`) changes no node
field other than the transient analysis fields and the color: any
projection ignoring all of those is untouched at every heap cell. -/
theorem analyze_pipeline_proj {α : Type} (P : NodeRec → α) (hp : PipePres P)
    (hcol : ∀ n v, P { n with color := v } = P n)
    (fuel : Nat) (p : Nat × Nat × Nat) (g : Graph) (h : Heap) (j : Nat) :
    P ((analyze_pipeline fuel p g h).2 j) = P (h j) := by
  simp only [analyze_pipeline]
  rw [analyze_bipartite_proj P (fun n d q => hp.pd n d q) hcol,
    pipeline_pre_bipartite_proj P hp]

/-- The rewiring fold of `get_node_copies` writes only to ids drawn from
`newIds`: any other heap cell is untouched entirely. -/
theorem copies_wire_untouched (newIds : List Nat) :
    ∀ (l : List Nat) (h : Heap) (j : Nat), j ∉ newIds →
      (l.foldl (fun hh i =>
        match newIds.find? (fun j2 => (hh j2).name == (hh i).name) with
        | none => hh
        | some ni =>
          (hh i).neighbors.foldl (fun hh2 nb =>
              match newIds.find? (fun j2 => (hh2 j2).name == (hh2 nb).name) with
              | none => hh2
              | some nj => hset hh2 ni (fun n =>
                  { n with neighbors := n.neighbors ++ [nj] })) hh) h) j = h j := by
  have hinner : ∀ (nbrs : List Nat) (ni : Nat) (h : Heap) (j : Nat), j ≠ ni →
      (nbrs.foldl (fun hh2 nb =>
          match newIds.find? (fun j2 => (hh2 j2).name == (hh2 nb).name) with
          | none => hh2
          | some nj => hset hh2 ni (fun n =>
              { n with neighbors := n.neighbors ++ [nj] })) h) j = h j := by
    intro nbrs
    induction nbrs with
    | nil => intro ni h j _; rfl
    | cons nb rest ih =>
      intro ni h j hj
      rw [List.foldl_cons]
      cases hf : newIds.find? (fun j2 => (h j2).name == (h nb).name) with
      | none => exact ih ni h j hj
      | some nj => exact (ih ni _ j hj).trans (hset_other _ _ _ hj)
  intro l
  induction l with
  | nil => intro h j _; rfl
  | cons i rest ihl =>
    intro h j hj
    rw [List.foldl_cons]
    cases hf : newIds.find? (fun j2 => (h j2).name == (h i).name) with
    | none => exact ihl h j hj
    | some ni =>
      have hni : ni ∈ newIds := List.mem_of_find?_eq_some hf
      exact (ihl _ j hj).trans (hinner _ ni h j (fun he => hj (he ▸ hni)))

/-- `get_node_copies` writes only at the freshly allocated ids: every
cell below the allocation counter is returned unchanged. -/
theorem get_node_copies_frame (h : Heap) (nodes : List Nat) (next : Nat)
    (j : Nat) (hj : j < next) :
    (get_node_copies h nodes next).1 j = h j := by
  have h1 : ∀ k ∈ List.range nodes.length, j ≠ next + k := by
    intro k _ hk
    omega
  have h2 : j ∉ (List.range nodes.length).map (fun k => next + k) := by
    simp only [List.mem_map, List.mem_range]
    rintro ⟨k, _, hk⟩
    omega
  simp only [get_node_copies]
  rw [copies_wire_untouched _ _ _ j h2, copies_alloc_untouched _ _ _ _ j h1]

/-- `delete_edge_from_copy` writes only at ids from `nodes_copy`. -/
theorem delete_edge_frame (h : Heap) (edge : Nat × Nat)
    (nodes_copy : List Nat) (j : Nat) (hj : j ∉ nodes_copy) :
    delete_edge_from_copy h edge nodes_copy j = h j := by
  simp only [delete_edge_from_copy]
  cases hfil : nodes_copy.filter
      (fun i => decide ((h i).name ∈ [(h edge.1).name, (h edge.2).name])) with
  | nil => rfl
  | cons a t1 =>
    cases t1 with
    | nil => rfl
    | cons b t =>
      have ha0 : a ∈ nodes_copy.filter
          (fun i => decide ((h i).name ∈ [(h edge.1).name, (h edge.2).name])) := by
        rw [hfil]
        exact List.mem_cons_self a _
      have hb0 : b ∈ nodes_copy.filter
          (fun i => decide ((h i).name ∈ [(h edge.1).name, (h edge.2).name])) := by
        rw [hfil]
        exact List.mem_cons_of_mem a (List.mem_cons_self b t)
      have ha : a ∈ nodes_copy := List.mem_of_mem_filter ha0
      have hb : b ∈ nodes_copy := List.mem_of_mem_filter hb0
      have hjb : j ≠ b := by
        intro he
        rw [he] at hj
        exact hj hb
      have hja : j ≠ a := by
        intro he
        rw [he] at hj
        exact hj ha
      show hset (hset h a (fun n => { n with neighbors := n.neighbors.erase b })) b
        (fun n => { n with neighbors := n.neighbors.erase a }) j = h j
      rw [hset_other _ _ _ hjb, hset_other _ _ _ hja]

/-- Every id produced by the allocator of `get_node_copies` is at least
the allocation counter. -/
theorem newIds_le (next len : Nat) (x : Nat)
    (hx : x ∈ (List.range len).map (fun k => next + k)) : next ≤ x := by
  simp only [List.mem_map, List.mem_range] at hx
  obtain ⟨k, _, hk⟩ := hx
  omega

/-- Invariant of the community-detection loop: the allocation counter
never decreases, and the neighbor list of every heap cell below the
initial counter is never changed — all copy and edge-deletion writes land
at freshly allocated ids, and the per-subgraph analysis pipeline never
touches any neighbor list. -/
theorem comm_loop_frame (pipelineFuel : Nat) (rnd : Nat → Nat × Nat × Nat)
    (g0 : Graph) (next0 : Nat) :
    ∀ (fuel : Nat) (st : CommState), next0 ≤ st.next →
      next0 ≤ (comm_loop pipelineFuel rnd g0 fuel st).next ∧
      ∀ j, j < next0 →
        ((comm_loop pipelineFuel rnd g0 fuel st).h j).neighbors
          = (st.h j).neighbors := by
  intro fuel
  induction fuel with
  | zero => intro st hst; exact ⟨hst, fun j _ => rfl⟩
  | succ f ih =>
    intro st hst
    simp only [comm_loop]
    split
    · constructor
      · exact (ih _ (le_trans hst (Nat.le_add_right _ _))).1
      · intro j hj
        refine ((ih _ (le_trans hst (Nat.le_add_right _ _))).2 j hj).trans ?_
        have hj2 : j ∉ (get_node_copies st.h st.current.nodes st.next).2.1 := by
          intro hmem
          have hx := newIds_le st.next st.current.nodes.length j hmem
          omega
        dsimp only
        rw [analyze_pipeline_proj (fun n => n.neighbors) pipePres_neighbors
            (fun n v => rfl),
          delete_edge_frame _ _ _ j hj2,
          get_node_copies_frame st.h _ st.next j (by omega)]
    · exact ⟨hst, fun j _ => rfl⟩

/-- **C3** (frame effect).  `analyze_communities` leaves the original
graph's node list and adjacency matrix unchanged, and the neighbor list
of every pre-existing node — every heap cell below the allocation
counter, hence in particular every node of the original graph — is
exactly what it was before the call: each iteration's edge deletion
touches only the fresh `Node` copies made by `get_node_copies`, never
the original nodes. -/
theorem C3_communities_frame (loopFuel pipelineFuel : Nat)
    (rnd : Nat → Nat × Nat × Nat) (g : Graph) (h : Heap) (next : Nat)
    (hlt : ∀ i ∈ g.nodes, i < next) :
    (analyze_communities loopFuel pipelineFuel rnd g h next).1.nodes = g.nodes ∧
    (analyze_communities loopFuel pipelineFuel rnd g h next).1.am = g.am ∧
    (∀ j, j < next →
      ((analyze_communities loopFuel pipelineFuel rnd g h next).2.1 j).neighbors
        = (h j).neighbors) ∧
    ∀ i ∈ g.nodes,
      ((analyze_communities loopFuel pipelineFuel rnd g h next).2.1 i).neighbors
        = (h i).neighbors := by
  have hframe := comm_loop_frame pipelineFuel rnd g next loopFuel
    { h := h, next := next, current := g, i := 1, current_snips := [],
      subgraphs := [], snips := [], connectivity := none } (le_refl next)
  exact ⟨rfl, rfl, fun j hj => hframe.2 j hj, fun i hi => hframe.2 i (hlt i hi)⟩

/-- Path graph `a(0) — b(1) — c(2)` for the C3 instance. -/
def c3Heap : Heap := heapOf [("a", [1]), ("b", [0, 2]), ("c", [1])]

/-- The graph object for the C3 instance. -/
def c3Graph : Graph := { Graph_init "t" with nodes := [0, 1, 2] }

/-- Witness for C3 on the path graph with allocation counter 3. -/
theorem C3_communities_frame_witness :
    (∀ i ∈ c3Graph.nodes, i < 3) ∧
    ((analyze_communities 4 9 (fun _ => (0, 0, 0)) c3Graph c3Heap 3).1.nodes
        = c3Graph.nodes ∧
      (analyze_communities 4 9 (fun _ => (0, 0, 0)) c3Graph c3Heap 3).1.am
        = c3Graph.am ∧
      (∀ j, j < 3 →
        ((analyze_communities 4 9 (fun _ => (0, 0, 0)) c3Graph c3Heap 3).2.1
            j).neighbors = (c3Heap j).neighbors) ∧
      ∀ i ∈ c3Graph.nodes,
        ((analyze_communities 4 9 (fun _ => (0, 0, 0)) c3Graph c3Heap 3).2.1
            i).neighbors = (c3Heap i).neighbors) :=
  ⟨by decide,
   C3_communities_frame 4 9 (fun _ => (0, 0, 0)) c3Graph c3Heap 3 (by decide)⟩

end NetworkAnalysis
